import Mathlib

/-!
# content_script.js: URL normaliser and `[image=...]` tag rewriter

A shallow embedding of `src/content_script.js` and the properties of its
specification.

Modelling conventions.

* A JavaScript string is a `List Char`.  The regular expressions of the script
  carry no `u` flag, so they work on UTF-16 code units; every class and literal
  they use (`\w`, `\s`, `.`, ASCII punctuation) lies in the Basic Multilingual
  Plane and a character outside it is two surrogate units that `.` accepts and
  `\w`, `\s` reject, exactly as the single `Char` does here.  Offsets (`index`,
  `lastIndex`) count the characters of the list, where the language counts code
  units: they agree on text within the Basic Multilingual Plane.
* Regular expressions are values of `Re`, run by a backtracking matcher in
  continuation-passing style (`Re.m`), which is the matcher semantics of
  ECMA-262 (22.2.2): alternatives are tried in priority order and the first
  success wins.
* The shared `lastIndex` cursor of the global `IMAGE_TAG_REGEX` is threaded
  explicitly through `test`, `exec` and the rewriter.  It is 0 when the script
  starts and after every scan that starts at 0.
* The property read `aliasMap[alias]` follows the prototype chain of the object
  literal, as the language does.
* The `try` block that builds a placeholder is a parameter `createImg`: for a
  source URL it tells whether the block completes or throws.
* Loops of the script carry an iteration bound and return `none` when it is
  exhausted; the theorems show that they return `some`.
* The closure of `debounce` is a state (`Debounce`) driven by calls and by time
  passing on a millisecond clock; a pending timer expires at its due time.
-/

namespace CS

/-! ## Characters and strings -/

/-- Line terminators of ECMA-262: LF, CR, LS, PS.  The regex `.` rejects them. -/
def isLineTerminator (c : Char) : Bool :=
  c.toNat == 0x0A || c.toNat == 0x0D || c.toNat == 0x2028 || c.toNat == 0x2029

/-- White space in the sense of `\s` and of `String.prototype.trim`:
ECMA-262 WhiteSpace together with LineTerminator. -/
def isSpace (c : Char) : Bool :=
  c.toNat == 0x09 || c.toNat == 0x0B || c.toNat == 0x0C || c.toNat == 0x20 ||
  c.toNat == 0xA0 || c.toNat == 0x1680 || (0x2000 ≤ c.toNat && c.toNat ≤ 0x200A) ||
  c.toNat == 0x202F || c.toNat == 0x205F || c.toNat == 0x3000 || c.toNat == 0xFEFF ||
  isLineTerminator c

/-- Word characters of `\w` and `\b`: ASCII letters, digits and underscore. -/
def isWord (c : Char) : Bool :=
  (0x30 ≤ c.toNat && c.toNat ≤ 0x39) || (0x41 ≤ c.toNat && c.toNat ≤ 0x5A) ||
  (0x61 ≤ c.toNat && c.toNat ≤ 0x7A) || c.toNat == 0x5F

/-- The method `String.prototype.trim`. -/
def trim (s : List Char) : List Char :=
  ((s.dropWhile isSpace).reverse.dropWhile isSpace).reverse

/-- The method `String.prototype.slice(a, b)` for `0 ≤ a` and `0 ≤ b`. -/
def slice (s : List Char) (a b : Nat) : List Char :=
  (s.drop a).take (b - a)

/-! ## Regular expressions -/

/-- Character classes used by the script. -/
inductive Cls where
  | word
  | space
  | dot
deriving DecidableEq, Repr

/-- Membership of a character in a class. -/
def Cls.test : Cls → Char → Bool
  | .word, c => isWord c
  | .space, c => isSpace c
  | .dot, c => !isLineTerminator c

/-- Regular expression syntax (the fragment the script uses). -/
inductive Re where
  | eps
  | chr (c : Char)
  | cls (k : Cls)
  | seq (a b : Re)
  | alt (a b : Re)
  | star (greedy : Bool) (r : Re)
  | group (i : Nat) (r : Re)
  | bol
  | eol
  | wordB
deriving Repr

/-- Matcher state: the input already consumed (most recent character first),
the input still ahead, and the captures recorded so far (latest first). -/
structure St where
  pre : List Char
  rest : List Char
  caps : List (Nat × List Char)
deriving DecidableEq, Repr

/-- Whether the character next to a position (if any) is a word character. -/
def wordSide : List Char → Bool
  | [] => false
  | c :: _ => isWord c

/-- The matcher of `r*` (greedy) and `r*?` (lazy).  An iteration that consumes
nothing is rejected, as in RepeatMatcher; the counter is the length of the
remaining input, which bounds the number of consuming iterations. -/
def starK (step : St → (St → Option St) → Option St) (greedy : Bool) :
    Nat → St → (St → Option St) → Option St
  | 0, s, k => k s
  | n + 1, s, k =>
    let again := step s (fun t =>
      if t.rest.length < s.rest.length then starK step greedy n t k else none)
    if greedy then again.orElse (fun _ => k s) else (k s).orElse (fun _ => again)

/-- The backtracking matcher: `r.m s k` matches `r` at state `s` and hands every
way of doing so, in priority order, to the continuation `k` until one
succeeds. -/
def Re.m : Re → St → (St → Option St) → Option St
  | .eps, s, k => k s
  | .chr c, s, k =>
    match s.rest with
    | x :: xs => if x = c then k ⟨x :: s.pre, xs, s.caps⟩ else none
    | [] => none
  | .cls p, s, k =>
    match s.rest with
    | x :: xs => if p.test x then k ⟨x :: s.pre, xs, s.caps⟩ else none
    | [] => none
  | .seq a b, s, k => a.m s (fun t => b.m t k)
  | .alt a b, s, k => (a.m s k).orElse (fun _ => b.m s k)
  | .star g r, s, k => starK r.m g s.rest.length s k
  | .group i r, s, k =>
    r.m s (fun t =>
      k ⟨t.pre, t.rest, (i, s.rest.take (s.rest.length - t.rest.length)) :: t.caps⟩)
  | .bol, s, k => if s.pre = [] then k s else none
  | .eol, s, k => if s.rest = [] then k s else none
  | .wordB, s, k => if wordSide s.pre != wordSide s.rest then k s else none

/-- A sequence of patterns. -/
def Re.cat : List Re → Re
  | [] => .eps
  | r :: rs => .seq r (Re.cat rs)

/-- A literal string. -/
def Re.str : List Char → Re
  | [] => .eps
  | c :: cs => .seq (.chr c) (Re.str cs)

/-- The quantifier `r+`. -/
def Re.plus (greedy : Bool) (r : Re) : Re := .seq r (.star greedy r)

/-- One attempt to match `re` at the position between `pre` and `rest`. -/
def execAt (re : Re) (pre rest : List Char) : Option St :=
  re.m ⟨pre, rest, []⟩ some

/-- Leftmost search: the first position at or after the cursor where `re`
matches, as the state at the start of the match and the state at its end. -/
def search (re : Re) : List Char → List Char → Option (St × St)
  | pre, [] => (execAt re pre []).map (fun e => (⟨pre, [], []⟩, e))
  | pre, c :: rest =>
    match execAt re pre (c :: rest) with
    | some e => some (⟨pre, c :: rest, []⟩, e)
    | none => search re (c :: pre) rest

/-- A match object: `index`, the matched text `match[0]`, and the captures. -/
structure MatchResult where
  index : Nat
  matched : List Char
  groups : List (Nat × List Char)
deriving DecidableEq, Repr

/-- The match object of a successful search. -/
def mkMatch (b e : St) : MatchResult :=
  ⟨b.pre.length, b.rest.take (b.rest.length - e.rest.length), e.caps⟩

/-- The capture `match[i]` for `i ≥ 1`; `none` is `undefined`. -/
def MatchResult.cap (r : MatchResult) (i : Nat) : Option (List Char) :=
  (r.groups.find? (fun p => p.1 == i)).map (fun p => p.2)

/-- The method `String.prototype.match` with a regex that is not global. -/
def matchRe (re : Re) (s : List Char) : Option MatchResult :=
  (search re [] s).map (fun p => mkMatch p.1 p.2)

/-- The method `String.prototype.replace` with a regex that is not global and a
replacement string without `$` patterns: the first match is replaced. -/
def replace (re : Re) (repl : List Char) (s : List Char) : List Char :=
  match search re [] s with
  | none => s
  | some (b, e) => b.pre.reverse ++ repl ++ e.rest

/-- The scan of `replace` with a global regex: `skip` counts the characters of
the current match still to be passed over.  A match that is not empty is
replaced and the search resumes at its end; an empty match is replaced and the
search resumes one character later. -/
def replaceAllFrom (re : Re) (repl : List Char) : List Char → List Char → Nat → List Char
  | pre, [], 0 =>
    match execAt re pre [] with
    | some _ => repl
    | none => []
  | _, [], _ + 1 => []
  | pre, c :: rest, skip + 1 => replaceAllFrom re repl (c :: pre) rest skip
  | pre, c :: rest, 0 =>
    match execAt re pre (c :: rest) with
    | none => c :: replaceAllFrom re repl (c :: pre) rest 0
    | some e =>
      if e.rest.length < (c :: rest).length then
        repl ++ replaceAllFrom re repl (c :: pre) rest (rest.length - e.rest.length)
      else
        repl ++ c :: replaceAllFrom re repl (c :: pre) rest 0

/-- The method `String.prototype.replace` with a global regex and a replacement
string without `$` patterns: every match, left to right, is replaced. -/
def replaceAll (re : Re) (repl : List Char) (s : List Char) : List Char :=
  replaceAllFrom re repl [] s 0

/-! ## The alias table and property lookup -/

/-- The own properties of the object literal `aliasMap` (lines 9 to 14). -/
def aliasMap : List (List Char × List Char) :=
  [("pcd".toList, "cdn.fourvo.id".toList),
   ("yt".toList, "i.ytimg.com".toList),
   ("gh".toList, "raw.githubusercontent.com".toList),
   ("mc".toList, "textures.minecraft.net".toList)]

/-- The values a property read on `aliasMap` can produce. -/
inductive JSVal where
  | str (s : List Char)
  | builtinFn (name : List Char)
  | objectProto
  | undefined
deriving DecidableEq, Repr

/-- The properties every object literal inherits from `Object.prototype`
(ECMA-262 20.1.3 and B.2.2): eleven built-in functions and the accessor
`__proto__`, which yields the prototype itself. -/
def objectPrototype : List (List Char × JSVal) :=
  [("constructor".toList, .builtinFn "Object".toList),
   ("hasOwnProperty".toList, .builtinFn "hasOwnProperty".toList),
   ("isPrototypeOf".toList, .builtinFn "isPrototypeOf".toList),
   ("propertyIsEnumerable".toList, .builtinFn "propertyIsEnumerable".toList),
   ("toLocaleString".toList, .builtinFn "toLocaleString".toList),
   ("toString".toList, .builtinFn "toString".toList),
   ("valueOf".toList, .builtinFn "valueOf".toList),
   ("__defineGetter__".toList, .builtinFn "__defineGetter__".toList),
   ("__defineSetter__".toList, .builtinFn "__defineSetter__".toList),
   ("__lookupGetter__".toList, .builtinFn "__lookupGetter__".toList),
   ("__lookupSetter__".toList, .builtinFn "__lookupSetter__".toList),
   ("__proto__".toList, .objectProto)]

/-- The property read `aliasMap[key]`: own properties first, then the
prototype chain, else `undefined`. -/
def aliasMapGet (key : List Char) : JSVal :=
  match aliasMap.find? (fun p => p.1 == key) with
  | some p => .str p.2
  | none =>
    match objectPrototype.find? (fun p => p.1 == key) with
    | some p => p.2
    | none => .undefined

/-- The conversion ToBoolean. -/
def JSVal.truthy : JSVal → Bool
  | .str s => !s.isEmpty
  | .builtinFn _ => true
  | .objectProto => true
  | .undefined => false

/-- The conversion ToString, as a template literal applies it.  A built-in
function prints in the NativeFunction form. -/
def JSVal.toStr : JSVal → List Char
  | .str s => s
  | .builtinFn name => "function ".toList ++ name ++ "() \x7b [native code] \x7d".toList
  | .objectProto => "[object Object]".toList
  | .undefined => "undefined".toList

/-! ## The regular expressions of the script -/

/-- The pattern `/\[image=(.*?)\]/g` (line 17). -/
def IMAGE_TAG_REGEX : Re :=
  .cat [.str "[image=".toList, .group 1 (.star false (.cls .dot)), .chr ']']

/-- The pattern `/^(hs|h):\/\/(\w+)\s*\((.*?)\)\/\((.*?)\)$/` (line 29). -/
def complexRe : Re :=
  .cat [.bol, .group 1 (.alt (.str "hs".toList) (.str "h".toList)), .str "://".toList,
    .group 2 (.plus true (.cls .word)), .star true (.cls .space), .chr '(',
    .group 3 (.star false (.cls .dot)), .str ")/(".toList,
    .group 4 (.star false (.cls .dot)), .chr ')', .eol]

/-- The pattern `/^(hs|h):\/\/(\w+)\/\((.*?)\)$/` (line 38). -/
def aliasRe : Re :=
  .cat [.bol, .group 1 (.alt (.str "hs".toList) (.str "h".toList)), .str "://".toList,
    .group 2 (.plus true (.cls .word)), .str "/(".toList,
    .group 3 (.star false (.cls .dot)), .chr ')', .eol]

/-- The pattern `/^h:\/\//` (line 50). -/
def hRe : Re := .cat [.bol, .str "h://".toList]

/-- The pattern `/^hs:\/\//` (line 51). -/
def hsRe : Re := .cat [.bol, .str "hs://".toList]

/-- The pattern `/\.cv\b/g` (line 52). -/
def cvRe : Re := .cat [.str ".cv".toList, .wordB]

/-- The pattern `/\.dic\b/g` (line 53). -/
def dicRe : Re := .cat [.str ".dic".toList, .wordB]

/-- The pattern `/\.mcd\b/g` (line 54). -/
def mcdRe : Re := .cat [.str ".mcd".toList, .wordB]

/-! ## The normaliser -/

/-- A capture inside a template literal: `undefined` prints as such. -/
def capStr (r : MatchResult) (i : Nat) : List Char :=
  match r.cap i with
  | some s => s
  | none => "undefined".toList

/-- The expression `m[1] === "hs" ? "https" : "http"` (lines 31 and 40). -/
def schemeOf (r : MatchResult) : List Char :=
  if r.cap 1 = some "hs".toList then "https".toList else "http".toList

/-- The fallback stage (lines 49 to 54): five replacements in sequence. -/
def fallback (url : List Char) : List Char :=
  replaceAll mcdRe ".me".toList
    (replaceAll dicRe ".id".toList
      (replaceAll cvRe ".com".toList
        (replace hsRe "https://".toList
          (replace hRe "http://".toList url))))

/-- The function `normalizeURL` (lines 24 to 57), on a string argument. -/
def normalizeURL (url0 : List Char) : List Char :=
  if url0.isEmpty then url0 else
  let url := trim url0
  match matchRe complexRe url with
  | some cm =>
    schemeOf cm ++ "://".toList ++ capStr cm 3 ++ "/".toList ++ capStr cm 4
  | none =>
    match matchRe aliasRe url with
    | some am =>
      if (aliasMapGet (capStr am 2)).truthy then
        schemeOf am ++ "://".toList ++ (aliasMapGet (capStr am 2)).toStr ++ "/".toList ++ capStr am 3
      else fallback url
    | none => fallback url

/-- The input reaches the fallback stage (line 49): it is not falsy, the complex
pattern does not match its trimmed form, and the short pattern either does not
match or captures a token whose lookup in `aliasMap` is falsy. -/
def reachesFallback (url0 : List Char) : Bool :=
  !url0.isEmpty && (matchRe complexRe (trim url0)).isNone &&
    (match matchRe aliasRe (trim url0) with
     | some am => !(aliasMapGet (capStr am 2)).truthy
     | none => true)

/-! ## The fallback substitutions as the specification words them -/

/-- Specification side: a leading `h://` becomes `http://`. -/
def specExpandH (s : List Char) : List Char :=
  if "h://".toList.isPrefixOf s then "http://".toList ++ s.drop 4 else s

/-- Specification side: a leading `hs://` becomes `https://`. -/
def specExpandHs (s : List Char) : List Char :=
  if "hs://".toList.isPrefixOf s then "https://".toList ++ s.drop 5 else s

/-- Specification side: `s` begins with the letters `l` and a word boundary
follows them (the end of the string or a character that is not a word
character). -/
def tldHead (l s : List Char) : Bool :=
  l.isPrefixOf s && !wordSide (s.drop l.length)

/-- Specification side: the shorthand `.` followed by the letters `l` stands at
the head of `s`, at a word boundary. -/
def tldAt (l : List Char) : List Char → Bool
  | [] => false
  | c :: r => c == '.' && tldHead l r

/-- Specification side: every shorthand `.l` at a word boundary is replaced by
`.n`, left to right; `skip` counts the letters of the current occurrence still
to be dropped. -/
def specReplaceTld (l n : List Char) : List Char → Nat → List Char
  | [], _ => []
  | _ :: r, skip + 1 => specReplaceTld l n r skip
  | c :: r, 0 =>
    if tldAt l (c :: r) then '.' :: (n ++ specReplaceTld l n r l.length)
    else c :: specReplaceTld l n r 0

/-- Specification side: the fallback substitutions, all applied, in order. -/
def specFallback (s : List Char) : List Char :=
  specReplaceTld "mcd".toList "me".toList
    (specReplaceTld "dic".toList "id".toList
      (specReplaceTld "cv".toList "com".toList (specExpandHs (specExpandH s)) 0) 0) 0

/-- Specification side: `.l` occurs in `s` followed by a word boundary. -/
def TldOcc (l s : List Char) : Prop :=
  ∃ a b, s = a ++ '.' :: (l ++ b) ∧ wordSide b = false

/-- Specification side: none of the patterns of the fallback stage occurs in
`s`. -/
def NoFallbackPattern (s : List Char) : Prop :=
  ¬ "h://".toList <+: s ∧ ¬ "hs://".toList <+: s ∧
    ¬ TldOcc "cv".toList s ∧ ¬ TldOcc "dic".toList s ∧ ¬ TldOcc "mcd".toList s

/-! ## The regex cursor -/

/-- The method `RegExp.prototype.exec` of a global regex whose cursor is
`lastIndex`: the match object (or `null`) and the new cursor.  A cursor past the
end of the text, or a failed search, resets the cursor to 0; a match moves it
to the end of the match. -/
def exec (re : Re) (text : List Char) (lastIndex : Nat) : Option MatchResult × Nat :=
  if text.length < lastIndex then (none, 0) else
  match search re (text.take lastIndex).reverse (text.drop lastIndex) with
  | none => (none, 0)
  | some (b, e) => (some (mkMatch b e), e.pre.length)

/-- The method `RegExp.prototype.test`: `exec` reduced to a boolean. -/
def test (re : Re) (text : List Char) (lastIndex : Nat) : Bool × Nat :=
  ((exec re text lastIndex).1.isSome, (exec re text lastIndex).2)

/-! ## The DOM and the tag rewriter -/

/-- A DOM node below a comment container: a text node with its `nodeValue`, an
image placeholder with its `src` (its other attributes are the constants of
lines 97 to 105), or any other element with its children. -/
inductive Node where
  | text (v : List Char)
  | img (src : List Char)
  | elem (name : List Char) (kids : List Node)
deriving Repr

/-- A comment container: the value of `dataset.imageParserProcessed` (absent or
a string) and the child nodes. -/
structure Container where
  processed : Option (List Char)
  kids : List Node
deriving Repr

/-- What the rewriter appends to the fragment.  `lit` is a text node for the
text before a match or after the last one, `img` the placeholder built for a
match, `raw` the text node of the `catch` branch holding `match[0]`.  The match
object kept in `img` and `raw` records where the segment comes from; the DOM
node (`Seg.toNode`) does not hold it. -/
inductive Seg where
  | lit (s : List Char)
  | img (src : List Char) (m : MatchResult)
  | raw (m : MatchResult)
deriving DecidableEq, Repr

/-- The DOM node of a segment. -/
def Seg.toNode : Seg → Node
  | .lit s => .text s
  | .img src _ => .img src
  | .raw m => .text m.matched

/-- The `while` loop of lines 86 to 113 followed by lines 116 and 117.
`createImg src` tells whether the `try` block building a placeholder for `src`
completes (`true`) or throws (`false`).  `reLast` is `IMAGE_TAG_REGEX.lastIndex`,
`lastIndex` the local variable of line 84.  The result is the fragment and the
final cursor; `none` means the iteration bound was exhausted. -/
def tagLoop (createImg : List Char → Bool) (text : List Char) :
    Nat → Nat → Nat → List Seg → Option (List Seg × Nat)
  | 0, _, _, _ => none
  | fuel + 1, reLast, lastIndex, frag =>
    match exec IMAGE_TAG_REGEX text reLast with
    | (none, reLast1) =>
      let trailing := text.drop lastIndex
      some (if trailing.isEmpty then frag else frag ++ [.lit trailing], reLast1)
    | (some m, reLast1) =>
      let before := slice text lastIndex m.index
      let frag1 := if before.isEmpty then frag else frag ++ [.lit before]
      let rawUrl := trim (capStr m 1)
      let normalized := normalizeURL rawUrl
      let frag2 :=
        if createImg normalized then frag1 ++ [.img normalized m] else frag1 ++ [.raw m]
      tagLoop createImg text fuel reLast1 reLast1 frag2

/-- The body of the `forEach` callback (lines 75 to 121) for one text node.  The
inner `none` says the node is left in place (empty text, or `test` failed); a
fragment says the node is replaced by it. -/
def processTextNode (createImg : List Char → Bool) (text : List Char) (reLast : Nat) :
    Option (Option (List Seg) × Nat) :=
  if text.isEmpty then some (none, reLast) else
  match test IMAGE_TAG_REGEX text reLast with
  | (false, reLast1) => some (none, reLast1)
  | (true, _) =>
    (tagLoop createImg text (text.length + 1) 0 0 []).map (fun p => (some p.1, p.2))

/-- The rewriter on a subtree: every text node, in document order, goes through
`processTextNode` and is replaced by the nodes of its fragment. -/
def processNode (createImg : List Char → Bool) : Node → Nat → Option (List Node × Nat)
  | .text v, reLast =>
    (processTextNode createImg v reLast).map (fun p =>
      (match p.1 with
       | none => [Node.text v]
       | some frag => frag.map Seg.toNode, p.2))
  | .img src, reLast => some ([.img src], reLast)
  | .elem name kids, reLast =>
    (processNodes kids reLast).map (fun p => ([.elem name p.1], p.2))
where
  /-- The rewriter on a list of sibling subtrees. -/
  processNodes : List Node → Nat → Option (List Node × Nat)
  | [], reLast => some ([], reLast)
  | n :: ns, reLast =>
    match processNode createImg n reLast with
    | none => none
    | some (a, reLast1) =>
      match processNodes ns reLast1 with
      | none => none
      | some (b, reLast2) => some (a ++ b, reLast2)

/-- The function `processCommentElement` (lines 60 to 125): the check of the
processed marker (lines 63 to 66, an `if` whose body is empty), the rewriting of
the text nodes, then the setting of the processed marker (line 124). -/
def processCommentElement (createImg : List Char → Bool) (el : Container) (reLast : Nat) :
    Option (Container × Nat) :=
  let el := if el.processed = some "1".toList then el else el
  (processNode.processNodes createImg el.kids reLast).map (fun p =>
    (⟨some "1".toList, p.1⟩, p.2))

/-! ## Tags, matches and segments as the specification words them -/

/-- Specification side: the argument of a tag whose `[image=` has been read, and
the text after the tag: the argument runs up to the first `]` and holds no line
terminator. -/
def tagArg : List Char → Option (List Char × List Char)
  | [] => none
  | c :: r =>
    if c = ']' then some ([], r)
    else if isLineTerminator c then none
    else (tagArg r).map (fun p => (c :: p.1, p.2))

/-- Specification side: the tag that stands at the head of `s`, as its argument
and the text after it. -/
def tagAt (s : List Char) : Option (List Char × List Char) :=
  if "[image=".toList.isPrefixOf s then tagArg (s.drop 7) else none

/-- The text of the tag with argument `arg`. -/
def tagText (arg : List Char) : List Char :=
  "[image=".toList ++ arg ++ "]".toList

/-- The scan behind `String.prototype.matchAll`: the matches of a global regex,
left to right and not overlapping; `skip` counts the characters of the current
match still to be passed over. -/
def matchAllFrom (re : Re) : List Char → List Char → Nat → List MatchResult
  | pre, [], 0 =>
    match execAt re pre [] with
    | some e => [mkMatch ⟨pre, [], []⟩ e]
    | none => []
  | _, [], _ + 1 => []
  | pre, c :: rest, skip + 1 => matchAllFrom re (c :: pre) rest skip
  | pre, c :: rest, 0 =>
    match execAt re pre (c :: rest) with
    | none => matchAllFrom re (c :: pre) rest 0
    | some e =>
      mkMatch ⟨pre, c :: rest, []⟩ e ::
        (if e.rest.length < (c :: rest).length then
          matchAllFrom re (c :: pre) rest (rest.length - e.rest.length)
        else matchAllFrom re (c :: pre) rest 0)

/-- The matches of a global regex in `s`, left to right and not overlapping. -/
def matchAll (re : Re) (s : List Char) : List MatchResult :=
  matchAllFrom re [] s 0

/-- The text of the original string a segment stands for: the literal text, or
the full matched tag text. -/
def Seg.source : Seg → List Char
  | .lit s => s
  | .img _ m => m.matched
  | .raw m => m.matched

/-- The match a segment was created from, if it was created from one. -/
def Seg.origin : Seg → Option MatchResult
  | .lit _ => none
  | .img _ m => some m
  | .raw m => some m

/-- The source URL of a placeholder segment. -/
def Seg.src : Seg → Option (List Char)
  | .img u _ => some u
  | _ => none

/-- The text nodes below a node, in document order. -/
def Node.texts : Node → List (List Char)
  | .text v => [v]
  | .img _ => []
  | .elem _ kids => textsList kids
where
  /-- The text nodes below a list of siblings, in document order. -/
  textsList : List Node → List (List Char)
  | [] => []
  | n :: ns => n.texts ++ textsList ns

/-- The pattern `IMAGE_TAG_REGEX` matches somewhere in `s`. -/
def hasTag (s : List Char) : Bool :=
  (search IMAGE_TAG_REGEX [] s).isSome

/-- The segment the loop appends for a tag with argument `arg` matched at
`index` (lines 90 to 110). -/
def tagSeg (createImg : List Char → Bool) (index : Nat) (arg : List Char) : Seg :=
  if createImg (normalizeURL (trim arg)) then
    .img (normalizeURL (trim arg)) ⟨index, tagText arg, [(1, arg)]⟩
  else .raw ⟨index, tagText arg, [(1, arg)]⟩

/-- The text a fragment stands for: its segments put back, placeholders as the
tag text they were created from. -/
def restore : List Seg → List Char
  | [] => []
  | s :: ss => s.source ++ restore ss

/-- The source URLs of the placeholders a text node receives (none when the
node is left in place). -/
def placeholders : Option (List Seg) → List (List Char)
  | none => []
  | some frag => frag.filterMap Seg.src

/-- The normaliser with rule 2 tried before rule 1: `normalizeURL` with the two
alias blocks (lines 28 to 35 and 37 to 46) in the other order. -/
def normalizeURLAliasFirst (url0 : List Char) : List Char :=
  if url0.isEmpty then url0 else
  let url := trim url0
  match matchRe aliasRe url with
  | some am =>
    if (aliasMapGet (capStr am 2)).truthy then
      schemeOf am ++ "://".toList ++ (aliasMapGet (capStr am 2)).toStr ++ "/".toList ++ capStr am 3
    else
      match matchRe complexRe url with
      | some cm =>
        schemeOf cm ++ "://".toList ++ capStr cm 3 ++ "/".toList ++ capStr cm 4
      | none => fallback url
  | none =>
    match matchRe complexRe url with
    | some cm =>
      schemeOf cm ++ "://".toList ++ capStr cm 3 ++ "/".toList ++ capStr cm 4
    | none => fallback url

/-- The `nodeValue` of a text node; other nodes hold no text of their own. -/
def Node.nodeValue : Node → List Char
  | .text v => v
  | _ => []

/-- The text of the text nodes of a fragment, in order. -/
def fragText : List Seg → List Char
  | [] => []
  | s :: ss => s.toNode.nodeValue ++ fragText ss

/-! ## Scans of the page -/

/-- The function `processAllComments` (lines 128 to 135) on the containers the
selector finds, in order; with none it returns at once (line 131). -/
def processAllComments (createImg : List Char → Bool) :
    List Container → Nat → Option (List Container × Nat)
  | [], reLast => some ([], reLast)
  | el :: els, reLast =>
    match processCommentElement createImg el reLast with
    | none => none
    | some (el1, reLast1) =>
      match processAllComments createImg els reLast1 with
      | none => none
      | some (els1, reLast2) => some (el1 :: els1, reLast2)

/-- The values of `IMAGE_TAG_REGEX.lastIndex` with which `test` (line 78) is
entered while a subtree is scanned with `processNode`, in order. -/
def testCursors (createImg : List Char → Bool) : Node → Nat → List Nat
  | .text v, reLast => if v.isEmpty then [] else [reLast]
  | .img _, _ => []
  | .elem _ kids, reLast => testCursorsList kids reLast
where
  /-- The same on a list of sibling subtrees. -/
  testCursorsList : List Node → Nat → List Nat
  | [], _ => []
  | n :: ns, reLast =>
    testCursors createImg n reLast ++
      (match processNode createImg n reLast with
       | none => []
       | some (_, reLast1) => testCursorsList ns reLast1)

/-- The values of `IMAGE_TAG_REGEX.lastIndex` with which `test` is entered
during one run of `processAllComments`. -/
def testCursorsAll (createImg : List Char → Bool) : List Container → Nat → List Nat
  | [], _ => []
  | el :: els, reLast =>
    testCursors.testCursorsList createImg el.kids reLast ++
      (match processCommentElement createImg el reLast with
       | none => []
       | some (_, reLast1) => testCursorsAll createImg els reLast1)

/-- The cursor left by a sequence of scans, each a run of `processAllComments`
on the containers present at that moment. -/
def cursorAfterScans (createImg : List Char → Bool) : List (List Container) → Nat → Option Nat
  | [], reLast => some reLast
  | page :: pages, reLast =>
    match processAllComments createImg page reLast with
    | none => none
    | some (_, reLast1) => cursorAfterScans createImg pages reLast1

/-! ## The debounced trigger -/

/-- The closure made by `debounce(fn, wait)` (lines 138 to 147) together with
the timers of the host.  `t` is the closure variable (a timer id, or `none` for
`null`), `timers` the pending timers with their id and due time, `nextId` the id
`setTimeout` hands out next (ids are positive), `now` the clock in
milliseconds, `calls` the times at which `fn` has been invoked. -/
structure Debounce where
  t : Option Nat
  timers : List (Nat × Nat)
  nextId : Nat
  now : Nat
  calls : List Nat
deriving DecidableEq, Repr

/-- The closure when `debounce` returns: `let t = null` (line 139), no timer
set, `fn` not yet invoked. -/
def Debounce.init : Debounce := ⟨none, [], 1, 0, []⟩

/-- The host function `clearTimeout`: the timer with that id is no longer
pending. -/
def clearTimeout (id : Nat) (timers : List (Nat × Nat)) : List (Nat × Nat) :=
  timers.filter (fun p => p.1 != id)

/-- One call of the debounced function (lines 141 to 145): `if (t)` holds for a
timer id other than 0; then a new timer due `wait` later is set and its id
stored in `t`. -/
def Debounce.call (wait : Nat) (s : Debounce) : Debounce :=
  let timers1 :=
    match s.t with
    | some id => if id != 0 then clearTimeout id s.timers else s.timers
    | none => s.timers
  { s with
    t := some s.nextId
    timers := timers1 ++ [(s.nextId, s.now + wait)]
    nextId := s.nextId + 1 }

/-- The callback of lines 142 to 145, run when the timer `p` expires: `fn` is
invoked, then `t = null`. -/
def Debounce.fire (s : Debounce) (p : Nat × Nat) : Debounce :=
  { s with
    t := none
    timers := clearTimeout p.1 s.timers
    now := max s.now p.2
    calls := s.calls ++ [max s.now p.2] }

/-- Insertion of a timer into a list ordered by due time, before the timers due
at the same time or later. -/
def insertDue (p : Nat × Nat) : List (Nat × Nat) → List (Nat × Nat)
  | [] => [p]
  | q :: qs => if p.2 ≤ q.2 then p :: q :: qs else q :: insertDue p qs

/-- The timers ordered by due time, those set earlier first among equals. -/
def sortDue : List (Nat × Nat) → List (Nat × Nat)
  | [] => []
  | p :: ps => insertDue p (sortDue ps)

/-- The clock advances by `d` milliseconds with no call in between: the timers
due by then expire in the order of their due times. -/
def Debounce.elapse (d : Nat) (s : Debounce) : Debounce :=
  let target := s.now + d
  let due := sortDue (s.timers.filter (fun p => decide (p.2 ≤ target)))
  { due.foldl Debounce.fire s with now := target }

/-- What happens to the closure: a call of the debounced function, or time
passing without a call. -/
inductive Event where
  | call
  | elapse (d : Nat)
deriving DecidableEq, Repr

/-- One event. -/
def Debounce.step (wait : Nat) (s : Debounce) : Event → Debounce
  | .call => s.call wait
  | .elapse d => s.elapse d

/-- A sequence of events, from the state `s`. -/
def Debounce.run (wait : Nat) (s : Debounce) (es : List Event) : Debounce :=
  es.foldl (Debounce.step wait) s

/-- A burst: one call, then for each gap the time of the gap and another
call. -/
def burst : List Nat → List Event
  | [] => [.call]
  | g :: gs => .call :: .elapse g :: burst gs

/-- The wait of `debouncedProcess` (line 149). -/
def debouncedProcessWait : Nat := 500

/-- The invariant of the closure: the variable `t` and the pending timers
agree. -/
def DebounceInv (s : Debounce) : Prop :=
  1 ≤ s.nextId ∧
  ((s.t = none ∧ s.timers = []) ∨
    ∃ id due, s.t = some id ∧ id ≠ 0 ∧ id < s.nextId ∧ s.timers = [(id, due)] ∧ s.now ≤ due)

end CS

namespace CS

/-! ## The matcher on literals, classes and stars -/

theorem m_chr_cons (c x : Char) (pre xs : List Char) (caps : List (Nat × List Char))
    (k : St → Option St) :
    (Re.chr c).m ⟨pre, x :: xs, caps⟩ k = if x = c then k ⟨x :: pre, xs, caps⟩ else none := rfl

theorem m_cls_cons (p : Cls) (x : Char) (pre xs : List Char) (caps : List (Nat × List Char))
    (k : St → Option St) :
    (Re.cls p).m ⟨pre, x :: xs, caps⟩ k =
      if p.test x then k ⟨x :: pre, xs, caps⟩ else none := rfl

theorem m_seq (a b : Re) (s : St) (k : St → Option St) :
    (Re.seq a b).m s k = a.m s (fun t => b.m t k) := rfl

theorem m_cat_cons (a : Re) (rs : List Re) (s : St) (k : St → Option St) :
    (Re.cat (a :: rs)).m s k = a.m s (fun t => (Re.cat rs).m t k) := rfl

theorem m_str_append (cs pre r : List Char) (caps : List (Nat × List Char))
    (k : St → Option St) :
    (Re.str cs).m ⟨pre, cs ++ r, caps⟩ k = k ⟨cs.reverse ++ pre, r, caps⟩ := by
  induction cs generalizing pre with
  | nil => rfl
  | cons c cs ih =>
    show (Re.chr c).m ⟨pre, c :: (cs ++ r), caps⟩ (fun t => (Re.str cs).m t k) = _
    rw [m_chr_cons, if_pos rfl, ih]
    simp

theorem m_str_none (cs pre rest : List Char) (caps : List (Nat × List Char))
    (k : St → Option St) (h : ¬ cs <+: rest) :
    (Re.str cs).m ⟨pre, rest, caps⟩ k = none := by
  induction cs generalizing pre rest with
  | nil => exact absurd (List.nil_prefix) h
  | cons c cs ih =>
    cases rest with
    | nil => rfl
    | cons x xs =>
      show (Re.chr c).m ⟨pre, x :: xs, caps⟩ (fun t => (Re.str cs).m t k) = _
      rw [m_chr_cons]
      split
      · next hx =>
        subst hx
        apply ih
        intro hp
        exact h ((List.prefix_cons_inj x).2 hp)
      · rfl

/-- A lazy star over a class runs through `x` when the continuation rejects
every position before the end of `x`. -/
theorem starK_lazy_skip (p : Cls) (x pre r : List Char) (caps : List (Nat × List Char))
    (k : St → Option St) (n : Nat) (hx : ∀ c ∈ x, p.test c = true)
    (hk : ∀ x1 c x2, x = x1 ++ c :: x2 → k ⟨x1.reverse ++ pre, c :: x2 ++ r, caps⟩ = none) :
    starK (Re.cls p).m false (n + x.length) ⟨pre, x ++ r, caps⟩ k =
      starK (Re.cls p).m false n ⟨x.reverse ++ pre, r, caps⟩ k := by
  induction x generalizing pre with
  | nil => rfl
  | cons c x ih =>
    have h0 := hk [] c x rfl
    simp only [List.reverse_nil, List.nil_append] at h0
    have hc : p.test c = true := hx c (List.mem_cons_self _ _)
    show ((k ⟨pre, c :: x ++ r, caps⟩).orElse fun _ =>
      (Re.cls p).m ⟨pre, c :: (x ++ r), caps⟩ _) = _
    rw [h0, m_cls_cons, if_pos hc]
    simp only [Option.orElse, List.length_cons, Nat.lt_succ_self, if_true, List.cons_append]
    refine (ih (c :: pre) (fun c' hc' => hx c' (List.mem_cons_of_mem _ hc')) ?_).trans ?_
    · intro x1 c1 x2 hsplit
      have := hk (c :: x1) c1 x2 (by simp [hsplit])
      simpa using this
    · simp

/-- A class star stops at a state whose next character is outside the class. -/
theorem starK_stop (p : Cls) (g : Bool) (pre r : List Char) (caps : List (Nat × List Char))
    (k : St → Option St) (n : Nat) (hr : ∀ c r1, r = c :: r1 → p.test c = false) :
    starK (Re.cls p).m g n ⟨pre, r, caps⟩ k = k ⟨pre, r, caps⟩ := by
  cases n with
  | zero => rfl
  | succ n =>
    have hnone : ∀ k1, (Re.cls p).m ⟨pre, r, caps⟩ k1 = none := by
      intro k1
      cases r with
      | nil => rfl
      | cons c r1 => rw [m_cls_cons, if_neg (by simp [hr c r1 rfl])]
    cases g
    · show ((k ⟨pre, r, caps⟩).orElse fun _ => (Re.cls p).m ⟨pre, r, caps⟩ _) = _
      rw [hnone]
      cases k ⟨pre, r, caps⟩ <;> rfl
    · show (((Re.cls p).m ⟨pre, r, caps⟩ _).orElse fun _ => k ⟨pre, r, caps⟩) = _
      rw [hnone]
      rfl

/-- A greedy star over a class takes the whole run `x` when the continuation
accepts the position after it. -/
theorem starK_greedy_run (p : Cls) (x pre r : List Char) (caps : List (Nat × List Char))
    (k : St → Option St) (n : Nat) (R : St) (hx : ∀ c ∈ x, p.test c = true)
    (hr : ∀ c r1, r = c :: r1 → p.test c = false)
    (hR : k ⟨x.reverse ++ pre, r, caps⟩ = some R) :
    starK (Re.cls p).m true (n + x.length) ⟨pre, x ++ r, caps⟩ k = some R := by
  induction x generalizing pre with
  | nil =>
    have := starK_stop p true pre r caps k n hr
    simp only [List.reverse_nil, List.nil_append] at hR
    exact this.trans hR
  | cons c x ih =>
    have hc : p.test c = true := hx c (List.mem_cons_self _ _)
    show (((Re.cls p).m ⟨pre, c :: (x ++ r), caps⟩ _).orElse fun _ => _) = _
    rw [m_cls_cons, if_pos hc]
    have h1 := ih (c :: pre) (fun c1 hc1 => hx c1 (List.mem_cons_of_mem _ hc1))
      (by simpa using hR)
    have h2 : starK (Re.cls p).m true (n.add x.length) ⟨c :: pre, x ++ r, caps⟩ k = some R := h1
    simp only [h2]
    simp

/-- A greedy star over a class fails when the continuation rejects every
position of the run `x`. -/
theorem starK_greedy_none (p : Cls) (x pre r : List Char) (caps : List (Nat × List Char))
    (k : St → Option St) (n : Nat)
    (hr : ∀ c r1, r = c :: r1 → p.test c = false)
    (hk : ∀ x1 x2, x = x1 ++ x2 → k ⟨x1.reverse ++ pre, x2 ++ r, caps⟩ = none) :
    starK (Re.cls p).m true (n + x.length) ⟨pre, x ++ r, caps⟩ k = none := by
  induction x generalizing pre with
  | nil =>
    have := starK_stop p true pre r caps k n hr
    have h0 := hk [] [] rfl
    simp only [List.reverse_nil, List.nil_append] at h0
    exact this.trans h0
  | cons c x ih =>
    have h0 := hk [] (c :: x) rfl
    simp only [List.reverse_nil, List.nil_append] at h0
    show (((Re.cls p).m ⟨pre, c :: (x ++ r), caps⟩ _).orElse fun _ =>
      k ⟨pre, c :: x ++ r, caps⟩) = _
    rw [m_cls_cons, h0]
    have h1 := ih (c :: pre) (by
      intro x1 x2 hsplit
      have := hk (c :: x1) x2 (by simp [hsplit])
      simpa using this)
    have h2 : starK (Re.cls p).m true (n.add x.length) ⟨c :: pre, x ++ r, caps⟩ k = none := h1
    simp only [h2]
    simp

theorem take_consumed (a b : List Char) :
    (a ++ b).take ((a ++ b).length - b.length) = a := by
  simp

theorem starK_lazy_head (step : St → (St → Option St) → Option St) (n : Nat) (s : St)
    (k : St → Option St) (R : St) (h : k s = some R) : starK step false n s k = some R := by
  cases n with
  | zero => exact h
  | succ n =>
    show ((k s).orElse fun _ => _) = _
    rw [h]
    rfl

/-- The pattern `(x*?)K` with a class `x`: the capture is the shortest run after
which `K` succeeds. -/
theorem m_lazy_group_seq (i : Nat) (p : Cls) (K : Re) (x pre r : List Char)
    (caps : List (Nat × List Char)) (k : St → Option St) (R : St)
    (hx : ∀ c ∈ x, p.test c = true)
    (hk : ∀ x1 c x2, x = x1 ++ c :: x2 →
      K.m ⟨x1.reverse ++ pre, c :: x2 ++ r, (i, x1) :: caps⟩ k = none)
    (hR : K.m ⟨x.reverse ++ pre, r, (i, x) :: caps⟩ k = some R) :
    (Re.seq (.group i (.star false (.cls p))) K).m ⟨pre, x ++ r, caps⟩ k = some R := by
  let k1 : St → Option St := fun t =>
    K.m ⟨t.pre, t.rest, (i, (x ++ r).take ((x ++ r).length - t.rest.length)) :: t.caps⟩ k
  have hk1 : ∀ x1 c x2, x = x1 ++ c :: x2 →
      k1 ⟨x1.reverse ++ pre, c :: x2 ++ r, caps⟩ = none := by
    intro x1 c x2 hsplit
    have := hk x1 c x2 hsplit
    subst hsplit
    show K.m ⟨x1.reverse ++ pre, c :: x2 ++ r, (i, List.take ((x1 ++ (c :: x2) ++ r).length -
      (c :: x2 ++ r).length) (x1 ++ (c :: x2) ++ r)) :: caps⟩ k = none
    rw [List.append_assoc x1, take_consumed]
    exact this
  have hR1 : k1 ⟨x.reverse ++ pre, r, caps⟩ = some R := by
    show K.m ⟨x.reverse ++ pre, r, (i, (x ++ r).take ((x ++ r).length - r.length)) :: caps⟩ k = _
    rw [take_consumed]
    exact hR
  have key := starK_lazy_skip p x pre r caps k1 r.length hx hk1
  have hlen : r.length + x.length = (x ++ r).length := by simp [Nat.add_comm]
  rw [hlen] at key
  show starK (Re.cls p).m false (x ++ r).length ⟨pre, x ++ r, caps⟩ k1 = _
  rw [key]
  exact starK_lazy_head _ _ _ _ _ hR1

/-- The pattern `(x+)K` with a class `x`, greedy: the capture is the whole run
when `K` succeeds after it. -/
theorem m_plus_group_seq (i : Nat) (p : Cls) (K : Re) (c : Char) (x pre r : List Char)
    (caps : List (Nat × List Char)) (k : St → Option St) (R : St)
    (hx : ∀ a ∈ c :: x, p.test a = true)
    (hr : ∀ a r1, r = a :: r1 → p.test a = false)
    (hR : K.m ⟨x.reverse ++ c :: pre, r, (i, c :: x) :: caps⟩ k = some R) :
    (Re.seq (.group i (.plus true (.cls p))) K).m ⟨pre, c :: (x ++ r), caps⟩ k = some R := by
  let k1 : St → Option St := fun t =>
    K.m ⟨t.pre, t.rest, (i, ([c] ++ x ++ r).take (([c] ++ x ++ r).length - t.rest.length)) ::
      t.caps⟩ k
  have hR1 : k1 ⟨x.reverse ++ c :: pre, r, caps⟩ = some R := by
    show K.m ⟨x.reverse ++ c :: pre, r,
      (i, ([c] ++ x ++ r).take (([c] ++ x ++ r).length - r.length)) :: caps⟩ k = _
    rw [take_consumed]
    exact hR
  have key := starK_greedy_run p x (c :: pre) r caps k1 r.length R
    (fun a ha => hx a (List.mem_cons_of_mem _ ha)) hr hR1
  have hlen : r.length + x.length = (x ++ r).length := by simp [Nat.add_comm]
  rw [hlen] at key
  have hc : p.test c = true := hx c (List.mem_cons_self _ _)
  show (Re.cls p).m ⟨pre, c :: (x ++ r), caps⟩
    (fun t => starK (Re.cls p).m true t.rest.length t k1) = _
  rw [m_cls_cons, if_pos hc]
  exact key

/-- The pattern `(x+)K` fails when `K` fails after every non-empty part of the
run. -/
theorem m_plus_group_seq_none (i : Nat) (p : Cls) (K : Re) (c : Char) (x pre r : List Char)
    (caps : List (Nat × List Char)) (k : St → Option St)
    (hr : ∀ a r1, r = a :: r1 → p.test a = false)
    (hk : ∀ x1 x2, x = x1 ++ x2 →
      K.m ⟨x1.reverse ++ c :: pre, x2 ++ r, (i, c :: x1) :: caps⟩ k = none) :
    (Re.seq (.group i (.plus true (.cls p))) K).m ⟨pre, c :: (x ++ r), caps⟩ k = none := by
  let k1 : St → Option St := fun t =>
    K.m ⟨t.pre, t.rest, (i, ([c] ++ x ++ r).take (([c] ++ x ++ r).length - t.rest.length)) ::
      t.caps⟩ k
  have hk1 : ∀ x1 x2, x = x1 ++ x2 → k1 ⟨x1.reverse ++ c :: pre, x2 ++ r, caps⟩ = none := by
    intro x1 x2 hsplit
    have := hk x1 x2 hsplit
    subst hsplit
    show K.m ⟨x1.reverse ++ c :: pre, x2 ++ r, (i, List.take (([c] ++ (x1 ++ x2) ++ r).length -
      (x2 ++ r).length) ([c] ++ (x1 ++ x2) ++ r)) :: caps⟩ k = none
    rw [show [c] ++ (x1 ++ x2) ++ r = ([c] ++ x1) ++ (x2 ++ r) by simp, take_consumed]
    exact this
  have key := starK_greedy_none p x (c :: pre) r caps k1 r.length hr hk1
  have hlen : r.length + x.length = (x ++ r).length := by simp [Nat.add_comm]
  rw [hlen] at key
  show (Re.cls p).m ⟨pre, c :: (x ++ r), caps⟩
    (fun t => starK (Re.cls p).m true t.rest.length t k1) = _
  rw [m_cls_cons]
  split
  · exact key
  · rfl

/-- The pattern `x*K` with a class `x`, greedy, on a run followed by something
outside the class. -/
theorem m_star_seq (p : Cls) (K : Re) (x pre r : List Char)
    (caps : List (Nat × List Char)) (k : St → Option St) (R : St)
    (hx : ∀ a ∈ x, p.test a = true)
    (hr : ∀ a r1, r = a :: r1 → p.test a = false)
    (hR : K.m ⟨x.reverse ++ pre, r, caps⟩ k = some R) :
    (Re.seq (.star true (.cls p)) K).m ⟨pre, x ++ r, caps⟩ k = some R := by
  show starK (Re.cls p).m true (x ++ r).length ⟨pre, x ++ r, caps⟩ _ = _
  have hlen : (x ++ r).length = r.length + x.length := by simp [Nat.add_comm]
  rw [hlen]
  exact starK_greedy_run p x pre r caps _ r.length R hx hr hR

/-- The pattern `x*K` at a character outside the class `x` is `K` there. -/
theorem m_star_seq_stop (p : Cls) (g : Bool) (K : Re) (pre r : List Char)
    (caps : List (Nat × List Char)) (k : St → Option St)
    (hr : ∀ a r1, r = a :: r1 → p.test a = false) :
    (Re.seq (.star g (.cls p)) K).m ⟨pre, r, caps⟩ k = K.m ⟨pre, r, caps⟩ k := by
  show starK (Re.cls p).m g r.length ⟨pre, r, caps⟩ _ = _
  rw [starK_stop p g pre r caps _ r.length hr]

/-! ## Character facts -/

theorem isWord_not_isSpace (c : Char) (h : isWord c = true) : isSpace c = false := by
  cases hs : isSpace c
  · rfl
  · exfalso
    simp only [isSpace, isWord, isLineTerminator, Bool.or_eq_true, Bool.and_eq_true, beq_iff_eq,
      decide_eq_true_eq] at h hs
    omega

theorem isSpace_not_isWord (c : Char) (h : isSpace c = true) : isWord c = false := by
  cases hw : isWord c
  · rfl
  · rw [isWord_not_isSpace c hw] at h
    exact absurd h (by decide)

theorem isWord_ne (c a : Char) (h : isWord c = true) (ha : isWord a = false) : c ≠ a := by
  rintro rfl
  rw [ha] at h
  exact absurd h (by decide)

theorem isSpace_ne (c a : Char) (h : isSpace c = true) (ha : isSpace a = false) : c ≠ a := by
  rintro rfl
  rw [ha] at h
  exact absurd h (by decide)

/-! ## The complex alias pattern -/

/-- No occurrence of `)/(` in `d` means that `)/(` does not start inside `d`
even when `d` is followed by `)/(`. -/
theorem no_early_delim (d x1 x2 rest : List Char) (c : Char)
    (hd : ¬ ")/(".toList <:+: d) (hsplit : d = x1 ++ c :: x2) :
    ¬ ")/(".toList <+: c :: x2 ++ (")/(".toList ++ rest) := by
  intro hp
  apply hd
  subst hsplit
  have e : ")/(".toList = [')', '/', '('] := rfl
  rw [e] at hp ⊢
  match x2, hp with
  | [], hp =>
    simp only [List.cons_append, List.nil_append, List.cons_prefix_cons] at hp
    exact absurd hp.2.1 (by decide)
  | [y], hp =>
    simp only [List.cons_append, List.nil_append, List.cons_prefix_cons] at hp
    exact absurd hp.2.2.1 (by decide)
  | y :: z :: x3, hp =>
    simp only [List.cons_append, List.cons_prefix_cons] at hp
    obtain ⟨h1, h2, h3, -⟩ := hp
    subst h1 h2 h3
    exact ⟨x1, x3, by simp⟩

/-- The end of both alias patterns, `(.*?)\)$`, on a path followed by the
closing parenthesis. -/
theorem m_path_tail (i : Nat) (p pre : List Char) (caps : List (Nat × List Char))
    (hp : ∀ c ∈ p, isLineTerminator c = false) :
    (Re.cat [.group i (.star false (.cls .dot)), .chr ')', .eol]).m
        ⟨pre, p ++ ")".toList, caps⟩ some =
      some ⟨')' :: (p.reverse ++ pre), [], (i, p) :: caps⟩ := by
  apply m_lazy_group_seq
  · intro c hc
    simp [Cls.test, hp c hc]
  · intro x1 c x2 _
    simp [Re.cat, Re.m]
  · rfl

/-- The part of the complex pattern from the domain group on. -/
theorem m_complexTail (d p pre : List Char) (caps : List (Nat × List Char))
    (hd : ∀ c ∈ d, isLineTerminator c = false) (hd2 : ¬ ")/(".toList <:+: d)
    (hp : ∀ c ∈ p, isLineTerminator c = false) :
    (Re.cat [.group 3 (.star false (.cls .dot)), .str ")/(".toList,
      .group 4 (.star false (.cls .dot)), .chr ')', .eol]).m ⟨pre, d ++ (")/(".toList ++ (p ++ ")".toList)), caps⟩ some =
      some ⟨')' :: (p.reverse ++ (")/(".toList.reverse ++ (d.reverse ++ pre))), [],
        (4, p) :: (3, d) :: caps⟩ := by
  apply m_lazy_group_seq
  · intro c hc
    simp [Cls.test, hd c hc]
  · intro x1 c x2 hsplit
    rw [m_cat_cons]
    exact m_str_none _ _ _ _ _ (no_early_delim d x1 x2 _ c hd2 hsplit)
  · rw [m_cat_cons, m_str_append]
    exact m_path_tail 4 p _ _ hp

/-- The part of the complex pattern after `://`. -/
theorem m_complexBody (c : Char) (t w d p pre : List Char) (caps : List (Nat × List Char))
    (ht : ∀ a ∈ c :: t, isWord a = true) (hw : ∀ a ∈ w, isSpace a = true)
    (hd : ∀ a ∈ d, isLineTerminator a = false) (hd2 : ¬ ")/(".toList <:+: d)
    (hp : ∀ a ∈ p, isLineTerminator a = false) :
    ∃ pre1, (Re.cat [.group 2 (.plus true (.cls .word)), .star true (.cls .space), .chr '(',
        .group 3 (.star false (.cls .dot)), .str ")/(".toList,
        .group 4 (.star false (.cls .dot)), .chr ')', .eol]).m
        ⟨pre, c :: (t ++ (w ++ ('(' :: (d ++ (")/(".toList ++ (p ++ ")".toList)))))), caps⟩ some =
      some ⟨pre1, [], (4, p) :: (3, d) :: (2, c :: t) :: caps⟩ := by
  refine Exists.intro ?w ?h
  case h =>
    apply m_plus_group_seq
    · exact ht
    · intro a r1 hr
      cases w with
      | nil =>
        simp only [List.nil_append, List.cons.injEq] at hr
        rw [← hr.1]
        rfl
      | cons b w1 =>
        simp only [List.cons_append, List.cons.injEq] at hr
        rw [← hr.1]
        exact isSpace_not_isWord b (hw b (List.mem_cons_self _ _))
    · apply m_star_seq
      · exact hw
      · intro a r1 hr
        simp only [List.cons.injEq] at hr
        rw [← hr.1]
        rfl
      · rw [m_cat_cons, m_chr_cons, if_pos rfl]
        exact m_complexTail d p _ _ hd hd2 hp

/-- The common head `^(hs|h):\/\/` of the alias patterns on `h://`. -/
theorem m_scheme_h (K : List Re) (r : List Char) (k : St → Option St) :
    (Re.cat (.bol :: .group 1 (.alt (.str "hs".toList) (.str "h".toList)) ::
        .str "://".toList :: K)).m ⟨[], 'h' :: ':' :: '/' :: '/' :: r, []⟩ k =
      (Re.cat K).m ⟨"//:h".toList, r, [(1, "h".toList)]⟩ k := by
  simp [m_cat_cons, Re.m, Re.str]

/-- The common head `^(hs|h):\/\/` of the alias patterns on `hs://`. -/
theorem m_scheme_hs (K : List Re) (r : List Char) (k : St → Option St) :
    (Re.cat (.bol :: .group 1 (.alt (.str "hs".toList) (.str "h".toList)) ::
        .str "://".toList :: K)).m ⟨[], 'h' :: 's' :: ':' :: '/' :: '/' :: r, []⟩ k =
      (Re.cat K).m ⟨"//:sh".toList, r, [(1, "hs".toList)]⟩ k := by
  simp [m_cat_cons, Re.m, Re.str]

/-- The complex pattern on an input of the complex alias form. -/
theorem execAt_complexRe (s t w d p : List Char)
    (hs : s = "h".toList ∨ s = "hs".toList) (ht0 : t ≠ [])
    (ht : ∀ a ∈ t, isWord a = true) (hw : ∀ a ∈ w, isSpace a = true)
    (hd : ∀ a ∈ d, isLineTerminator a = false) (hd2 : ¬ ")/(".toList <:+: d)
    (hp : ∀ a ∈ p, isLineTerminator a = false) :
    ∃ pre1, execAt complexRe []
        (s ++ "://".toList ++ t ++ w ++ "(".toList ++ d ++ ")/(".toList ++ p ++ ")".toList) =
      some ⟨pre1, [], [(4, p), (3, d), (2, t), (1, s)]⟩ := by
  obtain ⟨c, t1, rfl⟩ := List.exists_cons_of_ne_nil ht0
  rcases hs with rfl | rfl
  · obtain ⟨pre1, h⟩ := m_complexBody c t1 w d p "//:h".toList [(1, "h".toList)] ht hw hd hd2 hp
    refine ⟨pre1, ?_⟩
    rw [← h]
    have e : "h".toList ++ "://".toList ++ c :: t1 ++ w ++ "(".toList ++ d ++ ")/(".toList ++ p ++
        ")".toList = 'h' :: ':' :: '/' :: '/' ::
          (c :: (t1 ++ (w ++ '(' :: (d ++ (")/(".toList ++ (p ++ ")".toList)))))) := by
      simp
    rw [e]
    exact m_scheme_h _ _ _
  · obtain ⟨pre1, h⟩ := m_complexBody c t1 w d p "//:sh".toList [(1, "hs".toList)] ht hw hd hd2 hp
    refine ⟨pre1, ?_⟩
    rw [← h]
    have e : "hs".toList ++ "://".toList ++ c :: t1 ++ w ++ "(".toList ++ d ++ ")/(".toList ++ p ++
        ")".toList = 'h' :: 's' :: ':' :: '/' :: '/' ::
          (c :: (t1 ++ (w ++ '(' :: (d ++ (")/(".toList ++ (p ++ ")".toList)))))) := by
      simp
    rw [e]
    exact m_scheme_hs _ _ _

/-! ## Trimming and searching -/

/-- A string whose first and last characters are not white space is its own
trimmed form. -/
theorem trim_eq_self (s : List Char) (h1 : ∀ c r, s = c :: r → isSpace c = false)
    (h2 : ∀ c r, s.reverse = c :: r → isSpace c = false) : trim s = s := by
  have e1 : s.dropWhile isSpace = s := by
    cases s with
    | nil => rfl
    | cons c r => simp [List.dropWhile, h1 c r rfl]
  have e2 : s.reverse.dropWhile isSpace = s.reverse := by
    cases hr : s.reverse with
    | nil => rfl
    | cons c r => simp [List.dropWhile, h2 c r hr]
  rw [trim, e1, e2, List.reverse_reverse]

/-- A match at the cursor is the leftmost match. -/
theorem search_of_execAt (re : Re) (pre s : List Char) (e : St) (h : execAt re pre s = some e) :
    search re pre s = some (⟨pre, s, []⟩, e) := by
  cases s with
  | nil => simp [search, h]
  | cons c r => simp [search, h]

/-- A pattern that starts with `^` matches at position 0 or nowhere. -/
theorem search_bol_none (K : List Re) (pre rest : List Char) (hpre : pre ≠ []) :
    search (Re.cat (.bol :: K)) pre rest = none := by
  have hex : ∀ pre1 r1, pre1 ≠ [] → execAt (Re.cat (.bol :: K)) pre1 r1 = none := by
    intro pre1 r1 h1
    show (if pre1 = [] then _ else none) = none
    rw [if_neg h1]
  induction rest generalizing pre with
  | nil => simp [search, hex pre [] hpre]
  | cons c r ih =>
    rw [search, hex pre (c :: r) hpre]
    exact ih (c :: pre) (by simp)

theorem search_bol (K : List Re) (s : List Char) :
    search (Re.cat (.bol :: K)) [] s =
      (execAt (Re.cat (.bol :: K)) [] s).map (fun e => (⟨[], s, []⟩, e)) := by
  cases s with
  | nil => rfl
  | cons c r =>
    rw [search]
    cases h : execAt (Re.cat (.bol :: K)) [] (c :: r) with
    | some e => rfl
    | none => exact search_bol_none K [c] r (by simp)

/-! ## The alias patterns on the short alias form -/

/-- The complex pattern rejects a word token followed by `/`. -/
theorem m_complexBody_none (c : Char) (t r pre : List Char) (caps : List (Nat × List Char))
    (ht : ∀ a ∈ c :: t, isWord a = true) :
    (Re.cat [.group 2 (.plus true (.cls .word)), .star true (.cls .space), .chr '(',
        .group 3 (.star false (.cls .dot)), .str ")/(".toList,
        .group 4 (.star false (.cls .dot)), .chr ')', .eol]).m
        ⟨pre, c :: (t ++ '/' :: r), caps⟩ some = none := by
  apply m_plus_group_seq_none
  · intro a r1 hr
    simp only [List.cons.injEq] at hr
    rw [← hr.1]
    rfl
  · intro x1 x2 hsplit
    have hhead : ∀ a r1, x2 ++ '/' :: r = a :: r1 → isSpace a = false ∧ a ≠ '(' := by
      intro a r1 hr
      cases x2 with
      | nil =>
        simp only [List.nil_append, List.cons.injEq] at hr
        rw [← hr.1]
        exact ⟨rfl, by decide⟩
      | cons b x3 =>
        simp only [List.cons_append, List.cons.injEq] at hr
        rw [← hr.1]
        have hb : isWord b = true := ht b (by simp [hsplit])
        exact ⟨isWord_not_isSpace b hb, isWord_ne b '(' hb rfl⟩
    rw [Re.cat, m_star_seq_stop Cls.space true _ _ _ _ _ (fun a r1 hr => (hhead a r1 hr).1)]
    cases hx : x2 ++ '/' :: r with
    | nil => rfl
    | cons a r1 =>
      rw [m_cat_cons, m_chr_cons, if_neg (hhead a r1 hx).2]

theorem execAt_complexRe_none (s a p : List Char)
    (hs : s = "h".toList ∨ s = "hs".toList) (ha0 : a ≠ [])
    (ha : ∀ c ∈ a, isWord c = true) :
    execAt complexRe [] (s ++ "://".toList ++ a ++ "/(".toList ++ p ++ ")".toList) = none := by
  obtain ⟨c, t1, rfl⟩ := List.exists_cons_of_ne_nil ha0
  have h := m_complexBody_none c t1 ('(' :: (p ++ ")".toList))
  rcases hs with rfl | rfl
  · rw [← h "//:h".toList [(1, "h".toList)] ha]
    have e : "h".toList ++ "://".toList ++ c :: t1 ++ "/(".toList ++ p ++ ")".toList =
        'h' :: ':' :: '/' :: '/' :: (c :: (t1 ++ '/' :: '(' :: (p ++ ")".toList))) := by
      simp
    rw [e]
    exact m_scheme_h _ _ _
  · rw [← h "//:sh".toList [(1, "hs".toList)] ha]
    have e : "hs".toList ++ "://".toList ++ c :: t1 ++ "/(".toList ++ p ++ ")".toList =
        'h' :: 's' :: ':' :: '/' :: '/' :: (c :: (t1 ++ '/' :: '(' :: (p ++ ")".toList))) := by
      simp
    rw [e]
    exact m_scheme_hs _ _ _

/-- The part of the short alias pattern after `://`. -/
theorem m_aliasBody (c : Char) (t p pre : List Char) (caps : List (Nat × List Char))
    (ht : ∀ a ∈ c :: t, isWord a = true) (hp : ∀ a ∈ p, isLineTerminator a = false) :
    ∃ pre1, (Re.cat [.group 2 (.plus true (.cls .word)), .str "/(".toList,
        .group 3 (.star false (.cls .dot)), .chr ')', .eol]).m
        ⟨pre, c :: (t ++ ("/(".toList ++ (p ++ ")".toList))), caps⟩ some =
      some ⟨pre1, [], (3, p) :: (2, c :: t) :: caps⟩ := by
  refine Exists.intro ?w ?h
  case h =>
    apply m_plus_group_seq
    · exact ht
    · intro a r1 hr
      simp only [String.toList, List.cons_append, List.cons.injEq] at hr
      rw [← hr.1]
      rfl
    · rw [m_cat_cons, m_str_append]
      exact m_path_tail 3 p _ _ hp

theorem execAt_aliasRe (s a p : List Char)
    (hs : s = "h".toList ∨ s = "hs".toList) (ha0 : a ≠ [])
    (ha : ∀ c ∈ a, isWord c = true) (hp : ∀ c ∈ p, isLineTerminator c = false) :
    ∃ pre1, execAt aliasRe [] (s ++ "://".toList ++ a ++ "/(".toList ++ p ++ ")".toList) =
      some ⟨pre1, [], [(3, p), (2, a), (1, s)]⟩ := by
  obtain ⟨c, t1, rfl⟩ := List.exists_cons_of_ne_nil ha0
  rcases hs with rfl | rfl
  · obtain ⟨pre1, h⟩ := m_aliasBody c t1 p "//:h".toList [(1, "h".toList)] ha hp
    refine ⟨pre1, ?_⟩
    rw [← h]
    have e : "h".toList ++ "://".toList ++ c :: t1 ++ "/(".toList ++ p ++ ")".toList =
        'h' :: ':' :: '/' :: '/' :: (c :: (t1 ++ ("/(".toList ++ (p ++ ")".toList)))) := by
      simp
    rw [e]
    exact m_scheme_h _ _ _
  · obtain ⟨pre1, h⟩ := m_aliasBody c t1 p "//:sh".toList [(1, "hs".toList)] ha hp
    refine ⟨pre1, ?_⟩
    rw [← h]
    have e : "hs".toList ++ "://".toList ++ c :: t1 ++ "/(".toList ++ p ++ ")".toList =
        'h' :: 's' :: ':' :: '/' :: '/' :: (c :: (t1 ++ ("/(".toList ++ (p ++ ")".toList)))) := by
      simp
    rw [e]
    exact m_scheme_hs _ _ _

/-- The normaliser on the short alias form `s://a/(p)`: the alias is looked up
in `aliasMap`; a truthy value is printed as the host, otherwise the input goes
to the fallback stage. -/
theorem normalizeURL_short_form (s a p : List Char)
    (hs : s = "h".toList ∨ s = "hs".toList) (ha0 : a ≠ [])
    (ha : ∀ c ∈ a, isWord c = true) (hp : ∀ c ∈ p, isLineTerminator c = false) :
    normalizeURL (s ++ "://".toList ++ a ++ "/(".toList ++ p ++ ")".toList) =
      if (aliasMapGet a).truthy then
        (if s = "hs".toList then "https".toList else "http".toList) ++ "://".toList ++
          (aliasMapGet a).toStr ++ "/".toList ++ p
      else fallback (s ++ "://".toList ++ a ++ "/(".toList ++ p ++ ")".toList) := by
  obtain ⟨pre1, h⟩ := execAt_aliasRe s a p hs ha0 ha hp
  have hc := execAt_complexRe_none s a p hs ha0 ha
  have hne : (s ++ "://".toList ++ a ++ "/(".toList ++ p ++ ")".toList).isEmpty = false := by
    rcases hs with rfl | rfl <;> rfl
  have htrim : trim (s ++ "://".toList ++ a ++ "/(".toList ++ p ++ ")".toList) =
      s ++ "://".toList ++ a ++ "/(".toList ++ p ++ ")".toList := by
    apply trim_eq_self
    · intro c r hcr
      rcases hs with rfl | rfl
      all_goals
        simp only [String.toList, List.cons_append, List.cons.injEq] at hcr
        rw [← hcr.1]
        rfl
    · intro c r hcr
      simp only [List.reverse_append, String.toList, List.reverse_cons, List.reverse_nil,
        List.nil_append, List.cons_append, List.cons.injEq] at hcr
      rw [← hcr.1]
      rfl
  have hm1 : matchRe complexRe (s ++ "://".toList ++ a ++ "/(".toList ++ p ++ ")".toList) =
      none := by
    rw [matchRe, complexRe, search_bol, ← complexRe, hc]
    rfl
  have hm2 : matchRe aliasRe (s ++ "://".toList ++ a ++ "/(".toList ++ p ++ ")".toList) =
      some (mkMatch ⟨[], s ++ "://".toList ++ a ++ "/(".toList ++ p ++ ")".toList, []⟩
        ⟨pre1, [], [(3, p), (2, a), (1, s)]⟩) := by
    rw [matchRe, search_of_execAt _ _ _ _ h]
    rfl
  rw [normalizeURL, hne]
  simp only [Bool.false_eq_true, if_false, htrim, hm1, hm2]
  rcases hs with rfl | rfl <;>
    simp [schemeOf, capStr, MatchResult.cap, mkMatch, List.find?]

/-! ## C1 -/

/-- C1 (complex alias form).  For a scheme `s` among `h`, `hs`, a non-empty word
token `t`, a run of white space `w`, a domain `d` free of line terminators and
of the substring `)/(`, and a path `p` free of line terminators,
`normalizeURL(s + "://" + t + w + "(" + d + ")/(" + p + ")")` is `https` or
`http` (for `hs`, `h`) followed by `"://" + d + "/" + p`; the token `t` and the
white space `w` do not appear in the result. -/
theorem C1_complex_alias_form (s t w d p : List Char)
    (hs : s = "h".toList ∨ s = "hs".toList) (ht0 : t ≠ [])
    (ht : ∀ a ∈ t, isWord a = true) (hw : ∀ a ∈ w, isSpace a = true)
    (hd : ∀ a ∈ d, isLineTerminator a = false) (hd2 : ¬ ")/(".toList <:+: d)
    (hp : ∀ a ∈ p, isLineTerminator a = false) :
    normalizeURL
        (s ++ "://".toList ++ t ++ w ++ "(".toList ++ d ++ ")/(".toList ++ p ++ ")".toList) =
      (if s = "hs".toList then "https".toList else "http".toList) ++ "://".toList ++ d ++
        "/".toList ++ p := by
  obtain ⟨pre1, h⟩ := execAt_complexRe s t w d p hs ht0 ht hw hd hd2 hp
  have hne : (s ++ "://".toList ++ t ++ w ++ "(".toList ++ d ++ ")/(".toList ++ p ++
      ")".toList).isEmpty = false := by
    rcases hs with rfl | rfl <;> rfl
  have htrim : trim (s ++ "://".toList ++ t ++ w ++ "(".toList ++ d ++ ")/(".toList ++ p ++
      ")".toList) = s ++ "://".toList ++ t ++ w ++ "(".toList ++ d ++ ")/(".toList ++ p ++
      ")".toList := by
    apply trim_eq_self
    · intro c r hcr
      rcases hs with rfl | rfl
      all_goals
        simp only [String.toList, List.cons_append, List.cons.injEq] at hcr
        rw [← hcr.1]
        rfl
    · intro c r hcr
      simp only [List.reverse_append, String.toList, List.reverse_cons, List.reverse_nil,
        List.nil_append, List.cons_append, List.cons.injEq] at hcr
      rw [← hcr.1]
      rfl
  have hm : matchRe complexRe (s ++ "://".toList ++ t ++ w ++ "(".toList ++ d ++ ")/(".toList ++
      p ++ ")".toList) = some (mkMatch ⟨[], s ++ "://".toList ++ t ++ w ++ "(".toList ++ d ++
      ")/(".toList ++ p ++ ")".toList, []⟩ ⟨pre1, [], [(4, p), (3, d), (2, t), (1, s)]⟩) := by
    rw [matchRe, search_of_execAt _ _ _ _ h]
    rfl
  rw [normalizeURL, hne]
  simp only [Bool.false_eq_true, if_false, htrim, hm]
  rcases hs with rfl | rfl <;>
    simp [schemeOf, capStr, MatchResult.cap, mkMatch, List.find?]

/-- Witness of C1: `normalizeURL("hs://x(example.com)/(a/b)")` is
`"https://example.com/a/b"`. -/
theorem C1_complex_alias_form_witness :
    normalizeURL ("hs".toList ++ "://".toList ++ "x".toList ++ [] ++ "(".toList ++
        "example.com".toList ++ ")/(".toList ++ "a/b".toList ++ ")".toList) =
      "https://example.com/a/b".toList :=
  C1_complex_alias_form "hs".toList "x".toList [] "example.com".toList "a/b".toList
    (Or.inr rfl) (by decide) (by decide) (by decide) (by decide) (by decide) (by decide)

/-! ## C2 -/

/-- C2 (short alias form, known alias).  For a scheme `s` among `h`, `hs`, an
entry `a ↦ host` of the alias table and a path `p` free of line terminators,
`normalizeURL(s + "://" + a + "/(" + p + ")")` is `https` or `http` (for `hs`,
`h`) followed by `"://" + host + "/" + p`. -/
theorem C2_short_alias_known (s a host p : List Char)
    (hs : s = "h".toList ∨ s = "hs".toList) (hmem : (a, host) ∈ aliasMap)
    (hp : ∀ c ∈ p, isLineTerminator c = false) :
    normalizeURL (s ++ "://".toList ++ a ++ "/(".toList ++ p ++ ")".toList) =
      (if s = "hs".toList then "https".toList else "http".toList) ++ "://".toList ++ host ++
        "/".toList ++ p := by
  have hkey : a ≠ [] ∧ (∀ c ∈ a, isWord c = true) ∧ (aliasMapGet a).truthy = true ∧
      (aliasMapGet a).toStr = host := by
    simp only [aliasMap, List.mem_cons, Prod.mk.injEq, List.mem_nil_iff, or_false] at hmem
    rcases hmem with ⟨rfl, rfl⟩ | ⟨rfl, rfl⟩ | ⟨rfl, rfl⟩ | ⟨rfl, rfl⟩ <;> decide
  obtain ⟨h0, hw, ht, hstr⟩ := hkey
  rw [normalizeURL_short_form s a p hs h0 hw hp, if_pos ht, hstr]

/-- Witness of C2: `normalizeURL("h://pcd/(img.png)")` is
`"http://cdn.fourvo.id/img.png"`. -/
theorem C2_short_alias_known_witness :
    normalizeURL ("h".toList ++ "://".toList ++ "pcd".toList ++ "/(".toList ++
        "img.png".toList ++ ")".toList) = "http://cdn.fourvo.id/img.png".toList :=
  C2_short_alias_known "h".toList "pcd".toList "cdn.fourvo.id".toList "img.png".toList
    (Or.inl rfl) (by decide) (by decide)

/-! ## C3 -/

/-- A token that names neither an own nor an inherited property of `aliasMap`
sends the short alias form to the fallback stage. -/
theorem normalizeURL_alias_undefined (s a p : List Char)
    (hs : s = "h".toList ∨ s = "hs".toList) (ha0 : a ≠ [])
    (ha : ∀ c ∈ a, isWord c = true) (hp : ∀ c ∈ p, isLineTerminator c = false)
    (hu : aliasMapGet a = .undefined) :
    normalizeURL (s ++ "://".toList ++ a ++ "/(".toList ++ p ++ ")".toList) =
      fallback (s ++ "://".toList ++ a ++ "/(".toList ++ p ++ ")".toList) := by
  rw [normalizeURL_short_form s a p hs ha0 ha hp, hu]
  rfl

/-- C3 (short alias form, unknown alias), at the token `constructor`.  The token
is a word token and not one of the keys `pcd`, `yt`, `gh`, `mc`, so the claim
expects the fallback result `http://constructor/(img.png)`; the property read
`aliasMap["constructor"]` yields the inherited function `Object`, which is
truthy, so rule 2 applies and its printed form becomes the host.  For the
token `zz` of the specification the fallback result is returned. -/
theorem C3_inherited_property_is_taken_as_alias :
    (∀ c ∈ "constructor".toList, isWord c = true) ∧
    (∀ host, ("constructor".toList, host) ∉ aliasMap) ∧
    fallback "h://constructor/(img.png)".toList = "http://constructor/(img.png)".toList ∧
    normalizeURL "h://constructor/(img.png)".toList =
      "http://function Object() \x7b [native code] \x7d/img.png".toList ∧
    normalizeURL "hs://__proto__/(a.cv)".toList = "https://[object Object]/a.cv".toList ∧
    normalizeURL "h://zz/(img.png)".toList = "http://zz/(img.png)".toList := by
  refine ⟨by decide, ?_, by decide, by decide, by decide, by decide⟩
  intro host
  simp [aliasMap]

/-! ## The fallback stage against the specification's wording -/

/-- The shape of a string at whose head a shorthand stands. -/
theorem tldAt_iff (l s : List Char) :
    tldAt l s = true ↔ ∃ b, s = '.' :: (l ++ b) ∧ wordSide b = false := by
  cases s with
  | nil => simp [tldAt]
  | cons c r =>
    simp only [tldAt, tldHead, Bool.and_eq_true, beq_iff_eq, List.isPrefixOf_iff_prefix,
      Bool.not_eq_true', List.cons.injEq]
    constructor
    · rintro ⟨rfl, ⟨b, rfl⟩, hb⟩
      exact ⟨b, ⟨rfl, rfl⟩, by simpa using hb⟩
    · rintro ⟨b, ⟨rfl, rfl⟩, hb⟩
      exact ⟨rfl, List.prefix_append _ _, by simpa using hb⟩

/-- A pattern `^P` for a literal `P`, tried at position 0. -/
theorem execAt_bol_str (P s : List Char) :
    execAt (Re.cat [.bol, .str P]) [] s =
      if P.isPrefixOf s then some ⟨P.reverse, s.drop P.length, []⟩ else none := by
  show (Re.str P).m ⟨[], s, []⟩ (fun t => some t) = _
  split
  · next h =>
    obtain ⟨b, rfl⟩ := List.isPrefixOf_iff_prefix.1 h
    rw [m_str_append]
    simp
  · next h =>
    exact m_str_none _ _ _ _ _ (fun hp => h (List.isPrefixOf_iff_prefix.2 hp))

theorem replace_bol_str (P repl s : List Char) :
    replace (Re.cat [.bol, .str P]) repl s =
      if P.isPrefixOf s then repl ++ s.drop P.length else s := by
  rw [replace, search_bol, execAt_bol_str]
  by_cases h : P.isPrefixOf s = true
  · simp [h]
  · simp [h]

/-- A literal that ends in a word character has a word character before the
position after it. -/
theorem wordSide_reverse (l pre : List Char) (a : Char) (ha : isWord a = true) :
    wordSide ((l ++ [a]).reverse ++ pre) = true := by
  simp [wordSide, ha]

/-- The pattern `\.l\b`, whose last letter is a word character, matches exactly
where the specification sees the shorthand. -/
theorem execAt_tld_hit (l0 b pre : List Char) (a : Char) (ha : isWord a = true)
    (hb : wordSide b = false) :
    execAt (Re.cat [.str ('.' :: (l0 ++ [a])), .wordB]) pre ('.' :: (l0 ++ [a] ++ b)) =
      some ⟨('.' :: (l0 ++ [a])).reverse ++ pre, b, []⟩ := by
  show (Re.str ('.' :: (l0 ++ [a]))).m ⟨pre, ('.' :: (l0 ++ [a])) ++ b, []⟩
    (fun t => Re.wordB.m t (fun u => some u)) = _
  rw [m_str_append]
  show (if wordSide (('.' :: (l0 ++ [a])).reverse ++ pre) != wordSide b then _ else none) = _
  have e : wordSide (('.' :: (l0 ++ [a])).reverse ++ pre) = true := by
    simp [wordSide, ha]
  rw [e, hb]
  rfl

theorem execAt_tld_miss (l s pre : List Char) (a : Char) (ha : isWord a = true)
    (h : tldAt (l ++ [a]) s = false) :
    execAt (Re.cat [.str ('.' :: (l ++ [a])), .wordB]) pre s = none := by
  show (Re.str ('.' :: (l ++ [a]))).m ⟨pre, s, []⟩
    (fun t => Re.wordB.m t (fun u => some u)) = _
  by_cases hp : ('.' :: (l ++ [a])) <+: s
  · obtain ⟨b, rfl⟩ := hp
    rw [m_str_append]
    show (if wordSide (('.' :: (l ++ [a])).reverse ++ pre) != wordSide b then _ else none) = _
    have e : wordSide (('.' :: (l ++ [a])).reverse ++ pre) = true := by
      simp [wordSide, ha]
    have hb : wordSide b = true := by
      cases hw : wordSide b
      · exfalso
        have := (tldAt_iff (l ++ [a]) (('.' :: (l ++ [a])) ++ b)).2 ⟨b, by simp, hw⟩
        rw [h] at this
        exact absurd this (by decide)
      · rfl
    rw [e, hb]
    rfl
  · exact m_str_none _ _ _ _ _ hp

/-- The global replacement of `\.l\b` is the specification's replacement. -/
theorem replaceAllFrom_tld (l n : List Char) (a : Char) (ha : isWord a = true)
    (s pre : List Char) (skip : Nat) :
    replaceAllFrom (Re.cat [.str ('.' :: (l ++ [a])), .wordB]) ('.' :: n) pre s skip =
      specReplaceTld (l ++ [a]) n s skip := by
  induction s generalizing pre skip with
  | nil =>
    cases skip with
    | zero =>
      rw [replaceAllFrom, execAt_tld_miss l [] pre a ha rfl]
      rfl
    | succ k => rfl
  | cons c r ih =>
    cases skip with
    | succ k =>
      rw [replaceAllFrom, specReplaceTld]
      exact ih _ _
    | zero =>
      rw [replaceAllFrom, specReplaceTld]
      cases h : tldAt (l ++ [a]) (c :: r) with
      | false =>
        rw [execAt_tld_miss l (c :: r) pre a ha h]
        simp only [Bool.false_eq_true, if_false]
        rw [ih]
      | true =>
        obtain ⟨b, hcr, hb⟩ := (tldAt_iff _ _).1 h
        simp only [List.cons.injEq] at hcr
        obtain ⟨rfl, rfl⟩ := hcr
        rw [execAt_tld_hit l b pre a ha hb]
        simp only [if_true]
        have hlt : b.length < ('.' :: (l ++ [a] ++ b)).length := by
          simp only [List.length_cons, List.length_append, List.length_nil]
          omega
        have hsk : (l ++ [a] ++ b).length - b.length = (l ++ [a]).length := by
          simp only [List.length_append, List.length_cons, List.length_nil]
          omega
        rw [if_pos hlt, hsk, ih]
        rfl

/-- The fallback stage of the code computes what the specification words. -/
theorem fallback_eq_spec (s : List Char) : fallback s = specFallback s := by
  have e1 : ∀ u, replace hRe "http://".toList u = specExpandH u := fun u =>
    replace_bol_str "h://".toList "http://".toList u
  have e2 : ∀ u, replace hsRe "https://".toList u = specExpandHs u := fun u =>
    replace_bol_str "hs://".toList "https://".toList u
  have e3 : ∀ u, replaceAll cvRe ".com".toList u = specReplaceTld "cv".toList "com".toList u 0 :=
    fun u => replaceAllFrom_tld "c".toList "com".toList 'v' (by decide) u [] 0
  have e4 : ∀ u, replaceAll dicRe ".id".toList u = specReplaceTld "dic".toList "id".toList u 0 :=
    fun u => replaceAllFrom_tld "di".toList "id".toList 'c' (by decide) u [] 0
  have e5 : ∀ u, replaceAll mcdRe ".me".toList u = specReplaceTld "mcd".toList "me".toList u 0 :=
    fun u => replaceAllFrom_tld "mc".toList "me".toList 'd' (by decide) u [] 0
  rw [fallback, specFallback, e1, e2, e3, e4, e5]

/-! ## The specification's replacement: occurrences before and after -/

theorem specReplaceTld_skip (l n x b : List Char) :
    specReplaceTld l n (x ++ b) x.length = specReplaceTld l n b 0 := by
  induction x with
  | nil => rfl
  | cons c x ih =>
    show specReplaceTld l n (c :: (x ++ b)) (x.length + 1) = _
    rw [specReplaceTld]
    exact ih

theorem specReplaceTld_hit (l n b : List Char) (hb : wordSide b = false) :
    specReplaceTld l n ('.' :: (l ++ b)) 0 = '.' :: (n ++ specReplaceTld l n b 0) := by
  rw [specReplaceTld, if_pos ((tldAt_iff _ _).2 ⟨b, rfl, hb⟩), specReplaceTld_skip]

theorem specReplaceTld_miss (l n r : List Char) (c : Char) (h : tldAt l (c :: r) = false) :
    specReplaceTld l n (c :: r) 0 = c :: specReplaceTld l n r 0 := by
  rw [specReplaceTld, h]
  rfl

theorem wordSide_specReplaceTld (l n s : List Char) :
    wordSide (specReplaceTld l n s 0) = wordSide s := by
  cases s with
  | nil => rfl
  | cons c r =>
    cases h : tldAt l (c :: r) with
    | false => rw [specReplaceTld_miss l n r c h]; rfl
    | true =>
      obtain ⟨b, hcr, hb⟩ := (tldAt_iff _ _).1 h
      rw [hcr, specReplaceTld_hit l n b hb]
      rfl

theorem tldHead_cons (a c : Char) (l x : List Char) :
    tldHead (a :: l) (c :: x) = (a == c && tldHead l x) := by
  simp [tldHead, List.isPrefixOf, Bool.and_assoc]

/-- The replacement leaves unchanged whether letters without a dot stand at the
head of the string at a word boundary. -/
theorem tldHead_specReplaceTld (l n l1 : List Char) (h1 : '.' ∉ l1) (r : List Char) :
    tldHead l1 (specReplaceTld l n r 0) = tldHead l1 r := by
  induction l1 generalizing r with
  | nil =>
    simp only [tldHead, List.isPrefixOf, List.length_nil, List.drop_zero, Bool.true_and]
    rw [wordSide_specReplaceTld]
  | cons a l2 ih =>
    have ha : a ≠ '.' := fun e => h1 (by simp [e])
    have h2 : '.' ∉ l2 := fun e => h1 (List.mem_cons_of_mem _ e)
    cases r with
    | nil => rfl
    | cons c r1 =>
      cases h : tldAt l (c :: r1) with
      | false =>
        rw [specReplaceTld_miss l n r1 c h, tldHead_cons, tldHead_cons, ih h2]
      | true =>
        obtain ⟨b, hcr, hb⟩ := (tldAt_iff _ _).1 h
        rw [hcr, specReplaceTld_hit l n b hb, tldHead_cons, tldHead_cons]
        have : (a == '.') = false := by simpa using ha
        rw [this]
        rfl

theorem tldOcc_nil (l : List Char) : ¬ TldOcc l [] := by
  rintro ⟨a, b, h, -⟩
  cases a <;> simp at h

theorem tldOcc_cons (l r : List Char) (c : Char) :
    TldOcc l (c :: r) ↔ tldAt l (c :: r) = true ∨ TldOcc l r := by
  constructor
  · rintro ⟨a, b, h, hb⟩
    cases a with
    | nil =>
      left
      exact (tldAt_iff _ _).2 ⟨b, by simpa using h, hb⟩
    | cons x a1 =>
      right
      simp only [List.cons_append, List.cons.injEq] at h
      exact ⟨a1, b, h.2, hb⟩
  · rintro (h | ⟨a, b, h, hb⟩)
    · obtain ⟨b, hcr, hb⟩ := (tldAt_iff _ _).1 h
      exact ⟨[], b, by simpa using hcr, hb⟩
    · exact ⟨c :: a, b, by simp [h], hb⟩

theorem tldAt_of_ne (l r : List Char) (c : Char) (hc : c ≠ '.') : tldAt l (c :: r) = false := by
  simp [tldAt, hc]

/-- Letters without a dot in front of a string hold no occurrence. -/
theorem tldOcc_append_dotless (l x y : List Char) (hx : '.' ∉ x) :
    TldOcc l (x ++ y) ↔ TldOcc l y := by
  induction x with
  | nil => rfl
  | cons c x ih =>
    have hc : c ≠ '.' := fun e => hx (by simp [e])
    rw [List.cons_append, tldOcc_cons, tldAt_of_ne l _ c hc, ih (fun e => hx (List.mem_cons_of_mem _ e))]
    simp

theorem tldOcc_suffix (l x y : List Char) (h : TldOcc l y) : TldOcc l (x ++ y) := by
  obtain ⟨a, b, rfl, hb⟩ := h
  exact ⟨x ++ a, b, by simp, hb⟩

/-- Replacing `.l` by `.n` leaves no occurrence of `.l`, and creates no
occurrence of a shorthand `.l1` that was not there before; `l1` and `n` hold no
dot and neither is the beginning of the other. -/
theorem tldOcc_specReplaceTld (l n l1 : List Char) (h1 : '.' ∉ l1) (hn : '.' ∉ n)
    (hp1 : ¬ l1 <+: n) (hp2 : ¬ n <+: l1) (k : Nat) :
    ∀ s : List Char, s.length ≤ k → (l1 = l ∨ ¬ TldOcc l1 s) →
      ¬ TldOcc l1 (specReplaceTld l n s 0) := by
  induction k with
  | zero =>
    intro s hs _
    have : s = [] := List.length_eq_zero.1 (Nat.le_zero.1 hs)
    subst this
    exact tldOcc_nil l1
  | succ k ih =>
    intro s hs hcase
    cases s with
    | nil => exact tldOcc_nil l1
    | cons c r =>
      cases h : tldAt l (c :: r) with
      | false =>
        rw [specReplaceTld_miss l n r c h, tldOcc_cons]
        rintro (hat | hocc)
        · have e : tldAt l1 (c :: specReplaceTld l n r 0) = tldAt l1 (c :: r) := by
            simp only [tldAt]
            rw [tldHead_specReplaceTld l n l1 h1]
          rw [e] at hat
          rcases hcase with rfl | hno
          · rw [h] at hat
            exact absurd hat (by decide)
          · exact hno ((tldOcc_cons _ _ _).2 (Or.inl hat))
        · refine ih r (by simpa using hs) ?_ hocc
          rcases hcase with rfl | hno
          · exact Or.inl rfl
          · exact Or.inr (fun ho => hno ((tldOcc_cons _ _ _).2 (Or.inr ho)))
      | true =>
        obtain ⟨b, hcr, hb⟩ := (tldAt_iff _ _).1 h
        rw [hcr, specReplaceTld_hit l n b hb, tldOcc_cons]
        rintro (hat | hocc)
        · obtain ⟨b1, hb1, -⟩ := (tldAt_iff _ _).1 hat
          simp only [List.cons.injEq, true_and] at hb1
          have p1 : l1 <+: n ++ specReplaceTld l n b 0 := ⟨b1, hb1.symm⟩
          have p2 : n <+: n ++ specReplaceTld l n b 0 := List.prefix_append _ _
          rcases List.prefix_or_prefix_of_prefix p1 p2 with q | q
          · exact hp1 q
          · exact hp2 q
        · rw [tldOcc_append_dotless l1 n _ hn] at hocc
          have hlen : b.length ≤ k := by
            have : (c :: r).length = ('.' :: (l ++ b)).length := by rw [hcr]
            simp only [List.length_cons, List.length_append] at this hs
            omega
          refine ih b hlen ?_ hocc
          rcases hcase with rfl | hno
          · exact Or.inl rfl
          · refine Or.inr (fun ho => hno ?_)
            rw [hcr]
            exact tldOcc_suffix l1 ('.' :: l) b ho

/-- Without an occurrence the replacement changes nothing. -/
theorem specReplaceTld_id (l n s : List Char) (h : ¬ TldOcc l s) :
    specReplaceTld l n s 0 = s := by
  induction s with
  | nil => rfl
  | cons c r ih =>
    have hat : tldAt l (c :: r) = false := by
      cases e : tldAt l (c :: r)
      · rfl
      · exact absurd ((tldOcc_cons _ _ _).2 (Or.inl e)) h
    rw [specReplaceTld_miss l n r c hat, ih (fun ho => h ((tldOcc_cons _ _ _).2 (Or.inr ho)))]

/-- The three shorthands. -/
theorem tld_cases (l : List Char) (hl : l ∈ ["cv".toList, "dic".toList, "mcd".toList]) :
    l = "cv".toList ∨ l = "dic".toList ∨ l = "mcd".toList := by
  simpa using hl

/-- No step of the fallback stage creates an occurrence of a shorthand. -/
theorem tldOcc_step (l n l1 s : List Char)
    (hl1 : l1 ∈ ["cv".toList, "dic".toList, "mcd".toList])
    (hln : (l, n) ∈ [("cv".toList, "com".toList), ("dic".toList, "id".toList),
      ("mcd".toList, "me".toList)])
    (h : l1 = l ∨ ¬ TldOcc l1 s) : ¬ TldOcc l1 (specReplaceTld l n s 0) := by
  have key : '.' ∉ l1 ∧ '.' ∉ n ∧ ¬ l1 <+: n ∧ ¬ n <+: l1 := by
    simp only [List.mem_cons, Prod.mk.injEq, List.mem_nil_iff, or_false] at hln
    rcases tld_cases l1 hl1 with rfl | rfl | rfl <;>
      rcases hln with ⟨-, rfl⟩ | ⟨-, rfl⟩ | ⟨-, rfl⟩ <;> decide
  exact tldOcc_specReplaceTld l n l1 key.1 key.2.1 key.2.2.1 key.2.2.2 s.length s (Nat.le_refl _) h

/-- After the fallback stage no shorthand is left. -/
theorem tldOcc_specFallback (l1 u : List Char)
    (hl1 : l1 ∈ ["cv".toList, "dic".toList, "mcd".toList]) : ¬ TldOcc l1 (specFallback u) := by
  have hcv : ¬ TldOcc "cv".toList
      (specReplaceTld "cv".toList "com".toList (specExpandHs (specExpandH u)) 0) :=
    tldOcc_step _ _ _ _ (by simp) (by simp) (Or.inl rfl)
  have hcv2 := tldOcc_step "dic".toList "id".toList "cv".toList _ (by simp) (by simp) (Or.inr hcv)
  have hdic : ¬ TldOcc "dic".toList (specReplaceTld "dic".toList "id".toList
      (specReplaceTld "cv".toList "com".toList (specExpandHs (specExpandH u)) 0) 0) :=
    tldOcc_step _ _ _ _ (by simp) (by simp) (Or.inl rfl)
  rcases tld_cases l1 hl1 with rfl | rfl | rfl
  · exact tldOcc_step "mcd".toList "me".toList "cv".toList _ (by simp) (by simp) (Or.inr hcv2)
  · exact tldOcc_step "mcd".toList "me".toList "dic".toList _ (by simp) (by simp) (Or.inr hdic)
  · exact tldOcc_step "mcd".toList "me".toList "mcd".toList _ (by simp) (by simp) (Or.inl rfl)

theorem replaceAll_cvRe (u : List Char) :
    replaceAll cvRe ".com".toList u = specReplaceTld "cv".toList "com".toList u 0 :=
  replaceAllFrom_tld "c".toList "com".toList 'v' (by decide) u [] 0

theorem replaceAll_dicRe (u : List Char) :
    replaceAll dicRe ".id".toList u = specReplaceTld "dic".toList "id".toList u 0 :=
  replaceAllFrom_tld "di".toList "id".toList 'c' (by decide) u [] 0

theorem replaceAll_mcdRe (u : List Char) :
    replaceAll mcdRe ".me".toList u = specReplaceTld "mcd".toList "me".toList u 0 :=
  replaceAllFrom_tld "mc".toList "me".toList 'd' (by decide) u [] 0

theorem specFallback_id (u : List Char) (h : NoFallbackPattern u) : specFallback u = u := by
  obtain ⟨h1, h2, h3, h4, h5⟩ := h
  have e1 : specExpandH u = u := by
    rw [specExpandH, if_neg (fun hp => h1 (List.isPrefixOf_iff_prefix.1 hp))]
  have e2 : specExpandHs u = u := by
    rw [specExpandHs, if_neg (fun hp => h2 (List.isPrefixOf_iff_prefix.1 hp))]
  rw [specFallback, e1, e2, specReplaceTld_id _ _ _ h3, specReplaceTld_id _ _ _ h4,
    specReplaceTld_id _ _ _ h5]

theorem normalizeURL_of_reachesFallback (s : List Char) (h : reachesFallback s = true) :
    normalizeURL s = fallback (trim s) := by
  simp only [reachesFallback, Bool.and_eq_true, Bool.not_eq_true', Option.isNone_iff_eq_none] at h
  obtain ⟨⟨h1, h2⟩, h3⟩ := h
  rw [normalizeURL, h1]
  simp only [Bool.false_eq_true, if_false, h2]
  cases hm : matchRe aliasRe (trim s) with
  | none => rfl
  | some am =>
    rw [hm] at h3
    have h4 : (aliasMapGet (capStr am 2)).truthy = false := by simpa using h3
    simp [h4]

/-! ## C4 -/

/-- C4 as stated fails on an input with leading white space: `" a"` matches
neither alias pattern and holds none of the fallback patterns, so the claim
gives `normalizeURL(" a") = " a"`, while line 26 trims the input and the result
is `"a"`. -/
theorem C4_untrimmed_input_counterexample :
    matchRe complexRe " a".toList = none ∧ matchRe aliasRe " a".toList = none ∧
    NoFallbackPattern " a".toList ∧ specFallback " a".toList = " a".toList ∧
    normalizeURL " a".toList = "a".toList ∧ normalizeURL " a".toList ≠ " a".toList := by
  refine ⟨by decide, by decide, ⟨by decide, by decide, ?_, ?_, ?_⟩, by decide, by decide,
    by decide⟩ <;>
  · intro h0
    have h : TldOcc _ [' ', 'a'] := h0
    rw [tldOcc_cons, tldOcc_cons] at h
    rcases h with h | h | h
    · exact absurd h (by decide)
    · exact absurd h (by decide)
    · exact tldOcc_nil _ h

/-- C4, amended (fallback only).  When the trimmed input matches neither the
complex nor the short alias pattern, `normalizeURL(s)` is the trimmed input with
the fallback substitutions of the specification applied in order: leading
`h://` to `http://`, leading `hs://` to `https://`, then every `.cv`, `.dic`,
`.mcd` at a word boundary to `.com`, `.id`, `.me`; when none of these patterns
occurs in the trimmed input, `normalizeURL(s)` is the trimmed input. -/
theorem C4_fallback_only (s : List Char)
    (h1 : matchRe complexRe (trim s) = none) (h2 : matchRe aliasRe (trim s) = none) :
    normalizeURL s = specFallback (trim s) ∧
      (NoFallbackPattern (trim s) → normalizeURL s = trim s) := by
  have key : normalizeURL s = specFallback (trim s) := by
    cases s with
    | nil => rfl
    | cons c r =>
      rw [← fallback_eq_spec]
      apply normalizeURL_of_reachesFallback
      simp [reachesFallback, h1, h2]
  exact ⟨key, fun hno => key.trans (specFallback_id _ hno)⟩

/-- Witness of C4, amended: `"  hs://site.cv/page.dic "` matches neither pattern
and becomes `"https://site.com/page.id"`. -/
theorem C4_fallback_only_witness :
    normalizeURL "  hs://site.cv/page.dic ".toList = "https://site.com/page.id".toList :=
  (C4_fallback_only "  hs://site.cv/page.dic ".toList (by decide) (by decide)).1.trans
    (by decide)

/-! ## C5 -/

/-- C5 (all TLD shorthands are replaced).  When the input reaches the fallback
stage, the result of `normalizeURL` holds no `.cv`, `.dic` or `.mcd` followed by
a word boundary; and none of the three replacements creates an occurrence of a
shorthand that its input did not hold. -/
theorem C5_all_tld_replaced (s : List Char) (h : reachesFallback s = true) :
    (∀ l ∈ ["cv".toList, "dic".toList, "mcd".toList], ¬ TldOcc l (normalizeURL s)) ∧
    (∀ u, ∀ l ∈ ["cv".toList, "dic".toList, "mcd".toList], ¬ TldOcc l u →
      ¬ TldOcc l (replaceAll cvRe ".com".toList u) ∧
      ¬ TldOcc l (replaceAll dicRe ".id".toList u) ∧
      ¬ TldOcc l (replaceAll mcdRe ".me".toList u)) := by
  constructor
  · intro l hl
    rw [normalizeURL_of_reachesFallback s h, fallback_eq_spec]
    exact tldOcc_specFallback l _ hl
  · intro u l hl hno
    rw [replaceAll_cvRe, replaceAll_dicRe, replaceAll_mcdRe]
    exact ⟨tldOcc_step _ _ _ _ hl (by simp) (Or.inr hno),
      tldOcc_step _ _ _ _ hl (by simp) (Or.inr hno),
      tldOcc_step _ _ _ _ hl (by simp) (Or.inr hno)⟩

/-- Witness of C5: `normalizeURL("site.cv/page.dic")` is `"site.com/page.id"`,
which holds no shorthand. -/
theorem C5_all_tld_replaced_witness :
    normalizeURL "site.cv/page.dic".toList = "site.com/page.id".toList ∧
    ∀ l ∈ ["cv".toList, "dic".toList, "mcd".toList],
      ¬ TldOcc l (normalizeURL "site.cv/page.dic".toList) :=
  ⟨by decide, (C5_all_tld_replaced "site.cv/page.dic".toList (by decide)).1⟩

/-! ## The tag pattern -/

theorem tagArg_some (u arg r : List Char) (h : tagArg u = some (arg, r)) :
    u = arg ++ ']' :: r ∧ ∀ c ∈ arg, c ≠ ']' ∧ isLineTerminator c = false := by
  induction u generalizing arg with
  | nil => simp [tagArg] at h
  | cons c u ih =>
    rw [tagArg] at h
    by_cases hc : c = ']'
    · rw [if_pos hc] at h
      simp only [Option.some.injEq, Prod.mk.injEq] at h
      obtain ⟨rfl, rfl⟩ := h
      simp [hc]
    · rw [if_neg hc] at h
      by_cases hl : isLineTerminator c = true
      · rw [if_pos hl] at h
        exact absurd h (by simp)
      · rw [if_neg hl] at h
        cases hu : tagArg u with
        | none => rw [hu] at h; exact absurd h (by simp)
        | some q =>
          obtain ⟨a1, r1⟩ := q
          rw [hu] at h
          simp only [Option.map_some', Option.some.injEq, Prod.mk.injEq] at h
          obtain ⟨rfl, rfl⟩ := h
          obtain ⟨e, hall⟩ := ih a1 hu
          refine ⟨by simp [e], ?_⟩
          intro x hx
          rcases List.mem_cons.1 hx with rfl | hx
          · exact ⟨hc, by simpa using hl⟩
          · exact hall x hx

theorem tagArg_append (arg r : List Char)
    (h : ∀ c ∈ arg, c ≠ ']' ∧ isLineTerminator c = false) :
    tagArg (arg ++ ']' :: r) = some (arg, r) := by
  induction arg with
  | nil => simp [tagArg]
  | cons c a ih =>
    have hc := h c (List.mem_cons_self _ _)
    rw [List.cons_append, tagArg, if_neg hc.1, if_neg (by simp [hc.2]),
      ih (fun x hx => h x (List.mem_cons_of_mem _ hx))]
    rfl

theorem tagArg_none (u : List Char) (h : tagArg u = none) :
    ∃ x r, u = x ++ r ∧ (∀ c ∈ x, c ≠ ']' ∧ isLineTerminator c = false) ∧
      ∀ c r1, r = c :: r1 → c ≠ ']' ∧ isLineTerminator c = true := by
  induction u with
  | nil => exact ⟨[], [], rfl, by simp, by simp⟩
  | cons c u ih =>
    rw [tagArg] at h
    by_cases hc : c = ']'
    · rw [if_pos hc] at h
      exact absurd h (by simp)
    · rw [if_neg hc] at h
      by_cases hl : isLineTerminator c = true
      · refine ⟨[], c :: u, rfl, by simp, ?_⟩
        intro c1 r1 e
        simp only [List.cons.injEq] at e
        rw [← e.1]
        exact ⟨hc, hl⟩
      · rw [if_neg hl] at h
        have hu : tagArg u = none := by
          cases e : tagArg u
          · rfl
          · rw [e] at h
            exact absurd h (by simp)
        obtain ⟨x, r, e, hx, hr⟩ := ih hu
        refine ⟨c :: x, r, by simp [e], ?_, hr⟩
        intro y hy
        rcases List.mem_cons.1 hy with rfl | hy
        · exact ⟨hc, by simpa using hl⟩
        · exact hx y hy

/-- A lazy star over a class fails when the continuation rejects every position
of the run `x` and the run cannot be extended. -/
theorem starK_lazy_none (p : Cls) (x pre r : List Char) (caps : List (Nat × List Char))
    (k : St → Option St) (n : Nat)
    (hr : ∀ c r1, r = c :: r1 → p.test c = false)
    (hk : ∀ x1 x2, x = x1 ++ x2 → k ⟨x1.reverse ++ pre, x2 ++ r, caps⟩ = none) :
    starK (Re.cls p).m false (n + x.length) ⟨pre, x ++ r, caps⟩ k = none := by
  induction x generalizing pre with
  | nil =>
    have := starK_stop p false pre r caps k n hr
    have h0 := hk [] [] rfl
    simp only [List.reverse_nil, List.nil_append] at h0
    exact this.trans h0
  | cons c x ih =>
    have h0 := hk [] (c :: x) rfl
    simp only [List.reverse_nil, List.nil_append] at h0
    show ((k ⟨pre, c :: x ++ r, caps⟩).orElse fun _ =>
      (Re.cls p).m ⟨pre, c :: (x ++ r), caps⟩ _) = _
    rw [m_cls_cons, h0]
    have h1 := ih (c :: pre) (by
      intro x1 x2 hsplit
      have := hk (c :: x1) x2 (by simp [hsplit])
      simpa using this)
    have h2 : starK (Re.cls p).m false (n.add x.length) ⟨c :: pre, x ++ r, caps⟩ k = none := h1
    simp only [h2]
    simp

theorem tagAt_some (s arg r : List Char) (h : tagAt s = some (arg, r)) :
    s = tagText arg ++ r ∧ ∀ c ∈ arg, c ≠ ']' ∧ isLineTerminator c = false := by
  rw [tagAt] at h
  by_cases hp : "[image=".toList.isPrefixOf s = true
  · rw [if_pos hp] at h
    obtain ⟨u, rfl⟩ := List.isPrefixOf_iff_prefix.1 hp
    have e : ("[image=".toList ++ u).drop 7 = u := rfl
    rw [e] at h
    obtain ⟨hu, hall⟩ := tagArg_some u arg r h
    exact ⟨by simp [tagText, hu], hall⟩
  · rw [if_neg hp] at h
    exact absurd h (by simp)

theorem tagAt_tagText (arg r : List Char)
    (h : ∀ c ∈ arg, c ≠ ']' ∧ isLineTerminator c = false) :
    tagAt (tagText arg ++ r) = some (arg, r) := by
  have e : tagText arg ++ r = "[image=".toList ++ (arg ++ ']' :: r) := by
    simp [tagText]
  rw [e, tagAt, if_pos (List.isPrefixOf_iff_prefix.2 (List.prefix_append _ _))]
  have e2 : ("[image=".toList ++ (arg ++ ']' :: r)).drop 7 = arg ++ ']' :: r := rfl
  rw [e2]
  exact tagArg_append arg r h

/-- The pattern `IMAGE_TAG_REGEX` matches at a position exactly when a tag stands
there, and captures its argument. -/
theorem execAt_tag (pre s : List Char) :
    execAt IMAGE_TAG_REGEX pre s =
      (tagAt s).map (fun p => ⟨(tagText p.1).reverse ++ pre, p.2, [(1, p.1)]⟩) := by
  show (Re.str "[image=".toList).m ⟨pre, s, []⟩
    (fun t => (Re.cat [.group 1 (.star false (.cls .dot)), .chr ']']).m t some) = _
  rw [tagAt]
  by_cases hp : "[image=".toList.isPrefixOf s = true
  · rw [if_pos hp]
    obtain ⟨u, rfl⟩ := List.isPrefixOf_iff_prefix.1 hp
    have e : ("[image=".toList ++ u).drop 7 = u := rfl
    rw [e, m_str_append]
    cases hu : tagArg u with
    | some q =>
      obtain ⟨arg, r⟩ := q
      obtain ⟨rfl, hall⟩ := tagArg_some u arg r hu
      rw [Re.cat, m_lazy_group_seq 1 Cls.dot _ arg _ (']' :: r) [] some
        ⟨']' :: (arg.reverse ++ ("[image=".toList.reverse ++ pre)), r, [(1, arg)]⟩]
      · simp [tagText]
      · intro c hc
        simp [Cls.test, (hall c hc).2]
      · intro x1 c x2 hsplit
        have hc : c ≠ ']' := (hall c (by simp [hsplit])).1
        rw [m_cat_cons, List.cons_append, m_chr_cons, if_neg hc]
      · rw [m_cat_cons, m_chr_cons, if_pos rfl]
        rfl
    | none =>
      obtain ⟨x, r, rfl, hx, hr⟩ := tagArg_none u hu
      show starK (Re.cls Cls.dot).m false (x ++ r).length ⟨_, x ++ r, []⟩ _ = _
      have hlen : (x ++ r).length = r.length + x.length := by simp [Nat.add_comm]
      rw [hlen]
      apply starK_lazy_none
      · intro c r1 e
        simp [Cls.test, (hr c r1 e).2]
      · intro x1 x2 hsplit
        cases hx2 : x2 ++ r with
        | nil => rfl
        | cons c r1 =>
          have hc : c ≠ ']' := by
            cases x2 with
            | nil => exact (hr c r1 (by simpa using hx2)).1
            | cons y x3 =>
              simp only [List.cons_append, List.cons.injEq] at hx2
              rw [← hx2.1]
              exact (hx y (by simp [hsplit])).1
          show (Re.chr ']').m ⟨_, c :: r1, _⟩ _ = none
          rw [m_chr_cons, if_neg hc]
  · rw [if_neg hp]
    exact m_str_none _ _ _ _ _ (fun h => hp (List.isPrefixOf_iff_prefix.2 h))

/-! ## Leftmost search -/

theorem search_none_iff (re : Re) (pre rest : List Char) :
    search re pre rest = none ↔
      ∀ x y, rest = x ++ y → execAt re (x.reverse ++ pre) y = none := by
  induction rest generalizing pre with
  | nil =>
    rw [search]
    constructor
    · intro h x y hxy
      obtain ⟨rfl, rfl⟩ := List.append_eq_nil.1 hxy.symm
      simpa using h
    · intro h
      have h0 := h [] [] rfl
      simp only [List.reverse_nil, List.nil_append] at h0
      simp [h0]
  | cons c r ih =>
    rw [search]
    constructor
    · intro h x y hxy
      cases hex : execAt re pre (c :: r) with
      | some e => rw [hex] at h; exact absurd h (by simp)
      | none =>
        rw [hex] at h
        cases x with
        | nil =>
          simp only [List.nil_append] at hxy
          subst hxy
          simpa using hex
        | cons a x1 =>
          simp only [List.cons_append, List.cons.injEq] at hxy
          obtain ⟨rfl, hr⟩ := hxy
          have := (ih (c :: pre)).1 h x1 y hr
          simpa using this
    · intro h
      have h0 := h [] (c :: r) rfl
      simp only [List.reverse_nil, List.nil_append] at h0
      rw [h0]
      apply (ih (c :: pre)).2
      intro x y hxy
      have := h (c :: x) y (by simp [hxy])
      simpa using this

theorem search_some (re : Re) (pre rest : List Char) (b e : St)
    (h : search re pre rest = some (b, e)) :
    ∃ x y, rest = x ++ y ∧ b = ⟨x.reverse ++ pre, y, []⟩ ∧
      execAt re (x.reverse ++ pre) y = some e ∧
      ∀ x1 c x2, x = x1 ++ c :: x2 → execAt re (x1.reverse ++ pre) (c :: x2 ++ y) = none := by
  induction rest generalizing pre with
  | nil =>
    rw [search] at h
    cases hex : execAt re pre [] with
    | none => rw [hex] at h; exact absurd h (by simp)
    | some e1 =>
      rw [hex] at h
      simp only [Option.map_some', Option.some.injEq, Prod.mk.injEq] at h
      obtain ⟨rfl, rfl⟩ := h
      refine ⟨[], [], rfl, rfl, hex, ?_⟩
      intro x1 c x2 hx
      cases x1 <;> simp at hx
  | cons c r ih =>
    rw [search] at h
    cases hex : execAt re pre (c :: r) with
    | some e1 =>
      rw [hex] at h
      simp only [Option.some.injEq, Prod.mk.injEq] at h
      obtain ⟨rfl, rfl⟩ := h
      refine ⟨[], c :: r, rfl, rfl, hex, ?_⟩
      intro x1 c1 x2 hx
      cases x1 <;> simp at hx
    | none =>
      rw [hex] at h
      obtain ⟨x, y, hr, hb, hy, hearly⟩ := ih (c :: pre) h
      refine ⟨c :: x, y, by simp [hr], by simp [hb], by simpa using hy, ?_⟩
      intro x1 c1 x2 hx
      cases x1 with
      | nil =>
        simp only [List.nil_append, List.cons.injEq] at hx
        obtain ⟨rfl, rfl⟩ := hx
        simpa [hr] using hex
      | cons a x3 =>
        simp only [List.cons_append, List.cons.injEq] at hx
        obtain ⟨rfl, hx⟩ := hx
        have := hearly x3 c1 x2 hx
        simpa using this

/-- Either no tag stands anywhere in `rest`, or `rest` splits at its first
tag. -/
theorem search_tag (pre rest : List Char) :
    (search IMAGE_TAG_REGEX pre rest = none ∧ ∀ x y, rest = x ++ y → tagAt y = none) ∨
    ∃ x arg r, rest = x ++ tagText arg ++ r ∧
      (∀ c ∈ arg, c ≠ ']' ∧ isLineTerminator c = false) ∧
      (∀ x1 c x2, x = x1 ++ c :: x2 → tagAt (c :: x2 ++ tagText arg ++ r) = none) ∧
      search IMAGE_TAG_REGEX pre rest =
        some (⟨x.reverse ++ pre, tagText arg ++ r, []⟩,
          ⟨(tagText arg).reverse ++ (x.reverse ++ pre), r, [(1, arg)]⟩) := by
  cases h : search IMAGE_TAG_REGEX pre rest with
  | none =>
    left
    refine ⟨rfl, ?_⟩
    intro x y hxy
    have := (search_none_iff _ _ _).1 h x y hxy
    rw [execAt_tag] at this
    cases ht : tagAt y with
    | none => rfl
    | some q => rw [ht] at this; exact absurd this (by simp)
  | some q =>
    right
    obtain ⟨b, e⟩ := q
    obtain ⟨x, y, hr, hb, hy, hearly⟩ := search_some _ _ _ _ _ h
    rw [execAt_tag] at hy
    cases ht : tagAt y with
    | none => rw [ht] at hy; exact absurd hy (by simp)
    | some q1 =>
      obtain ⟨arg, r⟩ := q1
      rw [ht] at hy
      simp only [Option.map_some', Option.some.injEq] at hy
      obtain ⟨hy1, hall⟩ := tagAt_some y arg r ht
      subst hy1
      refine ⟨x, arg, r, by simp [hr], hall, ?_, ?_⟩
      · intro x1 c x2 hx
        have := hearly x1 c x2 hx
        rw [execAt_tag] at this
        cases ht2 : tagAt (c :: x2 ++ (tagText arg ++ r)) with
        | none => simpa using ht2
        | some q2 => rw [ht2] at this; exact absurd this (by simp)
      · rw [hb, ← hy]

/-! ## The rewriter loop -/

theorem exec_split (re : Re) (done rest : List Char) :
    exec re (done ++ rest) done.length =
      match search re done.reverse rest with
      | none => (none, 0)
      | some (b, e) => (some (mkMatch b e), e.pre.length) := by
  rw [exec, if_neg (by simp), List.take_left, List.drop_left]

theorem exec_tag_none (done rest : List Char)
    (h : search IMAGE_TAG_REGEX done.reverse rest = none) :
    exec IMAGE_TAG_REGEX (done ++ rest) done.length = (none, 0) := by
  rw [exec_split, h]

theorem exec_tag_some (done x arg r : List Char)
    (h : search IMAGE_TAG_REGEX done.reverse (x ++ tagText arg ++ r) =
      some (⟨x.reverse ++ done.reverse, tagText arg ++ r, []⟩,
        ⟨(tagText arg).reverse ++ (x.reverse ++ done.reverse), r, [(1, arg)]⟩)) :
    exec IMAGE_TAG_REGEX (done ++ (x ++ tagText arg ++ r)) done.length =
      (some ⟨done.length + x.length, tagText arg, [(1, arg)]⟩,
        (done ++ x ++ tagText arg).length) := by
  rw [exec_split, h]
  have e := take_consumed (tagText arg) r
  simp only [List.length_append] at e
  simp only [mkMatch, Prod.mk.injEq, Option.some.injEq, MatchResult.mk.injEq,
    and_true, List.length_append, List.length_reverse, e]
  omega

theorem tagText_length (arg : List Char) : (tagText arg).length = arg.length + 8 := by
  simp [tagText]

/-- A rule for the rewriter loop.  A property `P done rest out` of the text
already scanned, the text ahead and the segments the loop appends holds at the
end when it holds where no tag is ahead (`hstop`) and is carried over the first
tag ahead (`hstep`); and the loop ends, with the cursor back at 0. -/
theorem tagLoop_rule (createImg : List Char → Bool)
    (P : List Char → List Char → List Seg → Prop)
    (hstop : ∀ done rest, (∀ x y, rest = x ++ y → tagAt y = none) →
      P done rest (if rest.isEmpty then [] else [.lit rest]))
    (hstep : ∀ done x arg r segs, (∀ c ∈ arg, c ≠ ']' ∧ isLineTerminator c = false) →
      (∀ x1 c x2, x = x1 ++ c :: x2 → tagAt (c :: x2 ++ tagText arg ++ r) = none) →
      P (done ++ x ++ tagText arg) r segs →
      P done (x ++ tagText arg ++ r)
        ((if x.isEmpty then [] else [.lit x]) ++
          tagSeg createImg (done.length + x.length) arg :: segs))
    (n : Nat) :
    ∀ (done rest : List Char) (frag : List Seg) (fuel : Nat),
      rest.length ≤ n → rest.length < fuel →
      ∃ out, tagLoop createImg (done ++ rest) fuel done.length done.length frag =
        some (frag ++ out, 0) ∧ P done rest out := by
  induction n with
  | zero =>
    intro done rest frag fuel hn hfuel
    have hr : rest = [] := List.length_eq_zero.1 (Nat.le_zero.1 hn)
    subst hr
    obtain ⟨f, rfl⟩ : ∃ f, fuel = f + 1 := ⟨fuel - 1, by omega⟩
    have hs : search IMAGE_TAG_REGEX done.reverse [] = none := by
      rw [search, execAt_tag]
      rfl
    refine ⟨[], ?_, ?_⟩
    · rw [tagLoop, exec_tag_none done [] hs]
      simp
    · have := hstop done [] (by
        intro x y hxy
        obtain ⟨-, rfl⟩ := List.append_eq_nil.1 hxy.symm
        rfl)
      simpa using this
  | succ n ih =>
    intro done rest frag fuel hn hfuel
    obtain ⟨f, rfl⟩ : ∃ f, fuel = f + 1 := ⟨fuel - 1, by omega⟩
    rcases search_tag done.reverse rest with ⟨hs, hnone⟩ | ⟨x, arg, r, rfl, hall, hearly, hs⟩
    · refine ⟨if rest.isEmpty then [] else [.lit rest], ?_, hstop done rest hnone⟩
      rw [tagLoop, exec_tag_none done rest hs]
      simp only [List.drop_left]
      cases rest <;> simp
    · have hlen : r.length ≤ n ∧ r.length < f := by
        simp only [List.length_append, tagText_length] at hn hfuel
        omega
      obtain ⟨out, hout, hP⟩ := ih (done ++ x ++ tagText arg) r
        (frag ++ ((if x.isEmpty then [] else [.lit x]) ++
          [tagSeg createImg (done.length + x.length) arg])) f hlen.1 hlen.2
      refine ⟨(if x.isEmpty then [] else [.lit x]) ++
        tagSeg createImg (done.length + x.length) arg :: out, ?_,
        hstep done x arg r out hall hearly hP⟩
      rw [tagLoop, exec_tag_some done x arg r hs]
      have hslice : slice (done ++ (x ++ tagText arg ++ r)) done.length
          (done.length + x.length) = x := by
        simp [slice]
      have htext : done ++ (x ++ tagText arg ++ r) = done ++ x ++ tagText arg ++ r := by
        simp
      simp only [hslice, capStr, MatchResult.cap, List.find?, beq_self_eq_true,
        Option.map_some']
      have hfrag : (if createImg (normalizeURL (trim arg)) = true then
            (if x.isEmpty = true then frag else frag ++ [Seg.lit x]) ++
              [Seg.img (normalizeURL (trim arg)) ⟨done.length + x.length, tagText arg, [(1, arg)]⟩]
          else
            (if x.isEmpty = true then frag else frag ++ [Seg.lit x]) ++
              [Seg.raw ⟨done.length + x.length, tagText arg, [(1, arg)]⟩]) =
          frag ++ ((if x.isEmpty then [] else [.lit x]) ++
            [tagSeg createImg (done.length + x.length) arg]) := by
        cases x <;> cases hc : createImg (normalizeURL (trim arg)) <;>
          simp [tagSeg, hc]
      rw [htext, hfrag, hout]
      simp

theorem restore_append (a b : List Seg) : restore (a ++ b) = restore a ++ restore b := by
  induction a with
  | nil => rfl
  | cons s a ih => simp [restore, ih]

theorem hasTag_false_iff (s : List Char) :
    hasTag s = false ↔ ∀ x y, s = x ++ y → tagAt y = none := by
  rw [hasTag]
  rcases search_tag [] s with ⟨hs, hnone⟩ | ⟨x, arg, r, rfl, hall, -, hs⟩
  · rw [hs]
    exact ⟨fun _ => hnone, fun _ => rfl⟩
  · rw [hs]
    simp only [Option.isSome_some, Bool.true_eq_false, false_iff]
    intro h
    have := h x (tagText arg ++ r) (by simp)
    rw [tagAt_tagText arg r hall] at this
    exact absurd this (by simp)

/-- The rule of the loop, for a text node scanned with the cursor at 0: the node
is left in place when it holds no tag, and is otherwise replaced by a fragment
with the property `P`; the cursor is 0 afterwards. -/
theorem processTextNode_rule (createImg : List Char → Bool)
    (P : List Char → List Char → List Seg → Prop)
    (hstop : ∀ done rest, (∀ x y, rest = x ++ y → tagAt y = none) →
      P done rest (if rest.isEmpty then [] else [.lit rest]))
    (hstep : ∀ done x arg r segs, (∀ c ∈ arg, c ≠ ']' ∧ isLineTerminator c = false) →
      (∀ x1 c x2, x = x1 ++ c :: x2 → tagAt (c :: x2 ++ tagText arg ++ r) = none) →
      P (done ++ x ++ tagText arg) r segs →
      P done (x ++ tagText arg ++ r)
        ((if x.isEmpty then [] else [.lit x]) ++
          tagSeg createImg (done.length + x.length) arg :: segs))
    (text : List Char) :
    (hasTag text = false ∧ processTextNode createImg text 0 = some (none, 0)) ∨
    (hasTag text = true ∧ ∃ frag, processTextNode createImg text 0 = some (some frag, 0) ∧
      P [] text frag) := by
  cases text with
  | nil =>
    left
    exact ⟨by decide, rfl⟩
  | cons c t =>
    have hex := exec_split IMAGE_TAG_REGEX [] (c :: t)
    simp only [List.nil_append, List.length_nil, List.reverse_nil] at hex
    cases hs : search IMAGE_TAG_REGEX [] (c :: t) with
    | none =>
      left
      rw [hs] at hex
      refine ⟨by simp [hasTag, hs], ?_⟩
      simp [processTextNode, test, hex]
    | some q =>
      right
      rw [hs] at hex
      obtain ⟨out, hout, hP⟩ := tagLoop_rule createImg P hstop hstep (c :: t).length [] (c :: t)
        [] ((c :: t).length + 1) (Nat.le_refl _) (Nat.lt_succ_self _)
      simp only [List.nil_append, List.length_nil] at hout
      have hout1 : tagLoop createImg (c :: t) (t.length + 1 + 1) 0 0 [] = some (out, 0) := hout
      refine ⟨by simp [hasTag, hs], out, ?_, hP⟩
      simp [processTextNode, test, hex, hout1]

/-- The rule of the loop, for a text node scanned with any cursor: the node is
left in place, or replaced by a fragment with the property `P` (the loop always
scans from position 0, line 80). -/
theorem processTextNode_rule_any (createImg : List Char → Bool)
    (P : List Char → List Char → List Seg → Prop)
    (hstop : ∀ done rest, (∀ x y, rest = x ++ y → tagAt y = none) →
      P done rest (if rest.isEmpty then [] else [.lit rest]))
    (hstep : ∀ done x arg r segs, (∀ c ∈ arg, c ≠ ']' ∧ isLineTerminator c = false) →
      (∀ x1 c x2, x = x1 ++ c :: x2 → tagAt (c :: x2 ++ tagText arg ++ r) = none) →
      P (done ++ x ++ tagText arg) r segs →
      P done (x ++ tagText arg ++ r)
        ((if x.isEmpty then [] else [.lit x]) ++
          tagSeg createImg (done.length + x.length) arg :: segs))
    (text : List Char) (reLast : Nat) :
    (∃ li, processTextNode createImg text reLast = some (none, li)) ∨
    (∃ frag, processTextNode createImg text reLast = some (some frag, 0) ∧ P [] text frag) := by
  rw [processTextNode]
  cases he : text.isEmpty with
  | true => exact Or.inl ⟨reLast, rfl⟩
  | false =>
    simp only [Bool.false_eq_true, if_false]
    cases ht : test IMAGE_TAG_REGEX text reLast with
    | mk b li =>
      cases b with
      | false => exact Or.inl ⟨li, rfl⟩
      | true =>
        right
        obtain ⟨out, hout, hP⟩ := tagLoop_rule createImg P hstop hstep text.length [] text
          [] (text.length + 1) (Nat.le_refl _) (Nat.lt_succ_self _)
        simp only [List.nil_append, List.length_nil] at hout
        exact ⟨out, by simp [hout], hP⟩

theorem lit_source (v : List Char) : (Seg.lit v).source = v := rfl

theorem tagSeg_source (createImg : List Char → Bool) (i : Nat) (arg : List Char) :
    (tagSeg createImg i arg).source = tagText arg := by
  rw [tagSeg]
  split <;> rfl

theorem tagSeg_origin (createImg : List Char → Bool) (i : Nat) (arg : List Char) :
    (tagSeg createImg i arg).origin = some ⟨i, tagText arg, [(1, arg)]⟩ := by
  rw [tagSeg]
  split <;> rfl

/-! ## C6 -/

/-- C6 (text preservation).  For every text-node string `t`, whatever the regex
cursor, the rewriter either leaves the node in place or replaces it by a
fragment whose segments, with each placeholder put back as the full matched tag
text it was created from, concatenate to exactly `t`. -/
theorem C6_text_preservation (createImg : List Char → Bool) (t : List Char) (reLast : Nat) :
    ∃ r li, processTextNode createImg t reLast = some (r, li) ∧
      (r = none ∨ ∃ frag, r = some frag ∧ restore frag = t) := by
  rcases processTextNode_rule_any createImg (fun _ rest out => restore out = rest)
      (by
        intro done rest _
        cases rest <;> simp [restore, lit_source])
      (by
        intro done x arg r segs _ _ hP
        rw [restore_append]
        cases x <;> simp [restore, lit_source, tagSeg_source, hP])
      t reLast with ⟨li, h⟩ | ⟨frag, h, hP⟩
  · exact ⟨none, li, h, Or.inl rfl⟩
  · exact ⟨some frag, 0, h, Or.inr ⟨frag, rfl, hP⟩⟩

/-! ## The matches of the tag pattern, left to right -/

theorem matchAllFrom_skip (re : Re) (y r pre : List Char) :
    matchAllFrom re pre (y ++ r) y.length = matchAllFrom re (y.reverse ++ pre) r 0 := by
  induction y generalizing pre with
  | nil => rfl
  | cons c y ih =>
    show matchAllFrom re pre (c :: (y ++ r)) (y.length + 1) = _
    rw [matchAllFrom, ih]
    simp

theorem matchAllFrom_tag_none (pre rest : List Char)
    (h : ∀ x y, rest = x ++ y → tagAt y = none) :
    matchAllFrom IMAGE_TAG_REGEX pre rest 0 = [] := by
  induction rest generalizing pre with
  | nil =>
    rw [matchAllFrom, execAt_tag]
    rfl
  | cons c r ih =>
    rw [matchAllFrom, execAt_tag, h [] (c :: r) rfl]
    exact ih (c :: pre) (fun x y hxy => h (c :: x) y (by simp [hxy]))

theorem tagText_cons (arg : List Char) :
    tagText arg = '[' :: ("image=".toList ++ arg ++ "]".toList) := by
  simp [tagText]

theorem matchAllFrom_tag_first (pre x arg r : List Char)
    (hall : ∀ c ∈ arg, c ≠ ']' ∧ isLineTerminator c = false)
    (hearly : ∀ x1 c x2, x = x1 ++ c :: x2 → tagAt (c :: x2 ++ tagText arg ++ r) = none) :
    matchAllFrom IMAGE_TAG_REGEX pre (x ++ tagText arg ++ r) 0 =
      ⟨pre.length + x.length, tagText arg, [(1, arg)]⟩ ::
        matchAllFrom IMAGE_TAG_REGEX ((tagText arg).reverse ++ (x.reverse ++ pre)) r 0 := by
  induction x generalizing pre with
  | nil =>
    have hex : execAt IMAGE_TAG_REGEX pre (tagText arg ++ r) =
        some ⟨(tagText arg).reverse ++ pre, r, [(1, arg)]⟩ := by
      rw [execAt_tag, tagAt_tagText arg r hall]
      rfl
    have hm : mkMatch ⟨pre, tagText arg ++ r, []⟩ ⟨(tagText arg).reverse ++ pre, r, [(1, arg)]⟩ =
        ⟨pre.length, tagText arg, [(1, arg)]⟩ := by
      have e := take_consumed (tagText arg) r
      simp only [mkMatch, e]
    have hskip := matchAllFrom_skip IMAGE_TAG_REGEX ("image=".toList ++ arg ++ "]".toList) r
      ('[' :: pre)
    rw [tagText_cons] at hex hm ⊢
    simp only [List.nil_append, List.cons_append, List.length_nil, Nat.add_zero,
      List.reverse_nil] at hex hm ⊢
    rw [matchAllFrom, hex]
    simp only [hm]
    have hlt : r.length < ('[' :: ("image=".toList ++ arg ++ "]".toList ++ r)).length := by
      simp only [List.length_cons, List.length_append]
      omega
    have hsk : ("image=".toList ++ arg ++ "]".toList ++ r).length - r.length =
        ("image=".toList ++ arg ++ "]".toList).length := by
      simp only [List.length_append]
      omega
    rw [if_pos hlt, hsk, hskip]
    simp
  | cons a x ih =>
    have h0 := hearly [] a x rfl
    simp only [List.cons_append] at h0 ⊢
    rw [matchAllFrom, execAt_tag, h0]
    simp only [Option.map_none']
    rw [ih (a :: pre) (fun x1 c x2 hx => hearly (a :: x1) c x2 (by simp [hx]))]
    simp only [List.length_cons, List.reverse_cons, List.append_assoc, List.singleton_append]
    congr 2
    omega

/-! ## C8 -/

/-- C8 (placeholder count and binding).  When placeholder construction
succeeds, the source URLs of the placeholders the rewriter emits for a text
node `t`, scanned with the regex cursor at 0, are, in order,
`normalizeURL(trim(ARG))` for the matches of `IMAGE_TAG_REGEX` in `t` taken left
to right without overlap: one placeholder per match. -/
theorem C8_placeholder_binding (createImg : List Char → Bool)
    (hok : ∀ u, createImg u = true) (t : List Char) :
    ∃ r, processTextNode createImg t 0 = some (r, 0) ∧
      placeholders r =
        (matchAll IMAGE_TAG_REGEX t).map (fun m => normalizeURL (trim (capStr m 1))) := by
  rcases processTextNode_rule createImg
      (fun done rest out => out.filterMap Seg.src =
        (matchAllFrom IMAGE_TAG_REGEX done.reverse rest 0).map
          (fun m => normalizeURL (trim (capStr m 1))))
      (by
        intro done rest hnone
        rw [matchAllFrom_tag_none _ _ hnone]
        cases rest <;> simp [Seg.src])
      (by
        intro done x arg r segs hall hearly hP
        rw [matchAllFrom_tag_first _ _ _ _ hall hearly, List.filterMap_append]
        have hseg : tagSeg createImg (done.length + x.length) arg =
            .img (normalizeURL (trim arg)) ⟨done.length + x.length, tagText arg, [(1, arg)]⟩ := by
          rw [tagSeg, if_pos (hok _)]
        have hlit : (if x.isEmpty then [] else [Seg.lit x]).filterMap Seg.src = [] := by
          cases x <;> simp [Seg.src]
        rw [hlit, hseg, List.filterMap_cons]
        simp only [Seg.src, List.nil_append, List.map_cons, hP, List.reverse_append,
          List.append_assoc]
        simp [capStr, MatchResult.cap])
      t with ⟨hno, h⟩ | ⟨-, frag, h, hP⟩
  · refine ⟨none, h, ?_⟩
    rw [matchAll, matchAllFrom_tag_none _ _ ((hasTag_false_iff t).1 hno)]
    rfl
  · exact ⟨some frag, h, hP⟩

/-- Witness of C8: `"hello [image=yt://ignored] world"` becomes the text
`"hello "`, one placeholder with source `"yt://ignored"`, and the text
`" world"`. -/
theorem C8_placeholder_binding_witness :
    processTextNode (fun _ => true) "hello [image=yt://ignored] world".toList 0 =
      some (some [.lit "hello ".toList,
        .img "yt://ignored".toList
          ⟨6, "[image=yt://ignored]".toList, [(1, "yt://ignored".toList)]⟩,
        .lit " world".toList], 0) ∧
    ∃ r, processTextNode (fun _ => true) "hello [image=yt://ignored] world".toList 0 =
        some (r, 0) ∧
      placeholders r = (matchAll IMAGE_TAG_REGEX "hello [image=yt://ignored] world".toList).map
        (fun m => normalizeURL (trim (capStr m 1))) :=
  ⟨by decide, C8_placeholder_binding (fun _ => true) (fun _ => rfl)
    "hello [image=yt://ignored] world".toList⟩

/-! ## C9 -/

/-- Where a tag stands in the text ahead, the loop either matches it there or
has matched an earlier tag that runs across that position. -/
theorem tagLoop_finds (createImg : List Char → Bool) (text : List Char) :
    (hasTag text = false ∧ processTextNode createImg text 0 = some (none, 0)) ∨
    (hasTag text = true ∧ ∃ frag, processTextNode createImg text 0 = some (some frag, 0) ∧
      ∀ a arg b, text = a ++ tagText arg ++ b →
        (∀ c ∈ arg, c ≠ ']' ∧ isLineTerminator c = false) →
        (∃ s ∈ frag, s.origin = some ⟨a.length, tagText arg, [(1, arg)]⟩) ∨
        (∃ s ∈ frag, ∃ m, s.origin = some m ∧ m.index < a.length ∧
          a.length < m.index + m.matched.length)) := by
  have key := processTextNode_rule createImg
    (fun done rest out => ∀ a arg b, rest = a ++ tagText arg ++ b →
      (∀ c ∈ arg, c ≠ ']' ∧ isLineTerminator c = false) →
      (∃ s ∈ out, s.origin = some ⟨done.length + a.length, tagText arg, [(1, arg)]⟩) ∨
      (∃ s ∈ out, ∃ m, s.origin = some m ∧ m.index < done.length + a.length ∧
        done.length + a.length < m.index + m.matched.length))
    (by
      intro done rest hnone a arg b hrest harg
      have := hnone a (tagText arg ++ b) (by simp [hrest])
      rw [tagAt_tagText arg b harg] at this
      exact absurd this (by simp))
    (by
      intro done x arg0 r segs hall hearly hP a arg b hrest harg
      have hseg : tagSeg createImg (done.length + x.length) arg0 ∈
          (if x.isEmpty then [] else [Seg.lit x]) ++
            tagSeg createImg (done.length + x.length) arg0 :: segs := by
        simp
      have hsub : ∀ s ∈ segs, s ∈ (if x.isEmpty then [] else [Seg.lit x]) ++
          tagSeg createImg (done.length + x.length) arg0 :: segs := by
        intro s hs
        simp [hs]
      have hsame : ∀ r1 b1, tagText arg0 ++ r1 = tagText arg ++ b1 → arg0 = arg := by
        intro r1 b1 e
        have h1 := tagAt_tagText arg0 r1 hall
        rw [e, tagAt_tagText arg b1 harg] at h1
        simp only [Option.some.injEq, Prod.mk.injEq] at h1
        exact h1.1.symm
      have hrest1 : x ++ (tagText arg0 ++ r) = a ++ (tagText arg ++ b) := by
        simpa using hrest
      rcases List.append_eq_append_iff.1 hrest1 with ⟨a1, ha, hT⟩ | ⟨c1, hx, hT⟩
      · rcases List.append_eq_append_iff.1 hT with ⟨a2, ha2, hr⟩ | ⟨c2, hT0, hTb⟩
        · have hidx : (done ++ x ++ tagText arg0).length + a2.length = done.length + a.length := by
            rw [ha, ha2]
            simp only [List.length_append]
            omega
          rcases hP a2 arg b (by simp [hr]) harg with ⟨s, hs, ho⟩ | ⟨s, hs, m, ho, h1, h2⟩
          · left
            refine ⟨s, hsub s hs, ?_⟩
            rw [ho, hidx]
          · right
            exact ⟨s, hsub s hs, m, ho, by omega, by omega⟩
        · cases a1 with
          | nil =>
            simp only [List.nil_append] at hT0
            have e0 : arg0 = arg := hsame r b (by rw [hT0, hTb])
            left
            refine ⟨_, hseg, ?_⟩
            rw [tagSeg_origin, ha, e0]
            simp
          | cons y a3 =>
            cases c2 with
            | nil =>
              simp only [List.append_nil] at hT0
              simp only [List.nil_append] at hTb
              have hidx : (done ++ x ++ tagText arg0).length + ([] : List Char).length =
                  done.length + a.length := by
                rw [ha, hT0]
                simp only [List.length_append, List.length_nil]
                omega
              rcases hP [] arg b (by simp [hTb]) harg with ⟨s, hs, ho⟩ | ⟨s, hs, m, ho, h1, h2⟩
              · left
                refine ⟨s, hsub s hs, ?_⟩
                rw [ho, hidx]
              · right
                exact ⟨s, hsub s hs, m, ho, by omega, by omega⟩
            | cons z c3 =>
              right
              refine ⟨_, hseg, _, tagSeg_origin _ _ _, ?_, ?_⟩
              · rw [ha]
                simp only [List.length_append, List.length_cons]
                omega
              · have hl := congrArg List.length hT0
                rw [ha]
                simp only [List.length_append, List.length_cons] at hl ⊢
                omega
      · cases c1 with
        | nil =>
          simp only [List.append_nil] at hx
          subst hx
          have e0 : arg0 = arg := hsame r b (by simpa using hT.symm)
          left
          refine ⟨_, hseg, ?_⟩
          rw [tagSeg_origin, e0]
        | cons c c2 =>
          exfalso
          have h1 := hearly a c c2 hx
          have e : c :: c2 ++ tagText arg0 ++ r = tagText arg ++ b := by
            rw [hT]
            simp
          rw [e, tagAt_tagText arg b harg] at h1
          exact absurd h1 (by simp))
    text
  simpa using key

/-- C9 as stated fails when a line terminator stands between `[image=` and the
first `]`.  In `"[image=a\nb]"` the text `[image=` occurs at position 0, outside
any earlier match, and `]` follows, with the argument `"a\nb"` free of `]`; the
rewriter finds no tag and leaves the node in place.  In
`"[image=a\n[image=b]"` the tag is matched from the second `[image=`, not from
the first. -/
theorem C9_line_terminator_counterexample :
    "[image=a\nb]".toList = [] ++ tagText "a\nb".toList ++ [] ∧
    ']' ∉ "a\nb".toList ∧
    processTextNode (fun _ => true) "[image=a\nb]".toList 0 = some (none, 0) ∧
    processTextNode (fun _ => true) "[image=a\n[image=b]".toList 0 =
      some (some [.lit "[image=a\n".toList,
        .img "b".toList ⟨9, "[image=b]".toList, [(1, "b".toList)]⟩], 0) := by
  decide

/-- C9, amended (tag grammar).  Let `[image=` stand at position `|a|` of a text
node, followed by an argument `arg` that holds no `]` and no line terminator,
then by `]`.  The rewriter, with the regex cursor at 0, replaces the node by a
fragment, and if that position does not lie inside a match that starts earlier,
the fragment holds a segment created from the match at `|a|` whose text is
`[image=` + `arg` + `]` and whose captured argument is `arg`: the tag runs up
to the first `]` and no further. -/
theorem C9_tag_grammar (createImg : List Char → Bool) (a arg b : List Char)
    (harg : ∀ c ∈ arg, c ≠ ']' ∧ isLineTerminator c = false) :
    ∃ frag, processTextNode createImg (a ++ tagText arg ++ b) 0 = some (some frag, 0) ∧
      ((∀ s ∈ frag, ∀ m, s.origin = some m →
          ¬ (m.index < a.length ∧ a.length < m.index + m.matched.length)) →
        ∃ s ∈ frag, s.origin = some ⟨a.length, tagText arg, [(1, arg)]⟩) := by
  rcases tagLoop_finds createImg (a ++ tagText arg ++ b) with ⟨hno, -⟩ | ⟨-, frag, h, hfind⟩
  · exfalso
    have := (hasTag_false_iff _).1 hno a (tagText arg ++ b) (by simp)
    rw [tagAt_tagText arg b harg] at this
    exact absurd this (by simp)
  · refine ⟨frag, h, fun hout => ?_⟩
    rcases hfind a arg b rfl harg with hfound | ⟨s, hs, m, ho, h1, h2⟩
    · exact hfound
    · exact absurd ⟨h1, h2⟩ (hout s hs m ho)

/-- Witness of C9, amended: in `"x[image=u]y]"` the tag at position 1 is matched
up to the first `]`. -/
theorem C9_tag_grammar_witness :
    processTextNode (fun _ => true) "x[image=u]y]".toList 0 =
      some (some [.lit "x".toList, .img "u".toList ⟨1, "[image=u]".toList, [(1, "u".toList)]⟩,
        .lit "y]".toList], 0) ∧
    ∃ frag, processTextNode (fun _ => true)
        ("x".toList ++ tagText "u".toList ++ "y]".toList) 0 = some (some frag, 0) ∧
      ((∀ s ∈ frag, ∀ m, s.origin = some m →
          ¬ (m.index < "x".toList.length ∧ "x".toList.length < m.index + m.matched.length)) →
        ∃ s ∈ frag, s.origin = some ⟨"x".toList.length, tagText "u".toList,
          [(1, "u".toList)]⟩) :=
  ⟨by decide, C9_tag_grammar (fun _ => true) "x".toList "u".toList "y]".toList (by decide)⟩

/-! ## Containers without tags -/

theorem exec_tag_noTag (v : List Char) (h : hasTag v = false) (j : Nat) :
    exec IMAGE_TAG_REGEX v j = (none, 0) := by
  rw [exec]
  split
  · rfl
  · rcases search_tag (v.take j).reverse (v.drop j) with ⟨hs, -⟩ | ⟨x, arg, r, hv, hall, -, -⟩
    · rw [hs]
    · exfalso
      have := (hasTag_false_iff v).1 h (v.take j ++ x) (tagText arg ++ r) (by
        rw [List.append_assoc, ← List.append_assoc x, ← hv, List.take_append_drop])
      rw [tagAt_tagText arg r hall] at this
      exact absurd this (by simp)

theorem processTextNode_noTag (createImg : List Char → Bool) (v : List Char)
    (h : hasTag v = false) (j : Nat) :
    ∃ li, processTextNode createImg v j = some (none, li) := by
  rw [processTextNode]
  split
  · exact ⟨j, rfl⟩
  · exact ⟨0, by simp [test, exec_tag_noTag v h j]⟩

mutual

theorem processNode_noTag (createImg : List Char → Bool) :
    ∀ (n : Node) (j : Nat), (∀ v ∈ n.texts, hasTag v = false) →
      ∃ li, processNode createImg n j = some ([n], li)
  | .text v, j, h => by
    obtain ⟨li, e⟩ := processTextNode_noTag createImg v (h v (by simp [Node.texts])) j
    exact ⟨li, by simp [processNode, e]⟩
  | .img src, j, _ => ⟨j, rfl⟩
  | .elem name kids, j, h => by
    obtain ⟨li, e⟩ := processNodes_noTag createImg kids j (by simpa [Node.texts] using h)
    exact ⟨li, by simp [processNode, e]⟩

theorem processNodes_noTag (createImg : List Char → Bool) :
    ∀ (ns : List Node) (j : Nat), (∀ v ∈ Node.texts.textsList ns, hasTag v = false) →
      ∃ li, processNode.processNodes createImg ns j = some (ns, li)
  | [], j, _ => ⟨j, rfl⟩
  | n :: ns, j, h => by
    obtain ⟨l1, e1⟩ := processNode_noTag createImg n j
      (fun v hv => h v (by simp [Node.texts.textsList, hv]))
    obtain ⟨l2, e2⟩ := processNodes_noTag createImg ns l1
      (fun v hv => h v (by simp [Node.texts.textsList, hv]))
    exact ⟨l2, by simp [processNode.processNodes, e1, e2]⟩

end

/-! ## C10 -/

/-- C10 as stated fails on a container that has not been scanned before: no
text node holds a tag, the nodes are untouched, but the scan sets the processed
marker (line 124), so the container is not left identical. -/
theorem C10_marker_counterexample :
    (∀ v ∈ Node.texts.textsList [Node.text "hello".toList], hasTag v = false) ∧
    (⟨none, [.text "hello".toList]⟩ : Container).processed = none ∧
    (processCommentElement (fun _ => true) ⟨none, [.text "hello".toList]⟩ 0).map
      (fun p => p.1.processed) = some (some "1".toList) := by
  decide

/-- C10, amended (container without tags).  When no text node of a container
holds a match of the tag pattern, a scan, whatever the regex cursor, leaves
every node of the container as it is (no text node is replaced or altered); the
only change is the processed marker, which is `"1"` afterwards. -/
theorem C10_no_tag_container (createImg : List Char → Bool) (el : Container) (reLast : Nat)
    (h : ∀ v ∈ Node.texts.textsList el.kids, hasTag v = false) :
    ∃ li, processCommentElement createImg el reLast =
      some (⟨some "1".toList, el.kids⟩, li) := by
  obtain ⟨li, e⟩ := processNodes_noTag createImg el.kids reLast h
  exact ⟨li, by simp [processCommentElement, e]⟩

/-- Witness of C10, amended: a container with the texts `"hello"` and, inside a
link, the unclosed `"[image=x"`. -/
theorem C10_no_tag_container_witness :
    ∃ li, processCommentElement (fun _ => true)
        ⟨none, [.text "hello".toList, .elem "a".toList [.text "[image=x".toList]]⟩ 5 =
      some (⟨some "1".toList,
        [.text "hello".toList, .elem "a".toList [.text "[image=x".toList]]⟩, li) :=
  C10_no_tag_container (fun _ => true)
    ⟨none, [.text "hello".toList, .elem "a".toList [.text "[image=x".toList]]⟩ 5 (by decide)

/-! ## The matches the loop acts on -/

theorem origins_stop (done rest : List Char)
    (hnone : ∀ x y, rest = x ++ y → tagAt y = none) :
    (if rest.isEmpty then [] else [Seg.lit rest]).filterMap Seg.origin =
      matchAllFrom IMAGE_TAG_REGEX done.reverse rest 0 := by
  rw [matchAllFrom_tag_none _ _ hnone]
  cases rest <;> simp [Seg.origin]

theorem origins_step (createImg : List Char → Bool) (done x arg r : List Char) (segs : List Seg)
    (hall : ∀ c ∈ arg, c ≠ ']' ∧ isLineTerminator c = false)
    (hearly : ∀ x1 c x2, x = x1 ++ c :: x2 → tagAt (c :: x2 ++ tagText arg ++ r) = none)
    (hP : segs.filterMap Seg.origin =
      matchAllFrom IMAGE_TAG_REGEX (done ++ x ++ tagText arg).reverse r 0) :
    ((if x.isEmpty then [] else [Seg.lit x]) ++
        tagSeg createImg (done.length + x.length) arg :: segs).filterMap Seg.origin =
      matchAllFrom IMAGE_TAG_REGEX done.reverse (x ++ tagText arg ++ r) 0 := by
  rw [matchAllFrom_tag_first _ _ _ _ hall hearly, List.filterMap_append, List.filterMap_cons,
    tagSeg_origin]
  have hlit : (if x.isEmpty then [] else [Seg.lit x]).filterMap Seg.origin = [] := by
    cases x <;> simp [Seg.origin]
  rw [hlit]
  simp only [List.nil_append, hP, List.reverse_append, List.append_assoc, List.length_reverse]

/-! ## A second scan -/

theorem tagAt_append_none (y z : List Char) (h : tagAt (y ++ z) = none) : tagAt y = none := by
  cases hy : tagAt y with
  | none => rfl
  | some q =>
    obtain ⟨arg, r⟩ := q
    obtain ⟨rfl, hall⟩ := tagAt_some y arg r hy
    rw [List.append_assoc, tagAt_tagText arg (r ++ z) hall] at h
    exact absurd h (by simp)

/-- What the loop appends: literal text without a tag, and segments built for
tags. -/
theorem processTextNode_segments (createImg : List Char → Bool) (text : List Char) :
    (hasTag text = false ∧ processTextNode createImg text 0 = some (none, 0)) ∨
    (hasTag text = true ∧ ∃ frag, processTextNode createImg text 0 = some (some frag, 0) ∧
      ∀ s ∈ frag, (∃ v, s = .lit v ∧ hasTag v = false) ∨
        (∃ i arg, (∀ c ∈ arg, c ≠ ']' ∧ isLineTerminator c = false) ∧
          s = tagSeg createImg i arg)) := by
  apply processTextNode_rule createImg
    (fun _ _ out => ∀ s ∈ out, (∃ v, s = .lit v ∧ hasTag v = false) ∨
      (∃ i arg, (∀ c ∈ arg, c ≠ ']' ∧ isLineTerminator c = false) ∧
        s = tagSeg createImg i arg))
  · intro done rest hnone s hs
    cases rest with
    | nil => simp at hs
    | cons c r =>
      simp only [List.isEmpty_cons, Bool.false_eq_true, if_false, List.mem_singleton] at hs
      exact Or.inl ⟨c :: r, hs, (hasTag_false_iff _).2 hnone⟩
  · intro done x arg r segs hall hearly hP s hs
    rcases List.mem_append.1 hs with h1 | h1
    · cases x with
      | nil => simp at h1
      | cons c x1 =>
        simp only [List.isEmpty_cons, Bool.false_eq_true, if_false, List.mem_singleton] at h1
        refine Or.inl ⟨c :: x1, h1, (hasTag_false_iff _).2 ?_⟩
        intro x2 y hxy
        cases y with
        | nil => rfl
        | cons d y1 =>
          have := hearly x2 d y1 hxy
          rw [show d :: y1 ++ tagText arg ++ r = (d :: y1) ++ (tagText arg ++ r) by simp] at this
          exact tagAt_append_none _ _ this
    · rcases List.mem_cons.1 h1 with h2 | h2
      · exact Or.inr ⟨_, arg, hall, h2⟩
      · exact hP s h2

/-- A text node that is exactly one tag is replaced by the segment of that
tag. -/
theorem processTextNode_tagText (createImg : List Char → Bool) (arg : List Char)
    (harg : ∀ c ∈ arg, c ≠ ']' ∧ isLineTerminator c = false) :
    processTextNode createImg (tagText arg) 0 = some (some [tagSeg createImg 0 arg], 0) := by
  rcases processTextNode_rule createImg
      (fun done rest out => (rest = [] → out = []) ∧
        ∀ a, (∀ c ∈ a, c ≠ ']' ∧ isLineTerminator c = false) → rest = tagText a →
          out = [tagSeg createImg done.length a])
      (by
        intro done rest hnone
        refine ⟨fun h => by simp [h], ?_⟩
        intro a ha hrest
        have := hnone [] (tagText a ++ []) (by simp [hrest])
        rw [tagAt_tagText a [] ha] at this
        exact absurd this (by simp))
      (by
        intro done x a0 r segs hall hearly hP
        refine ⟨fun h => ?_, ?_⟩
        · exfalso
          have := congrArg List.length h
          simp only [List.length_append, tagText_length, List.length_nil] at this
          omega
        · intro a ha hrest
          cases x with
          | cons c x1 =>
            exfalso
            have := hearly [] c x1 rfl
            rw [hrest, ← List.append_nil (tagText a), tagAt_tagText a [] ha] at this
            exact absurd this (by simp)
          | nil =>
            have h1 := tagAt_tagText a0 r hall
            have hrest1 : tagText a0 ++ r = tagText a ++ [] := by simpa using hrest
            rw [hrest1, tagAt_tagText a [] ha] at h1
            simp only [Option.some.injEq, Prod.mk.injEq] at h1
            obtain ⟨rfl, rfl⟩ := h1
            rw [hP.1 rfl]
            simp)
      (tagText arg) with ⟨hno, -⟩ | ⟨-, frag, h, hP⟩
  · exfalso
    have := (hasTag_false_iff _).1 hno [] (tagText arg ++ []) (by simp)
    rw [tagAt_tagText arg [] harg] at this
    exact absurd this (by simp)
  · rw [h, hP.2 arg harg rfl]
    rfl


theorem processNodes_append (createImg : List Char → Bool) (a b : List Node) (j : Nat) :
    processNode.processNodes createImg (a ++ b) j =
      match processNode.processNodes createImg a j with
      | none => none
      | some (a1, j1) =>
        match processNode.processNodes createImg b j1 with
        | none => none
        | some (b1, j2) => some (a1 ++ b1, j2) := by
  induction a generalizing j with
  | nil =>
    simp only [List.nil_append, processNode.processNodes]
    cases processNode.processNodes createImg b j with
    | none => rfl
    | some q => rfl
  | cons n a ih =>
    rw [List.cons_append, processNode.processNodes, processNode.processNodes]
    cases processNode createImg n j with
    | none => rfl
    | some q =>
      obtain ⟨x, l1⟩ := q
      simp only
      rw [ih l1]
      cases processNode.processNodes createImg a l1 with
      | none => rfl
      | some q1 =>
        obtain ⟨y, l2⟩ := q1
        simp only
        cases processNode.processNodes createImg b l2 with
        | none => rfl
        | some q2 => simp

/-- Nodes that a scan leaves as they are, one by one, are left as they are as a
list. -/
theorem processNodes_stable (createImg : List Char → Bool) (ns : List Node)
    (h : ∀ n ∈ ns, processNode createImg n 0 = some ([n], 0)) :
    processNode.processNodes createImg ns 0 = some (ns, 0) := by
  induction ns with
  | nil => rfl
  | cons n ns ih =>
    rw [processNode.processNodes, h n (List.mem_cons_self _ _)]
    simp only
    rw [ih (fun m hm => h m (List.mem_cons_of_mem _ hm))]
    rfl

theorem processNode_text_noTag (createImg : List Char → Bool) (v : List Char)
    (h : hasTag v = false) : processNode createImg (.text v) 0 = some ([.text v], 0) := by
  rcases processTextNode_segments createImg v with ⟨-, e⟩ | ⟨ht, -⟩
  · simp [processNode, e]
  · rw [h] at ht
    exact absurd ht (by decide)

/-- The node of a tag segment is left as it is by a scan: a placeholder is no
text node, and the text of a tag whose construction failed is matched again and
fails again. -/
theorem processNode_tagSeg (createImg : List Char → Bool) (i : Nat) (arg : List Char)
    (harg : ∀ c ∈ arg, c ≠ ']' ∧ isLineTerminator c = false) :
    processNode createImg (tagSeg createImg i arg).toNode 0 =
      some ([(tagSeg createImg i arg).toNode], 0) := by
  cases hc : createImg (normalizeURL (trim arg)) with
  | true =>
    simp only [tagSeg, hc, if_true, Seg.toNode]
    rfl
  | false =>
    have e := processTextNode_tagText createImg arg harg
    simp only [tagSeg, hc, Bool.false_eq_true, if_false, Seg.toNode] at e ⊢
    simp [processNode, e, Seg.toNode]

theorem texts_map_toNode (frag : List Seg) (v : List Char)
    (h : v ∈ Node.texts.textsList (frag.map Seg.toNode)) :
    ∃ s ∈ frag, v ∈ s.toNode.texts := by
  induction frag with
  | nil => simp [Node.texts.textsList] at h
  | cons s frag ih =>
    simp only [List.map_cons, Node.texts.textsList, List.mem_append] at h
    rcases h with h | h
    · exact ⟨s, List.mem_cons_self _ _, h⟩
    · obtain ⟨s1, hs1, hv⟩ := ih h
      exact ⟨s1, List.mem_cons_of_mem _ hs1, hv⟩

/-- What the loop appends, and the matches it comes from. -/
theorem processTextNode_segments_origins (createImg : List Char → Bool) (text : List Char) :
    (hasTag text = false ∧ processTextNode createImg text 0 = some (none, 0)) ∨
    (hasTag text = true ∧ ∃ frag, processTextNode createImg text 0 = some (some frag, 0) ∧
      (∀ s ∈ frag, (∃ v, s = .lit v ∧ hasTag v = false) ∨
        (∃ i arg, (∀ c ∈ arg, c ≠ ']' ∧ isLineTerminator c = false) ∧
          s = tagSeg createImg i arg)) ∧
      frag.filterMap Seg.origin = matchAll IMAGE_TAG_REGEX text) := by
  rcases processTextNode_segments createImg text with h | ⟨ht, frag, e, hfrag⟩
  · exact Or.inl h
  · rcases processTextNode_rule createImg
        (fun done rest out =>
          out.filterMap Seg.origin = matchAllFrom IMAGE_TAG_REGEX done.reverse rest 0)
        (fun done rest hnone => origins_stop done rest hnone)
        (fun done x arg r segs hall hearly hP => origins_step createImg done x arg r segs
          hall hearly hP) text with ⟨h0, -⟩ | ⟨-, frag1, e1, hP⟩
    · rw [ht] at h0
      exact absurd h0 (by simp)
    · rw [e] at e1
      simp only [Option.some.injEq, Prod.mk.injEq, and_true] at e1
      subst e1
      exact Or.inr ⟨ht, frag, e, hfrag, hP⟩

theorem textsList_append (a b : List Node) :
    Node.texts.textsList (a ++ b) = Node.texts.textsList a ++ Node.texts.textsList b := by
  induction a with
  | nil => rfl
  | cons n a ih => simp [Node.texts.textsList, ih]

mutual

/-- A scan of a subtree from cursor 0 ends with cursor 0, and a second scan of
its output changes nothing; a text node of the output holds no tag, or is the
text re-inserted for a match whose placeholder construction failed, which a
second scan replaces by an equal text node. -/
theorem processNode_twice (createImg : List Char → Bool) :
    ∀ n : Node, ∃ out, processNode createImg n 0 = some (out, 0) ∧
      processNode.processNodes createImg out 0 = some (out, 0) ∧
      ∀ v ∈ Node.texts.textsList out, hasTag v = false ∨
        ∃ t ∈ n.texts, ∃ m ∈ matchAll IMAGE_TAG_REGEX t, v = m.matched ∧
          createImg (normalizeURL (trim (capStr m 1))) = false ∧
          ∃ frag, processTextNode createImg v 0 = some (some frag, 0) ∧
            frag.map Seg.toNode = [Node.text v]
  | .text v => by
    rcases processTextNode_segments_origins createImg v with
      ⟨hno, e⟩ | ⟨-, frag, e, hfrag, horig⟩
    · refine ⟨[.text v], by simp [processNode, e], ?_, ?_⟩
      · exact processNodes_stable createImg _ (by
          intro n hn
          rw [List.mem_singleton.1 hn]
          exact processNode_text_noTag createImg v hno)
      · intro w hw
        simp only [Node.texts.textsList, Node.texts, List.append_nil, List.mem_singleton] at hw
        rw [hw]
        exact Or.inl hno
    · refine ⟨frag.map Seg.toNode, by simp [processNode, e], ?_, ?_⟩
      · apply processNodes_stable
        intro n hn
        obtain ⟨s, hs, rfl⟩ := List.mem_map.1 hn
        rcases hfrag s hs with ⟨w, rfl, hw⟩ | ⟨i, arg, harg, rfl⟩
        · exact processNode_text_noTag createImg w hw
        · exact processNode_tagSeg createImg i arg harg
      · intro w hw
        obtain ⟨s, hs, hws⟩ := texts_map_toNode frag w hw
        rcases hfrag s hs with ⟨w1, rfl, hw1⟩ | ⟨i, arg, harg, rfl⟩
        · simp only [Seg.toNode, Node.texts, List.mem_singleton] at hws
          rw [hws]
          exact Or.inl hw1
        · cases hc : createImg (normalizeURL (trim arg)) with
          | true => simp [tagSeg, hc, Seg.toNode, Node.texts] at hws
          | false =>
            have hw : w = tagText arg := by
              simpa [tagSeg, hc, Seg.toNode, Node.texts] using hws
            have hm : (⟨i, tagText arg, [(1, arg)]⟩ : MatchResult) ∈
                matchAll IMAGE_TAG_REGEX v := by
              rw [← horig]
              exact List.mem_filterMap.2 ⟨_, hs, tagSeg_origin createImg i arg⟩
            refine Or.inr ⟨v, by simp [Node.texts], _, hm, hw, ?_, ?_⟩
            · simpa [capStr, MatchResult.cap] using hc
            · rw [hw]
              exact ⟨_, processTextNode_tagText createImg arg harg, by
                simp [tagSeg, hc, Seg.toNode]⟩
  | .img src => ⟨[.img src], rfl, rfl, by
      intro w hw
      simp [Node.texts.textsList, Node.texts] at hw⟩
  | .elem name kids => by
    obtain ⟨out, e1, e2, e3⟩ := processNodes_twice createImg kids
    refine ⟨[.elem name out], by simp [processNode, e1], ?_, ?_⟩
    · simp [processNode.processNodes, processNode, e2]
    · intro w hw
      simp only [Node.texts.textsList, Node.texts, List.append_nil] at hw
      exact e3 w hw

/-- A scan of a list of subtrees from cursor 0, and a second scan of its
output. -/
theorem processNodes_twice (createImg : List Char → Bool) :
    ∀ ns : List Node, ∃ out, processNode.processNodes createImg ns 0 = some (out, 0) ∧
      processNode.processNodes createImg out 0 = some (out, 0) ∧
      ∀ v ∈ Node.texts.textsList out, hasTag v = false ∨
        ∃ t ∈ Node.texts.textsList ns, ∃ m ∈ matchAll IMAGE_TAG_REGEX t, v = m.matched ∧
          createImg (normalizeURL (trim (capStr m 1))) = false ∧
          ∃ frag, processTextNode createImg v 0 = some (some frag, 0) ∧
            frag.map Seg.toNode = [Node.text v]
  | [] => ⟨[], rfl, rfl, by
      intro w hw
      simp [Node.texts.textsList] at hw⟩
  | n :: ns => by
    obtain ⟨o1, a1, a2, a3⟩ := processNode_twice createImg n
    obtain ⟨o2, b1, b2, b3⟩ := processNodes_twice createImg ns
    refine ⟨o1 ++ o2, by simp [processNode.processNodes, a1, b1], ?_, ?_⟩
    · rw [processNodes_append, a2]
      simp only
      rw [b2]
    · intro w hw
      rw [textsList_append] at hw
      rcases List.mem_append.1 hw with h | h
      · rcases a3 w h with h1 | ⟨t, ht, rest⟩
        · exact Or.inl h1
        · exact Or.inr ⟨t, by simp [Node.texts.textsList, ht], rest⟩
      · rcases b3 w h with h1 | ⟨t, ht, rest⟩
        · exact Or.inl h1
        · exact Or.inr ⟨t, by simp [Node.texts.textsList, ht], rest⟩

end

/-! ## C7 -/

/-- C7 as stated fails when placeholder construction throws.  The first scan
re-inserts the tag as a text node (line 109), and the content is then stable;
but the second scan matches that text node again and replaces it (line 120) by
a fragment holding an equal text node, so it is not true that the second run
replaces no node. -/
theorem C7_failed_construction_counterexample :
    processCommentElement (fun _ => false) ⟨none, [.text "[image=x]".toList]⟩ 0 =
      some (⟨some "1".toList, [.text "[image=x]".toList]⟩, 0) ∧
    processTextNode (fun _ => false) "[image=x]".toList 0 =
      some (some [.raw ⟨0, "[image=x]".toList, [(1, "x".toList)]⟩], 0) ∧
    processCommentElement (fun _ => false)
        ⟨some "1".toList, [.text "[image=x]".toList]⟩ 0 =
      some (⟨some "1".toList, [.text "[image=x]".toList]⟩, 0) :=
  ⟨rfl, by decide, rfl⟩

/-- C7, amended (idempotence of the rewriter).  For every container, scanned
with the regex cursor at 0 (its value when the script starts and after every
scan): the first scan ends with the cursor at 0, and a second scan of its output
returns that output unchanged, so the content does not change and no new
placeholder is created.  No literal text segment the first scan emits (text
before a match, between matches or after the last one) holds a match of the tag
pattern.  Every text node of the output either holds no tag and is left in
place by the second scan, or is the text re-inserted for a match of an original
text node whose placeholder construction failed, and the second scan replaces it
by an equal text node.  When construction succeeds for every match of the
original text nodes, the second scan leaves every text node in place: it
replaces no node. -/
theorem C7_idempotence (createImg : List Char → Bool) (el : Container) :
    ∃ el1, processCommentElement createImg el 0 = some (el1, 0) ∧
      processCommentElement createImg el1 0 = some (el1, 0) ∧
      (∀ t frag li, processTextNode createImg t 0 = some (some frag, li) →
        ∀ v, Seg.lit v ∈ frag → hasTag v = false) ∧
      (∀ v ∈ Node.texts.textsList el1.kids,
        (hasTag v = false ∧ ∀ j, ∃ li, processTextNode createImg v j = some (none, li)) ∨
        (∃ t ∈ Node.texts.textsList el.kids, ∃ m ∈ matchAll IMAGE_TAG_REGEX t,
          v = m.matched ∧ createImg (normalizeURL (trim (capStr m 1))) = false ∧
          ∃ frag, processTextNode createImg v 0 = some (some frag, 0) ∧
            frag.map Seg.toNode = [Node.text v])) ∧
      ((∀ t ∈ Node.texts.textsList el.kids, ∀ m ∈ matchAll IMAGE_TAG_REGEX t,
          createImg (normalizeURL (trim (capStr m 1))) = true) →
        ∀ v ∈ Node.texts.textsList el1.kids,
          ∀ j, ∃ li, processTextNode createImg v j = some (none, li)) := by
  obtain ⟨out, e1, e2, e3⟩ := processNodes_twice createImg el.kids
  refine ⟨⟨some "1".toList, out⟩, by simp [processCommentElement, e1],
    by simp [processCommentElement, e2], ?_, ?_, ?_⟩
  · intro t frag li h v hv
    rcases processTextNode_segments createImg t with ⟨-, e⟩ | ⟨-, frag1, e, hfrag⟩
    · rw [e] at h
      simp at h
    · rw [e] at h
      simp only [Option.some.injEq, Prod.mk.injEq] at h
      obtain ⟨rfl, -⟩ := h
      rcases hfrag _ hv with ⟨w, hw, hno⟩ | ⟨i, arg, -, hseg⟩
      · simp only [Seg.lit.injEq] at hw
        rw [hw]
        exact hno
      · exfalso
        rw [tagSeg] at hseg
        split at hseg <;> simp at hseg
  · intro v hv
    rcases e3 v hv with h | h
    · exact Or.inl ⟨h, processTextNode_noTag createImg v h⟩
    · exact Or.inr h
  · intro hok v hv j
    rcases e3 v hv with h | ⟨t, ht, m, hm, -, hfail, -⟩
    · exact processTextNode_noTag createImg v h j
    · rw [hok t ht m hm] at hfail
      exact absurd hfail (by simp)

/-! ## Trimmed strings -/

theorem dropWhile_head (p : Char → Bool) (l : List Char) (c : Char) (r : List Char)
    (h : l.dropWhile p = c :: r) : p c = false := by
  induction l with
  | nil => simp at h
  | cons a l ih =>
    rw [List.dropWhile_cons] at h
    split at h
    · exact ih h
    · next hp =>
      simp only [List.cons.injEq] at h
      rw [← h.1]
      simpa using hp

/-- The trimmed form of a string neither begins nor ends with white space. -/
theorem trim_ends (s : List Char) :
    (∀ c r, trim s = c :: r → isSpace c = false) ∧
    (∀ c r, (trim s).reverse = c :: r → isSpace c = false) := by
  constructor
  · intro c r h
    rw [trim] at h
    have hB : ((s.dropWhile isSpace).reverse.dropWhile isSpace) = r.reverse ++ [c] := by
      have := congrArg List.reverse h
      simpa using this
    obtain ⟨t, ht⟩ := List.dropWhile_suffix (l := (s.dropWhile isSpace).reverse) isSpace
    rw [hB] at ht
    have hA : s.dropWhile isSpace = c :: (r ++ t.reverse) := by
      have := congrArg List.reverse ht
      simpa using this.symm
    exact dropWhile_head isSpace s c _ hA
  · intro c r h
    rw [trim, List.reverse_reverse] at h
    exact dropWhile_head isSpace _ c r h

theorem trim_trim (s : List Char) : trim (trim s) = trim s :=
  trim_eq_self (trim s) (trim_ends s).1 (trim_ends s).2

/-! ## C14 -/

/-- C14 (trimming and falsy input).  `normalizeURL("")` is `""`, and for every
string `s`, `normalizeURL(s)` is `normalizeURL(trim(s))`: leading and trailing
white space influences neither the rule that matches nor the result. -/
theorem C14_trim_and_falsy :
    normalizeURL [] = [] ∧ ∀ s : List Char, normalizeURL s = normalizeURL (trim s) := by
  refine ⟨rfl, fun s => ?_⟩
  cases hs : s.isEmpty with
  | true =>
    have : s = [] := List.isEmpty_iff.1 hs
    subst this
    rfl
  | false =>
    cases ht : (trim s).isEmpty with
    | true =>
      have e : trim s = [] := List.isEmpty_iff.1 ht
      rw [normalizeURL, hs, e]
      simp only [Bool.false_eq_true, if_false]
      decide
    | false =>
      rw [normalizeURL, normalizeURL, hs, ht, trim_trim]
      simp only [Bool.false_eq_true, if_false]

/-! ## What a match tells about the input -/

theorem orElse_some {α : Type} (a : Option α) (f : Unit → Option α) (R : α)
    (h : a.orElse f = some R) : a = some R ∨ f () = some R := by
  cases a with
  | none => exact Or.inr h
  | some x => exact Or.inl h

/-- A successful class star has consumed a run of the class and handed the rest
to the continuation. -/
theorem starK_inv (p : Cls) (g : Bool) (k : St → Option St) (R : St) (n : Nat) :
    ∀ (pre rest : List Char) (caps : List (Nat × List Char)),
      starK (Re.cls p).m g n ⟨pre, rest, caps⟩ k = some R →
      ∃ x y, rest = x ++ y ∧ (∀ c ∈ x, p.test c = true) ∧
        k ⟨x.reverse ++ pre, y, caps⟩ = some R := by
  induction n with
  | zero =>
    intro pre rest caps h
    exact ⟨[], rest, rfl, by simp, h⟩
  | succ n ih =>
    intro pre rest caps h
    have hcases : k ⟨pre, rest, caps⟩ = some R ∨
        (Re.cls p).m ⟨pre, rest, caps⟩ (fun t =>
          if t.rest.length < rest.length then starK (Re.cls p).m g n t k else none) = some R := by
      cases g with
      | false => exact orElse_some _ _ R h
      | true => exact (orElse_some _ _ R h).symm
    rcases hcases with h0 | h1
    · exact ⟨[], rest, rfl, by simp, h0⟩
    · cases rest with
      | nil => exact absurd h1 (by simp [Re.m])
      | cons c r =>
        rw [m_cls_cons] at h1
        by_cases hc : p.test c = true
        · rw [if_pos hc] at h1
          simp only [List.length_cons, Nat.lt_succ_self, if_true] at h1
          obtain ⟨x, y, hr, hx, hk⟩ := ih (c :: pre) r caps h1
          refine ⟨c :: x, y, by simp [hr], ?_, by simpa using hk⟩
          intro a ha
          rcases List.mem_cons.1 ha with rfl | ha
          · exact hc
          · exact hx a ha
        · rw [if_neg hc] at h1
          exact absurd h1 (by simp)

/-- The common head `^(hs|h):\/\/` of the alias patterns fails on an input that
begins with neither `h://` nor `hs://`. -/
theorem m_scheme_none (K : List Re) (s : List Char) (k : St → Option St)
    (h1 : ¬ "h://".toList <+: s) (h2 : ¬ "hs://".toList <+: s) :
    (Re.cat (.bol :: .group 1 (.alt (.str "hs".toList) (.str "h".toList)) ::
        .str "://".toList :: K)).m ⟨[], s, []⟩ k = none := by
  have e1 : "h://".toList = ['h', ':', '/', '/'] := rfl
  have e2 : "hs://".toList = ['h', 's', ':', '/', '/'] := rfl
  rw [e1] at h1
  rw [e2] at h2
  rcases s with _ | ⟨c1, _ | ⟨c2, _ | ⟨c3, _ | ⟨c4, _ | ⟨c5, r⟩⟩⟩⟩⟩ <;>
    simp [m_cat_cons, Re.m, Re.str, List.cons_prefix_cons] at h1 h2 ⊢
  · rintro rfl rfl rfl rfl
    exact (h1 rfl rfl rfl rfl).elim
  · constructor
    · rintro rfl rfl rfl rfl rfl
      exact (h2 rfl rfl rfl rfl rfl).elim
    · rintro rfl rfl rfl rfl
      exact (h1 rfl rfl rfl rfl).elim

/-- A match of the common head `^(hs|h):\/\/` fixes the scheme and the first
characters of the input. -/
theorem m_scheme_inv (K : List Re) (s : List Char) (k : St → Option St) (R : St)
    (h : (Re.cat (.bol :: .group 1 (.alt (.str "hs".toList) (.str "h".toList)) ::
        .str "://".toList :: K)).m ⟨[], s, []⟩ k = some R) :
    (∃ r, s = "h://".toList ++ r ∧
      (Re.cat K).m ⟨"//:h".toList, r, [(1, "h".toList)]⟩ k = some R) ∨
    (∃ r, s = "hs://".toList ++ r ∧
      (Re.cat K).m ⟨"//:sh".toList, r, [(1, "hs".toList)]⟩ k = some R) := by
  by_cases h1 : "h://".toList <+: s
  · obtain ⟨r, rfl⟩ := h1
    left
    refine ⟨r, rfl, ?_⟩
    rw [← h]
    exact (m_scheme_h K r k).symm
  · by_cases h2 : "hs://".toList <+: s
    · obtain ⟨r, rfl⟩ := h2
      right
      refine ⟨r, rfl, ?_⟩
      rw [← h]
      exact (m_scheme_hs K r k).symm
    · rw [m_scheme_none K s k h1 h2] at h
      exact absurd h (by simp)

/-- A match of `(x+)K` with a class `x`: a non-empty run of the class, then
`K`. -/
theorem m_plus_group_inv (i : Nat) (p : Cls) (g : Bool) (K : Re) (pre rest : List Char)
    (caps : List (Nat × List Char)) (k : St → Option St) (R : St)
    (h : (Re.seq (.group i (.plus g (.cls p))) K).m ⟨pre, rest, caps⟩ k = some R) :
    ∃ c x y, rest = c :: (x ++ y) ∧ (∀ a ∈ c :: x, p.test a = true) ∧
      ∃ caps1, K.m ⟨x.reverse ++ c :: pre, y, caps1⟩ k = some R := by
  cases rest with
  | nil => exact absurd h (by simp [Re.m, Re.plus])
  | cons c r =>
    have h1 : (Re.cls p).m ⟨pre, c :: r, caps⟩ (fun t =>
        starK (Re.cls p).m g t.rest.length t (fun u =>
          K.m ⟨u.pre, u.rest, (i, (c :: r).take ((c :: r).length - u.rest.length)) :: u.caps⟩ k)) =
        some R := h
    rw [m_cls_cons] at h1
    by_cases hc : p.test c = true
    · rw [if_pos hc] at h1
      obtain ⟨x, y, hr, hx, hk⟩ := starK_inv p g _ R _ _ _ _ h1
      refine ⟨c, x, y, by rw [hr], ?_, _, hk⟩
      intro a ha
      rcases List.mem_cons.1 ha with rfl | ha
      · exact hc
      · exact hx a ha
    · rw [if_neg hc] at h1
      exact absurd h1 (by simp)

/-- A match of `x*K` with a class `x`: a run of the class, then `K`. -/
theorem m_star_seq_inv (p : Cls) (g : Bool) (K : Re) (pre rest : List Char)
    (caps : List (Nat × List Char)) (k : St → Option St) (R : St)
    (h : (Re.seq (.star g (.cls p)) K).m ⟨pre, rest, caps⟩ k = some R) :
    ∃ x y, rest = x ++ y ∧ (∀ a ∈ x, p.test a = true) ∧
      K.m ⟨x.reverse ++ pre, y, caps⟩ k = some R :=
  starK_inv p g _ R _ _ _ _ h

/-- A match of a pattern that begins with a literal character. -/
theorem m_chr_inv (a : Char) (K : List Re) (pre rest : List Char)
    (caps : List (Nat × List Char)) (k : St → Option St) (R : St)
    (h : (Re.cat (.chr a :: K)).m ⟨pre, rest, caps⟩ k = some R) :
    ∃ r, rest = a :: r ∧ (Re.cat K).m ⟨a :: pre, r, caps⟩ k = some R := by
  cases rest with
  | nil => exact absurd h (by simp [Re.m, Re.cat])
  | cons c r =>
    rw [m_cat_cons, m_chr_cons] at h
    by_cases hc : c = a
    · rw [if_pos hc] at h
      exact ⟨r, by rw [hc], by rw [← hc]; exact h⟩
    · rw [if_neg hc] at h
      exact absurd h (by simp)


/-- The shape of an input the complex pattern matches: a scheme, a non-empty
word token, white space, an opening parenthesis. -/
theorem complexRe_shape (s : List Char) (R : St) (h : execAt complexRe [] s = some R) :
    ∃ S T W z, (S = "h://".toList ∨ S = "hs://".toList) ∧ s = S ++ (T ++ (W ++ '(' :: z)) ∧
      T ≠ [] ∧ (∀ a ∈ T, isWord a = true) ∧ (∀ a ∈ W, isSpace a = true) := by
  have key : ∀ pre r caps, (Re.cat [.group 2 (.plus true (.cls .word)),
      .star true (.cls .space), .chr '(',
      .group 3 (.star false (.cls .dot)), .str ")/(".toList,
      .group 4 (.star false (.cls .dot)), .chr ')', .eol]).m ⟨pre, r, caps⟩ some = some R →
      ∃ T W z, r = T ++ (W ++ '(' :: z) ∧ T ≠ [] ∧ (∀ a ∈ T, isWord a = true) ∧
        (∀ a ∈ W, isSpace a = true) := by
    intro pre r caps hm
    obtain ⟨c, x, y, hr, hx, caps1, hk⟩ := m_plus_group_inv 2 Cls.word true _ pre r caps some R hm
    obtain ⟨w, y1, hy, hw, hk1⟩ := m_star_seq_inv Cls.space true _ _ y caps1 some R hk
    obtain ⟨z, hz, -⟩ := m_chr_inv '(' _ _ y1 caps1 some R hk1
    exact ⟨c :: x, w, z, by simp [hr, hy, hz], by simp, hx, hw⟩
  rcases m_scheme_inv _ s some R h with ⟨r, hs, hm⟩ | ⟨r, hs, hm⟩
  · obtain ⟨T, W, z, hr, h1, h2, h3⟩ := key _ r _ hm
    exact ⟨_, T, W, z, Or.inl rfl, by rw [hs, hr], h1, h2, h3⟩
  · obtain ⟨T, W, z, hr, h1, h2, h3⟩ := key _ r _ hm
    exact ⟨_, T, W, z, Or.inr rfl, by rw [hs, hr], h1, h2, h3⟩

/-- The shape of an input the short alias pattern matches: a scheme, a non-empty
word token, a slash. -/
theorem aliasRe_shape (s : List Char) (R : St) (h : execAt aliasRe [] s = some R) :
    ∃ S T z, (S = "h://".toList ∨ S = "hs://".toList) ∧ s = S ++ (T ++ '/' :: z) ∧
      T ≠ [] ∧ (∀ a ∈ T, isWord a = true) := by
  have key : ∀ pre r caps, (Re.cat [.group 2 (.plus true (.cls .word)), .str "/(".toList,
      .group 3 (.star false (.cls .dot)), .chr ')', .eol]).m ⟨pre, r, caps⟩ some = some R →
      ∃ T z, r = T ++ '/' :: z ∧ T ≠ [] ∧ (∀ a ∈ T, isWord a = true) := by
    intro pre r caps hm
    obtain ⟨c, x, y, hr, hx, caps1, hk⟩ := m_plus_group_inv 2 Cls.word true _ pre r caps some R hm
    have hy : "/(".toList <+: y := by
      by_contra hno
      rw [m_cat_cons, m_str_none _ _ _ _ _ hno] at hk
      exact absurd hk (by simp)
    obtain ⟨z, rfl⟩ := hy
    exact ⟨c :: x, '(' :: z, by simp [hr], by simp, hx⟩
  rcases m_scheme_inv _ s some R h with ⟨r, hs, hm⟩ | ⟨r, hs, hm⟩
  · obtain ⟨T, z, hr, h1, h2⟩ := key _ r _ hm
    exact ⟨_, T, z, Or.inl rfl, by rw [hs, hr], h1, h2⟩
  · obtain ⟨T, z, hr, h1, h2⟩ := key _ r _ hm
    exact ⟨_, T, z, Or.inr rfl, by rw [hs, hr], h1, h2⟩

/-- A run of word characters followed by something else is determined by the
string. -/
theorem word_run_unique (T T1 X Y : List Char) (hT : ∀ a ∈ T, isWord a = true)
    (hT1 : ∀ a ∈ T1, isWord a = true) (hX : wordSide X = false) (hY : wordSide Y = false)
    (h : T ++ X = T1 ++ Y) : T = T1 ∧ X = Y := by
  induction T generalizing T1 with
  | nil =>
    cases T1 with
    | nil => exact ⟨rfl, h⟩
    | cons c t =>
      exfalso
      simp only [List.nil_append, List.cons_append] at h
      rw [h, wordSide, hT1 c (List.mem_cons_self _ _)] at hX
      exact absurd hX (by decide)
  | cons c t ih =>
    cases T1 with
    | nil =>
      exfalso
      simp only [List.nil_append, List.cons_append] at h
      rw [← h, wordSide, hT c (List.mem_cons_self _ _)] at hY
      exact absurd hY (by decide)
    | cons c1 t1 =>
      simp only [List.cons_append, List.cons.injEq] at h
      obtain ⟨e1, e2⟩ := ih t1 (fun a ha => hT a (List.mem_cons_of_mem _ ha))
        (fun a ha => hT1 a (List.mem_cons_of_mem _ ha)) h.2
      exact ⟨by rw [h.1, e1], e2⟩

theorem matchRe_complexRe (s : List Char) :
    matchRe complexRe s = (execAt complexRe [] s).map (fun e => mkMatch ⟨[], s, []⟩ e) := by
  rw [matchRe, complexRe, search_bol]
  cases execAt (Re.cat _) [] s <;> rfl

theorem matchRe_aliasRe (s : List Char) :
    matchRe aliasRe s = (execAt aliasRe [] s).map (fun e => mkMatch ⟨[], s, []⟩ e) := by
  rw [matchRe, aliasRe, search_bol]
  cases execAt (Re.cat _) [] s <;> rfl

/-- No string matches both alias patterns. -/
theorem complexRe_aliasRe_exclusive (s : List Char) (R1 R2 : St)
    (h1 : execAt complexRe [] s = some R1) (h2 : execAt aliasRe [] s = some R2) : False := by
  obtain ⟨S, T, W, z, hS, hs, -, hT, hW⟩ := complexRe_shape s R1 h1
  obtain ⟨S1, T1, z1, hS1, hs1, -, hT1⟩ := aliasRe_shape s R2 h2
  have hX : wordSide (W ++ '(' :: z) = false := by
    cases W with
    | nil => rfl
    | cons b w => exact isSpace_not_isWord b (hW b (List.mem_cons_self _ _))
  have hrest : T ++ (W ++ '(' :: z) = T1 ++ '/' :: z1 := by
    rw [hs] at hs1
    rcases hS with rfl | rfl <;> rcases hS1 with rfl | rfl
    · exact List.append_cancel_left hs1
    · simp at hs1
    · simp at hs1
    · exact List.append_cancel_left hs1
  obtain ⟨-, e⟩ := word_run_unique T T1 _ ('/' :: z1) hT hT1 hX rfl hrest
  cases W with
  | nil =>
    simp only [List.nil_append, List.cons.injEq] at e
    exact absurd e.1 (by decide)
  | cons b w =>
    simp only [List.cons_append, List.cons.injEq] at e
    have := hW b (List.mem_cons_self _ _)
    rw [e.1] at this
    exact absurd this (by decide)


/-! ## C15 -/

/-- C15 (the alias rules are mutually exclusive).  No string matches both the
complex alias pattern and the short alias pattern; hence trying rule 2 before
rule 1 gives the same result as `normalizeURL` on every input. -/
theorem C15_rules_exclusive :
    (∀ s : List Char, ¬ ((matchRe complexRe s).isSome = true ∧
      (matchRe aliasRe s).isSome = true)) ∧
    ∀ s : List Char, normalizeURLAliasFirst s = normalizeURL s := by
  have excl : ∀ s : List Char, matchRe complexRe s = none ∨ matchRe aliasRe s = none := by
    intro s
    rw [matchRe_complexRe, matchRe_aliasRe]
    cases h1 : execAt complexRe [] s with
    | none => exact Or.inl rfl
    | some R1 =>
      cases h2 : execAt aliasRe [] s with
      | none => exact Or.inr rfl
      | some R2 => exact (complexRe_aliasRe_exclusive s R1 R2 h1 h2).elim
  refine ⟨fun s h => ?_, fun s => ?_⟩
  · rcases excl s with e | e
    · rw [e] at h
      exact absurd h.1 (by decide)
    · rw [e] at h
      exact absurd h.2 (by decide)
  · rcases excl (trim s) with e | e
    · simp only [normalizeURLAliasFirst, normalizeURL, e]
    · simp only [normalizeURLAliasFirst, normalizeURL, e]

/-! ## The scheme of the result -/

theorem specReplaceTld_dotless (l n x y : List Char) (hx : '.' ∉ x) :
    specReplaceTld l n (x ++ y) 0 = x ++ specReplaceTld l n y 0 := by
  induction x with
  | nil => rfl
  | cons c x ih =>
    have hc : c ≠ '.' := fun e => hx (by simp [e])
    rw [List.cons_append, specReplaceTld_miss l n _ c (tldAt_of_ne l _ c hc),
      ih (fun e => hx (List.mem_cons_of_mem _ e))]
    rfl

/-- The fallback stage keeps a beginning that holds no dot and is neither
`h://` nor `hs://`, and applies the TLD substitutions to the rest. -/
theorem specFallback_keeps (x y : List Char) (hx : '.' ∉ x)
    (h1 : "h://".toList.isPrefixOf (x ++ y) = false)
    (h2 : "hs://".toList.isPrefixOf (x ++ y) = false) :
    specFallback (x ++ y) = x ++ specReplaceTld "mcd".toList "me".toList
      (specReplaceTld "dic".toList "id".toList
        (specReplaceTld "cv".toList "com".toList y 0) 0) 0 := by
  rw [specFallback, specExpandH, h1]
  simp only [Bool.false_eq_true, if_false]
  rw [specExpandHs, h2]
  simp only [Bool.false_eq_true, if_false]
  rw [specReplaceTld_dotless _ _ x y hx, specReplaceTld_dotless _ _ x _ hx,
    specReplaceTld_dotless _ _ x _ hx]

/-- The fallback stage expands a scheme shorthand at the beginning. -/
theorem specFallback_scheme (u : List Char)
    (h : "h://".toList <+: u ∨ "hs://".toList <+: u) :
    "http://".toList <+: specFallback u ∨ "https://".toList <+: specFallback u := by
  rcases h with ⟨r, rfl⟩ | ⟨r, rfl⟩
  · left
    have e1 : specExpandH ("h://".toList ++ r) = "http://".toList ++ r := by
      simp [specExpandH]
    have e2 : specExpandHs ("http://".toList ++ r) = "http://".toList ++ r := by
      simp [specExpandHs]
    rw [specFallback, e1, e2, specReplaceTld_dotless _ _ _ r (by decide),
      specReplaceTld_dotless _ _ _ _ (by decide), specReplaceTld_dotless _ _ _ _ (by decide)]
    exact List.prefix_append _ _
  · right
    have e1 : specExpandH ("hs://".toList ++ r) = "hs://".toList ++ r := by
      simp [specExpandH]
    have e2 : specExpandHs ("hs://".toList ++ r) = "https://".toList ++ r := by
      simp [specExpandHs]
    rw [specFallback, e1, e2, specReplaceTld_dotless _ _ _ r (by decide),
      specReplaceTld_dotless _ _ _ _ (by decide), specReplaceTld_dotless _ _ _ _ (by decide)]
    exact List.prefix_append _ _

/-- An input that one of the alias patterns matches begins with `h://` or
`hs://`. -/
theorem matchRe_alias_scheme (s : List Char)
    (h : (matchRe complexRe s).isSome = true ∨ (matchRe aliasRe s).isSome = true) :
    "h://".toList <+: s ∨ "hs://".toList <+: s := by
  rcases h with h | h
  · rw [matchRe_complexRe] at h
    cases he : execAt complexRe [] s with
    | none => rw [he] at h; exact absurd h (by simp)
    | some R =>
      obtain ⟨S, T, W, z, hS, hs, -⟩ := complexRe_shape s R he
      rcases hS with rfl | rfl
      · exact Or.inl ⟨_, hs.symm⟩
      · exact Or.inr ⟨_, hs.symm⟩
  · rw [matchRe_aliasRe] at h
    cases he : execAt aliasRe [] s with
    | none => rw [he] at h; exact absurd h (by simp)
    | some R =>
      obtain ⟨S, T, z, hS, hs, -⟩ := aliasRe_shape s R he
      rcases hS with rfl | rfl
      · exact Or.inl ⟨_, hs.symm⟩
      · exact Or.inr ⟨_, hs.symm⟩

theorem schemeOf_scheme (m : MatchResult) (x : List Char) :
    "http://".toList <+: schemeOf m ++ "://".toList ++ x ∨
    "https://".toList <+: schemeOf m ++ "://".toList ++ x := by
  rw [schemeOf]
  split
  · exact Or.inr ⟨x, by simp⟩
  · exact Or.inl ⟨x, by simp⟩

/-! ## C12 -/

/-- C12 (scheme guarantee).  When the trimmed input matches the complex alias
pattern, or matches the short alias pattern with an alias that is a key of the
alias table, or begins with `h://` or `hs://`, the result of `normalizeURL`
begins with `http://` or `https://`. -/
theorem C12_scheme_guarantee (s : List Char)
    (h : (matchRe complexRe (trim s)).isSome = true ∨
      (∃ am, matchRe aliasRe (trim s) = some am ∧ capStr am 2 ∈ aliasMap.map Prod.fst) ∨
      "h://".toList <+: trim s ∨ "hs://".toList <+: trim s) :
    "http://".toList <+: normalizeURL s ∨ "https://".toList <+: normalizeURL s := by
  have hpre : "h://".toList <+: trim s ∨ "hs://".toList <+: trim s := by
    rcases h with h | ⟨am, h, -⟩ | h | h
    · exact matchRe_alias_scheme _ (Or.inl h)
    · exact matchRe_alias_scheme _ (Or.inr (by rw [h]; rfl))
    · exact Or.inl h
    · exact Or.inr h
  have hne : s.isEmpty = false := by
    cases hs : s.isEmpty with
    | false => rfl
    | true =>
      have : s = [] := List.isEmpty_iff.1 hs
      subst this
      rcases hpre with ⟨r, hr⟩ | ⟨r, hr⟩ <;> exact absurd hr (by simp [trim])
  rw [normalizeURL, hne]
  simp only [Bool.false_eq_true, if_false]
  cases matchRe complexRe (trim s) with
  | some cm =>
    have := schemeOf_scheme cm (capStr cm 3 ++ "/".toList ++ capStr cm 4)
    simpa [List.append_assoc] using this
  | none =>
    cases matchRe aliasRe (trim s) with
    | some am =>
      simp only
      split
      · have := schemeOf_scheme am
          ((aliasMapGet (capStr am 2)).toStr ++ "/".toList ++ capStr am 3)
        simpa [List.append_assoc] using this
      · rw [fallback_eq_spec]
        exact specFallback_scheme _ hpre
    | none =>
      simp only
      rw [fallback_eq_spec]
      exact specFallback_scheme _ hpre

/-- Witness of C12: `"  hs://zz/(a.cv) "` begins, once trimmed, with `hs://`
and becomes `"https://zz/(a.com)"`. -/
theorem C12_scheme_guarantee_witness :
    normalizeURL "  hs://zz/(a.cv) ".toList = "https://zz/(a.com)".toList ∧
    ("http://".toList <+: normalizeURL "  hs://zz/(a.cv) ".toList ∨
      "https://".toList <+: normalizeURL "  hs://zz/(a.cv) ".toList) :=
  ⟨by decide, C12_scheme_guarantee "  hs://zz/(a.cv) ".toList
    (Or.inr (Or.inr (Or.inr (by decide))))⟩

/-! ## C13 -/

/-- C13 as stated fails on an absolute URL that holds a TLD shorthand:
`"http://a.cv"` has no white space around it, begins with `http://` and matches
neither alias pattern, and the fallback stage turns it into `"http://a.com"`. -/
theorem C13_tld_counterexample :
    "http://".toList <+: "http://a.cv".toList ∧
    trim "http://a.cv".toList = "http://a.cv".toList ∧
    matchRe complexRe "http://a.cv".toList = none ∧
    matchRe aliasRe "http://a.cv".toList = none ∧
    normalizeURL "http://a.cv".toList = "http://a.com".toList ∧
    normalizeURL "http://a.cv".toList ≠ "http://a.cv".toList := by
  decide

/-- C13, amended (absolute URL).  For every string `s` that begins with
`http://` or `https://` and has no white space at either end, neither alias
pattern matches and `normalizeURL(s)` is `s` with only the TLD shorthand substitutions
applied (`.cv`, `.dic`, `.mcd` at a word boundary to `.com`, `.id`, `.me`); it
is `s` itself when `s` holds none of these shorthands. -/
theorem C13_absolute_url (s : List Char)
    (hpre : "http://".toList <+: s ∨ "https://".toList <+: s)
    (htrim : trim s = s) :
    matchRe complexRe s = none ∧ matchRe aliasRe s = none ∧
    normalizeURL s = specReplaceTld "mcd".toList "me".toList
      (specReplaceTld "dic".toList "id".toList
        (specReplaceTld "cv".toList "com".toList s 0) 0) 0 ∧
    ((∀ l ∈ ["cv".toList, "dic".toList, "mcd".toList], ¬ TldOcc l s) →
      normalizeURL s = s) := by
  have hh : "h://".toList.isPrefixOf s = false ∧ "hs://".toList.isPrefixOf s = false ∧
      s.isEmpty = false := by
    rcases hpre with ⟨r, rfl⟩ | ⟨r, rfl⟩
    · exact ⟨rfl, rfl, rfl⟩
    · exact ⟨rfl, rfl, rfl⟩
  obtain ⟨h1, h2, hne⟩ := hh
  have hno : ¬ ("h://".toList <+: s ∨ "hs://".toList <+: s) := by
    rintro (h | h)
    · rw [List.isPrefixOf_iff_prefix.2 h] at h1
      exact absurd h1 (by decide)
    · rw [List.isPrefixOf_iff_prefix.2 h] at h2
      exact absurd h2 (by decide)
  have hc : matchRe complexRe s = none := by
    cases e : matchRe complexRe s with
    | none => rfl
    | some m => exact (hno (matchRe_alias_scheme s (Or.inl (by rw [e]; rfl)))).elim
  have ha : matchRe aliasRe s = none := by
    cases e : matchRe aliasRe s with
    | none => rfl
    | some m => exact (hno (matchRe_alias_scheme s (Or.inr (by rw [e]; rfl)))).elim
  have key : normalizeURL s = specReplaceTld "mcd".toList "me".toList
      (specReplaceTld "dic".toList "id".toList
        (specReplaceTld "cv".toList "com".toList s 0) 0) 0 := by
    rw [normalizeURL_of_reachesFallback s (by simp [reachesFallback, hne, htrim, hc, ha]),
      htrim, fallback_eq_spec]
    exact specFallback_keeps [] s (by simp) h1 h2
  refine ⟨hc, ha, key, fun hocc => ?_⟩
  rw [key, specReplaceTld_id _ _ _ (hocc _ (by simp)), specReplaceTld_id _ _ _ (hocc _ (by simp)),
    specReplaceTld_id _ _ _ (hocc _ (by simp))]

/-- Witness of C13, amended: `"https://a.cv/x.dic"` becomes
`"https://a.com/x.id"`. -/
theorem C13_absolute_url_witness :
    normalizeURL "https://a.cv/x.dic".toList = "https://a.com/x.id".toList :=
  (C13_absolute_url "https://a.cv/x.dic".toList (Or.inr (by decide)) (by decide)).2.2.1.trans
    (by decide)

/-! ## The fallback result under a second normalisation -/

theorem specReplaceTld_eq_nil (l n s : List Char) (h : specReplaceTld l n s 0 = []) : s = [] := by
  cases s with
  | nil => rfl
  | cons c r =>
    exfalso
    rw [specReplaceTld] at h
    split at h <;> simp at h

/-- The replacement leaves unchanged whether letters without a dot begin the
string. -/
theorem isPrefixOf_specReplaceTld (l n l1 : List Char) (h1 : '.' ∉ l1) (r : List Char) :
    l1.isPrefixOf (specReplaceTld l n r 0) = l1.isPrefixOf r := by
  induction l1 generalizing r with
  | nil => simp [List.isPrefixOf]
  | cons a l2 ih =>
    have ha : a ≠ '.' := fun e => h1 (by simp [e])
    have h2 : '.' ∉ l2 := fun e => h1 (List.mem_cons_of_mem _ e)
    cases r with
    | nil => rfl
    | cons c r1 =>
      cases h : tldAt l (c :: r1) with
      | false =>
        rw [specReplaceTld_miss l n r1 c h]
        simp only [List.isPrefixOf, ih h2]
      | true =>
        obtain ⟨b, hcr, hb⟩ := (tldAt_iff _ _).1 h
        rw [hcr, specReplaceTld_hit l n b hb]
        have : (a == '.') = false := by simpa using ha
        simp [List.isPrefixOf, this]

/-- The first character of the replacement is the first character of the
string. -/
theorem head_specReplaceTld (l n s : List Char) (c : Char) (r : List Char)
    (h : specReplaceTld l n s 0 = c :: r) : ∃ r1, s = c :: r1 := by
  cases s with
  | nil => simp [specReplaceTld] at h
  | cons a s1 =>
    cases ht : tldAt l (a :: s1) with
    | false =>
      rw [specReplaceTld_miss l n s1 a ht] at h
      simp only [List.cons.injEq] at h
      exact ⟨s1, by rw [h.1]⟩
    | true =>
      obtain ⟨b, hcr, hb⟩ := (tldAt_iff _ _).1 ht
      rw [hcr, specReplaceTld_hit l n b hb] at h
      simp only [List.cons.injEq] at h
      exact ⟨l ++ b, by rw [hcr, h.1]⟩

/-- A string that does not end with white space, followed after characters that
are not white space, does not end with white space. -/
theorem ends_append (x z : List Char) (hx : ∀ c ∈ x, isSpace c = false)
    (hz : ∀ a c, z = a ++ [c] → isSpace c = false) :
    ∀ a c, x ++ z = a ++ [c] → isSpace c = false := by
  intro a c h
  rcases List.eq_nil_or_concat z with rfl | ⟨z1, c1, rfl⟩
  · rw [List.append_nil] at h
    exact hx c (by simp [h])
  · rw [List.concat_eq_append] at h hz
    rw [← List.append_assoc] at h
    have := List.append_inj' h rfl
    simp only [List.cons.injEq, and_true] at this
    exact hz z1 c (by rw [this.2])

/-- The replacement of a string that does not end with white space does not end
with white space. -/
theorem ends_specReplaceTld (l n : List Char) (hn : ∀ c ∈ n, isSpace c = false) (k : Nat) :
    ∀ s : List Char, s.length ≤ k → (∀ a c, s = a ++ [c] → isSpace c = false) →
      ∀ a c, specReplaceTld l n s 0 = a ++ [c] → isSpace c = false := by
  induction k with
  | zero =>
    intro s hs _ a c h
    have : s = [] := List.length_eq_zero.1 (Nat.le_zero.1 hs)
    subst this
    simp [specReplaceTld] at h
  | succ k ih =>
    intro s hs hends a c h
    cases s with
    | nil => simp [specReplaceTld] at h
    | cons c0 r =>
      have hr : ∀ a c, r = a ++ [c] → isSpace c = false := fun a1 c1 e =>
        hends (c0 :: a1) c1 (by simp [e])
      cases ht : tldAt l (c0 :: r) with
      | false =>
        rw [specReplaceTld_miss l n r c0 ht] at h
        cases a with
        | nil =>
          simp only [List.nil_append, List.cons.injEq] at h
          have hr0 : r = [] := specReplaceTld_eq_nil l n r h.2
          exact hends [] c (by rw [hr0, h.1]; rfl)
        | cons a0 a1 =>
          simp only [List.cons_append, List.cons.injEq] at h
          exact ih r (by simpa using hs) hr a1 c h.2
      | true =>
        obtain ⟨b, hcr, hb⟩ := (tldAt_iff _ _).1 ht
        rw [hcr, specReplaceTld_hit l n b hb] at h
        have hb1 : ∀ a c, b = a ++ [c] → isSpace c = false := fun a1 c1 e =>
          hends ('.' :: (l ++ a1)) c1 (by rw [hcr, e]; simp)
        have hlen : b.length ≤ k := by
          have := congrArg List.length hcr
          simp only [List.length_cons, List.length_append] at this hs
          omega
        have hdot : ∀ c ∈ '.' :: n, isSpace c = false := by
          intro x hx
          rcases List.mem_cons.1 hx with rfl | hx
          · rfl
          · exact hn x hx
        exact ends_append ('.' :: n) _ hdot (ih b hlen hb1) a c (by simpa using h)


/-- The result of the fallback stage on a trimmed string is a fixed point of
`normalizeURL`: it has no white space at either end, begins with neither `h://`
nor `hs://`, so that no alias pattern matches it, and holds no TLD shorthand. -/
theorem normalizeURL_specFallback (u : List Char)
    (hu1 : ∀ c r, u = c :: r → isSpace c = false)
    (hu2 : ∀ a c, u = a ++ [c] → isSpace c = false) :
    normalizeURL (specFallback u) = specFallback u := by
  have chain_ends : ∀ y : List Char, (∀ a c, y = a ++ [c] → isSpace c = false) →
      ∀ a c, specReplaceTld "mcd".toList "me".toList
        (specReplaceTld "dic".toList "id".toList
          (specReplaceTld "cv".toList "com".toList y 0) 0) 0 = a ++ [c] → isSpace c = false := by
    intro y hy
    exact ends_specReplaceTld _ _ (by decide) _ _ (Nat.le_refl _)
      (ends_specReplaceTld _ _ (by decide) _ _ (Nat.le_refl _)
        (ends_specReplaceTld _ _ (by decide) _ _ (Nat.le_refl _) hy))
  have facts : "h://".toList.isPrefixOf (specFallback u) = false ∧
      "hs://".toList.isPrefixOf (specFallback u) = false ∧
      (∀ c r, specFallback u = c :: r → isSpace c = false) ∧
      (∀ a c, specFallback u = a ++ [c] → isSpace c = false) := by
    by_cases p1 : "h://".toList <+: u
    · obtain ⟨y, rfl⟩ := p1
      have e1 : specExpandH ("h://".toList ++ y) = "http://".toList ++ y := by
        simp [specExpandH]
      have e2 : specExpandHs ("http://".toList ++ y) = "http://".toList ++ y := by
        simp [specExpandHs]
      have e : specFallback ("h://".toList ++ y) = "http://".toList ++
          specReplaceTld "mcd".toList "me".toList
            (specReplaceTld "dic".toList "id".toList
              (specReplaceTld "cv".toList "com".toList y 0) 0) 0 := by
        rw [specFallback, e1, e2, specReplaceTld_dotless _ _ _ y (by decide),
          specReplaceTld_dotless _ _ _ _ (by decide), specReplaceTld_dotless _ _ _ _ (by decide)]
      rw [e]
      refine ⟨rfl, rfl, ?_, ?_⟩
      · intro c r h
        simp only [String.toList, List.cons_append, List.cons.injEq] at h
        rw [← h.1]
        rfl
      · exact ends_append _ _ (by decide)
          (chain_ends y (fun a c hy => hu2 ("h://".toList ++ a) c (by simp [hy])))
    · by_cases p2 : "hs://".toList <+: u
      · obtain ⟨y, rfl⟩ := p2
        have e1 : specExpandH ("hs://".toList ++ y) = "hs://".toList ++ y := by
          simp [specExpandH]
        have e2 : specExpandHs ("hs://".toList ++ y) = "https://".toList ++ y := by
          simp [specExpandHs]
        have e : specFallback ("hs://".toList ++ y) = "https://".toList ++
            specReplaceTld "mcd".toList "me".toList
              (specReplaceTld "dic".toList "id".toList
                (specReplaceTld "cv".toList "com".toList y 0) 0) 0 := by
          rw [specFallback, e1, e2, specReplaceTld_dotless _ _ _ y (by decide),
            specReplaceTld_dotless _ _ _ _ (by decide),
            specReplaceTld_dotless _ _ _ _ (by decide)]
        rw [e]
        refine ⟨rfl, rfl, ?_, ?_⟩
        · intro c r h
          simp only [String.toList, List.cons_append, List.cons.injEq] at h
          rw [← h.1]
          rfl
        · exact ends_append _ _ (by decide)
            (chain_ends y (fun a c hy => hu2 ("hs://".toList ++ a) c (by simp [hy])))
      · have q1 : "h://".toList.isPrefixOf u = false := by
          cases h : "h://".toList.isPrefixOf u
          · rfl
          · exact (p1 (List.isPrefixOf_iff_prefix.1 h)).elim
        have q2 : "hs://".toList.isPrefixOf u = false := by
          cases h : "hs://".toList.isPrefixOf u
          · rfl
          · exact (p2 (List.isPrefixOf_iff_prefix.1 h)).elim
        have e := specFallback_keeps [] u (by simp) q1 q2
        simp only [List.nil_append] at e
        rw [e]
        refine ⟨?_, ?_, ?_, chain_ends u hu2⟩
        · rw [isPrefixOf_specReplaceTld _ _ _ (by decide), isPrefixOf_specReplaceTld _ _ _ (by decide),
            isPrefixOf_specReplaceTld _ _ _ (by decide), q1]
        · rw [isPrefixOf_specReplaceTld _ _ _ (by decide), isPrefixOf_specReplaceTld _ _ _ (by decide),
            isPrefixOf_specReplaceTld _ _ _ (by decide), q2]
        · intro c r h
          obtain ⟨r1, h1⟩ := head_specReplaceTld _ _ _ c r h
          obtain ⟨r2, h2⟩ := head_specReplaceTld _ _ _ c r1 h1
          obtain ⟨r3, h3⟩ := head_specReplaceTld _ _ _ c r2 h2
          exact hu1 c r3 h3
  obtain ⟨f1, f2, f3, f4⟩ := facts
  cases hne : (specFallback u).isEmpty with
  | true => rw [normalizeURL, hne]; rfl
  | false =>
    have htrim : trim (specFallback u) = specFallback u := by
      apply trim_eq_self _ f3
      intro c r h
      exact f4 r.reverse c (by
        have := congrArg List.reverse h
        simpa using this)
    have hno : ¬ ("h://".toList <+: specFallback u ∨ "hs://".toList <+: specFallback u) := by
      rintro (h | h)
      · rw [List.isPrefixOf_iff_prefix.2 h] at f1
        exact absurd f1 (by decide)
      · rw [List.isPrefixOf_iff_prefix.2 h] at f2
        exact absurd f2 (by decide)
    have hc : matchRe complexRe (specFallback u) = none := by
      cases e : matchRe complexRe (specFallback u) with
      | none => rfl
      | some m => exact (hno (matchRe_alias_scheme _ (Or.inl (by rw [e]; rfl)))).elim
    have ha : matchRe aliasRe (specFallback u) = none := by
      cases e : matchRe aliasRe (specFallback u) with
      | none => rfl
      | some m => exact (hno (matchRe_alias_scheme _ (Or.inr (by rw [e]; rfl)))).elim
    rw [normalizeURL_of_reachesFallback _ (by simp [reachesFallback, hne, htrim, hc, ha]),
      htrim, fallback_eq_spec]
    apply specFallback_id
    refine ⟨fun h => hno (Or.inl h), fun h => hno (Or.inr h), ?_, ?_, ?_⟩
    · exact tldOcc_specFallback _ u (by simp)
    · exact tldOcc_specFallback _ u (by simp)
    · exact tldOcc_specFallback _ u (by simp)

/-! ## C19 -/

/-- C19 as stated fails on a result of rule 1: `"h://x(a.cv)/(b)"` becomes
`"http://a.cv/b"`, whose TLD shorthand a second normalisation rewrites to
`"http://a.com/b"`; and `"h://x(d)/(a )"` becomes `"http://d/a "`, which a
second normalisation trims. -/
theorem C19_rule_result_counterexample :
    normalizeURL "h://x(a.cv)/(b)".toList = "http://a.cv/b".toList ∧
    normalizeURL (normalizeURL "h://x(a.cv)/(b)".toList) = "http://a.com/b".toList ∧
    normalizeURL (normalizeURL "h://x(a.cv)/(b)".toList) ≠
      normalizeURL "h://x(a.cv)/(b)".toList ∧
    normalizeURL "hs://pcd/(a.cv)".toList = "https://cdn.fourvo.id/a.cv".toList ∧
    normalizeURL (normalizeURL "hs://pcd/(a.cv)".toList) = "https://cdn.fourvo.id/a.com".toList ∧
    normalizeURL "h://x(d)/(a )".toList = "http://d/a ".toList ∧
    normalizeURL (normalizeURL "h://x(d)/(a )".toList) = "http://d/a".toList := by
  decide

/-- C19, amended (idempotence on the fallback path).  For every input that is
empty or reaches the fallback stage, `normalizeURL(normalizeURL(s))` is
`normalizeURL(s)`: the fallback result holds no scheme shorthand, alias form or
TLD shorthand that a second normalisation would rewrite. -/
theorem C19_idempotent_on_fallback (s : List Char)
    (h : s.isEmpty = true ∨ reachesFallback s = true) :
    normalizeURL (normalizeURL s) = normalizeURL s := by
  rcases h with h | h
  · have : s = [] := List.isEmpty_iff.1 h
    subst this
    rfl
  · rw [normalizeURL_of_reachesFallback s h, fallback_eq_spec]
    apply normalizeURL_specFallback
    · exact (trim_ends s).1
    · intro a c e
      exact (trim_ends s).2 c a.reverse (by rw [e]; simp)

/-- Witness of C19, amended: `"h://zz/(a.cv)"` reaches the fallback stage and
its result `"http://zz/(a.com)"` is unchanged by a second normalisation. -/
theorem C19_idempotent_on_fallback_witness :
    normalizeURL "h://zz/(a.cv)".toList = "http://zz/(a.com)".toList ∧
    normalizeURL (normalizeURL "h://zz/(a.cv)".toList) = normalizeURL "h://zz/(a.cv)".toList :=
  ⟨by decide, C19_idempotent_on_fallback "h://zz/(a.cv)".toList (Or.inr (by decide))⟩

/-! ## C11 -/

/-- C11 (placeholder construction failure).  For every text-node string `t`,
whatever the regex cursor and whichever constructions throw, the rewriter
returns.  The node is left in place exactly when it is empty or `test` fails,
which at cursor 0 (the cursor of every scan) is exactly when `t` holds no match
of the tag pattern; otherwise it is replaced by a fragment.  The segments of the
fragment that come from matches are, in order, the matches of the tag pattern in
`t`, all of them, so the loop continues after a construction that throws; the
fragment, with every match segment put back as `match[0]`, concatenates to `t`,
so each segment sits at the position of its match; a match whose construction
throws gives the text node of the `catch` branch holding `match[0]`; and when
construction throws for every match of `t`, the text nodes of the fragment
concatenate to `t`. -/
theorem C11_construction_failure (createImg : List Char → Bool) (t : List Char)
    (reLast : Nat) :
    ∃ r li, processTextNode createImg t reLast = some (r, li) ∧
      (r = none ↔ (t.isEmpty = true ∨ (test IMAGE_TAG_REGEX t reLast).1 = false)) ∧
      (reLast = 0 → (r = none ↔ matchAll IMAGE_TAG_REGEX t = [])) ∧
      ∀ frag, r = some frag →
        frag.filterMap Seg.origin = matchAll IMAGE_TAG_REGEX t ∧
        restore frag = t ∧
        (∀ s ∈ frag, ∀ m, s.origin = some m →
          createImg (normalizeURL (trim (capStr m 1))) = false →
          s = .raw m ∧ s.toNode = .text m.matched) ∧
        ((∀ m ∈ matchAll IMAGE_TAG_REGEX t,
            createImg (normalizeURL (trim (capStr m 1))) = false) →
          fragText frag = t) := by
  have hzero : ∀ r li, processTextNode createImg t 0 = some (r, li) →
      (r = none ↔ matchAll IMAGE_TAG_REGEX t = []) := by
    intro r li h
    rcases processTextNode_rule createImg
        (fun done rest out =>
          out.filterMap Seg.origin = matchAllFrom IMAGE_TAG_REGEX done.reverse rest 0)
        (fun done rest hnone => origins_stop done rest hnone)
        (fun done x arg r segs hall hearly hP => origins_step createImg done x arg r segs
          hall hearly hP) t with ⟨h0, e⟩ | ⟨h1, frag, e, -⟩
    · rw [e] at h
      simp only [Option.some.injEq, Prod.mk.injEq] at h
      have hm : matchAll IMAGE_TAG_REGEX t = [] := by
        have := matchAllFrom_tag_none [] t ((hasTag_false_iff t).1 h0)
        simpa [matchAll] using this
      exact ⟨fun _ => hm, fun _ => h.1.symm⟩
    · rw [e] at h
      simp only [Option.some.injEq, Prod.mk.injEq] at h
      have hm : matchAll IMAGE_TAG_REGEX t ≠ [] := by
        rw [hasTag] at h1
        rcases search_tag [] t with ⟨hs, -⟩ | ⟨x, arg, r, hx, hall, hearly, -⟩
        · rw [hs] at h1
          simp at h1
        · have hx1 : t = x ++ tagText arg ++ r := hx
          rw [hx1, matchAll]
          have := matchAllFrom_tag_first [] x arg r hall hearly
          simp only [List.reverse_nil] at this
          rw [this]
          simp
      refine ⟨fun hr => ?_, fun hmm => absurd hmm hm⟩
      rw [← h.1] at hr
      exact absurd hr (by simp)
  have htest : ∀ r li, processTextNode createImg t reLast = some (r, li) →
      (r = none ↔ (t.isEmpty = true ∨ (test IMAGE_TAG_REGEX t reLast).1 = false)) := by
    intro r li h
    rw [processTextNode] at h
    cases he : t.isEmpty with
    | true =>
      rw [he] at h
      simp only [if_true, Option.some.injEq, Prod.mk.injEq] at h
      exact ⟨fun _ => Or.inl rfl, fun _ => h.1.symm⟩
    | false =>
      rw [he] at h
      simp only [Bool.false_eq_true, if_false] at h
      cases ht : test IMAGE_TAG_REGEX t reLast with
      | mk b l1 =>
        rw [ht] at h
        cases b with
        | false =>
          simp only [Option.some.injEq, Prod.mk.injEq] at h
          exact ⟨fun _ => Or.inr rfl, fun _ => h.1.symm⟩
        | true =>
          simp only at h
          cases hl : tagLoop createImg t (t.length + 1) 0 0 [] with
          | none =>
            rw [hl] at h
            simp at h
          | some q =>
            rw [hl] at h
            simp only [Option.map_some', Option.some.injEq, Prod.mk.injEq] at h
            refine ⟨fun hr => ?_, fun hh => ?_⟩
            · rw [← h.1] at hr
              exact absurd hr (by simp)
            · rcases hh with hh | hh <;> simp at hh
  rcases processTextNode_rule_any createImg
      (fun done rest out =>
        out.filterMap Seg.origin = matchAllFrom IMAGE_TAG_REGEX done.reverse rest 0 ∧
        restore out = rest ∧
        (∀ s ∈ out, ∀ m, s.origin = some m →
          createImg (normalizeURL (trim (capStr m 1))) = false →
          s = .raw m ∧ s.toNode = .text m.matched) ∧
        ((∀ m ∈ matchAllFrom IMAGE_TAG_REGEX done.reverse rest 0,
            createImg (normalizeURL (trim (capStr m 1))) = false) →
          fragText out = rest))
      (by
        intro done rest hnone
        refine ⟨origins_stop done rest hnone, ?_, ?_, ?_⟩
        · cases rest <;> simp [restore, lit_source]
        · intro s hs m hm
          cases rest with
          | nil => simp at hs
          | cons c r =>
            simp only [List.isEmpty_cons, Bool.false_eq_true, if_false, List.mem_singleton] at hs
            rw [hs] at hm
            simp [Seg.origin] at hm
        · intro _
          cases rest <;> simp [fragText, Seg.toNode, Node.nodeValue])
      (by
        intro done x arg r segs hall hearly hP
        refine ⟨origins_step createImg done x arg r segs hall hearly hP.1, ?_, ?_, ?_⟩
        · rw [restore_append]
          cases x <;> simp [restore, lit_source, tagSeg_source, hP.2.1]
        · intro s hs m hm hfail
          rcases List.mem_append.1 hs with h1 | h1
          · cases x with
            | nil => simp at h1
            | cons c x1 =>
              simp only [List.isEmpty_cons, Bool.false_eq_true, if_false,
                List.mem_singleton] at h1
              rw [h1] at hm
              simp [Seg.origin] at hm
          · rcases List.mem_cons.1 h1 with h2 | h2
            · rw [h2, tagSeg_origin] at hm
              simp only [Option.some.injEq] at hm
              subst hm
              have hc : createImg (normalizeURL (trim arg)) = false := by
                simpa [capStr, MatchResult.cap] using hfail
              rw [h2, tagSeg, hc]
              exact ⟨rfl, rfl⟩
            · exact hP.2.2.1 s h2 m hm hfail
        · intro hfail
          rw [matchAllFrom_tag_first _ _ _ _ hall hearly] at hfail
          have hc : createImg (normalizeURL (trim arg)) = false := by
            simpa [capStr, MatchResult.cap] using hfail _ (List.mem_cons_self _ _)
          have hrec := hP.2.2.2 (fun m hm => hfail m (by
            refine List.mem_cons_of_mem _ ?_
            simpa [List.reverse_append, List.append_assoc] using hm))
          cases x with
          | nil => simp [fragText, tagSeg, hc, Seg.toNode, Node.nodeValue, hrec]
          | cons c x1 => simp [fragText, tagSeg, hc, Seg.toNode, Node.nodeValue, hrec])
      t reLast with ⟨li, h⟩ | ⟨frag, h, hP⟩
  · refine ⟨none, li, h, htest _ _ h, ?_, ?_⟩
    · intro h0
      subst h0
      exact hzero _ _ h
    · intro frag hf
      simp at hf
  · refine ⟨some frag, 0, h, htest _ _ h, ?_, ?_⟩
    · intro h0
      subst h0
      exact hzero _ _ h
    · intro frag1 hf
      simp only [Option.some.injEq] at hf
      subst hf
      exact hP

/-! ## The rewriter returns, and leaves the cursor at 0 -/

theorem processTextNode_total (createImg : List Char → Bool) (v : List Char) (j : Nat) :
    ∃ r li, processTextNode createImg v j = some (r, li) := by
  rcases processTextNode_rule_any createImg (fun _ _ _ => True) (fun _ _ _ => trivial)
    (fun _ _ _ _ _ _ _ _ => trivial) v j with ⟨li, h⟩ | ⟨frag, h, -⟩
  · exact ⟨none, li, h⟩
  · exact ⟨some frag, 0, h⟩

theorem processTextNode_zero (createImg : List Char → Bool) (v : List Char) :
    ∃ r, processTextNode createImg v 0 = some (r, 0) := by
  rcases processTextNode_rule createImg (fun _ _ _ => True) (fun _ _ _ => trivial)
    (fun _ _ _ _ _ _ _ _ => trivial) v with ⟨-, h⟩ | ⟨-, frag, h, -⟩
  · exact ⟨none, h⟩
  · exact ⟨some frag, h⟩

mutual

theorem processNode_total (createImg : List Char → Bool) :
    ∀ (n : Node) (j : Nat), ∃ out li, processNode createImg n j = some (out, li)
  | .text v, j => by
    obtain ⟨r, li, e⟩ := processTextNode_total createImg v j
    rw [processNode, e]
    exact ⟨_, _, rfl⟩
  | .img src, j => ⟨_, j, rfl⟩
  | .elem name kids, j => by
    obtain ⟨out, li, e⟩ := processNodes_total createImg kids j
    rw [processNode, e]
    exact ⟨_, _, rfl⟩

theorem processNodes_total (createImg : List Char → Bool) :
    ∀ (ns : List Node) (j : Nat),
      ∃ out li, processNode.processNodes createImg ns j = some (out, li)
  | [], j => ⟨[], j, rfl⟩
  | n :: ns, j => by
    obtain ⟨o1, l1, e1⟩ := processNode_total createImg n j
    obtain ⟨o2, l2, e2⟩ := processNodes_total createImg ns l1
    exact ⟨o1 ++ o2, l2, by simp [processNode.processNodes, e1, e2]⟩

end

mutual

theorem processNode_zero (createImg : List Char → Bool) :
    ∀ (n : Node), ∃ out, processNode createImg n 0 = some (out, 0)
  | .text v => by
    obtain ⟨r, e⟩ := processTextNode_zero createImg v
    rw [processNode, e]
    exact ⟨_, rfl⟩
  | .img src => ⟨_, rfl⟩
  | .elem name kids => by
    obtain ⟨out, e⟩ := processNodes_zero createImg kids
    rw [processNode, e]
    exact ⟨_, rfl⟩

theorem processNodes_zero (createImg : List Char → Bool) :
    ∀ (ns : List Node), ∃ out, processNode.processNodes createImg ns 0 = some (out, 0)
  | [] => ⟨[], rfl⟩
  | n :: ns => by
    obtain ⟨o1, e1⟩ := processNode_zero createImg n
    obtain ⟨o2, e2⟩ := processNodes_zero createImg ns
    exact ⟨o1 ++ o2, by simp [processNode.processNodes, e1, e2]⟩

end

theorem processCommentElement_zero (createImg : List Char → Bool) (el : Container) :
    ∃ el1, processCommentElement createImg el 0 = some (el1, 0) := by
  obtain ⟨out, e⟩ := processNodes_zero createImg el.kids
  simp only [processCommentElement, ite_self, e]
  exact ⟨_, rfl⟩

theorem processAllComments_zero (createImg : List Char → Bool) :
    ∀ (els : List Container), ∃ out, processAllComments createImg els 0 = some (out, 0)
  | [] => ⟨[], rfl⟩
  | el :: els => by
    obtain ⟨o1, e1⟩ := processCommentElement_zero createImg el
    obtain ⟨o2, e2⟩ := processAllComments_zero createImg els
    exact ⟨o1 :: o2, by simp [processAllComments, e1, e2]⟩

theorem cursorAfterScans_zero (createImg : List Char → Bool) :
    ∀ (pages : List (List Container)), cursorAfterScans createImg pages 0 = some 0
  | [] => rfl
  | page :: pages => by
    obtain ⟨o, e⟩ := processAllComments_zero createImg page
    simp [cursorAfterScans, e, cursorAfterScans_zero createImg pages]

mutual

theorem testCursors_zero (createImg : List Char → Bool) :
    ∀ (n : Node), ∀ c ∈ testCursors createImg n 0, c = 0
  | .text v => by
    intro c hc
    rw [testCursors] at hc
    split at hc
    · simp at hc
    · simpa using hc
  | .img src => by
    intro c hc
    simp [testCursors] at hc
  | .elem name kids => by
    intro c hc
    rw [testCursors] at hc
    exact testCursorsList_zero createImg kids c hc

theorem testCursorsList_zero (createImg : List Char → Bool) :
    ∀ (ns : List Node), ∀ c ∈ testCursors.testCursorsList createImg ns 0, c = 0
  | [] => by
    intro c hc
    simp [testCursors.testCursorsList] at hc
  | n :: ns => by
    intro c hc
    obtain ⟨o1, e1⟩ := processNode_zero createImg n
    rw [testCursors.testCursorsList, e1] at hc
    rcases List.mem_append.1 hc with h | h
    · exact testCursors_zero createImg n c h
    · exact testCursorsList_zero createImg ns c h

end

theorem testCursorsAll_zero (createImg : List Char → Bool) :
    ∀ (els : List Container), ∀ c ∈ testCursorsAll createImg els 0, c = 0
  | [] => by
    intro c hc
    simp [testCursorsAll] at hc
  | el :: els => by
    intro c hc
    obtain ⟨o1, e1⟩ := processCommentElement_zero createImg el
    rw [testCursorsAll, e1] at hc
    rcases List.mem_append.1 hc with h | h
    · exact testCursorsList_zero createImg el.kids c h
    · exact testCursorsAll_zero createImg els c h

/-! ## C16 -/

/-- C16 (the processed marker never blocks a scan).  For every container,
whatever the regex cursor: the check of the marker at the entry of
`processCommentElement` changes nothing, the result is the same whatever value
the marker has (absent, `"1"` or any other string); the run returns, its nodes
are those the text-node rewriter produces from the children, and the marker is
`"1"` afterwards.  A container already marked `"1"` whose text holds a tag has
the tag rewritten. -/
theorem C16_marker_never_blocks (createImg : List Char → Bool) (el : Container)
    (reLast : Nat) :
    (∀ flag, processCommentElement createImg ⟨flag, el.kids⟩ reLast =
      processCommentElement createImg el reLast) ∧
    (∃ out li, processNode.processNodes createImg el.kids reLast = some (out, li) ∧
      processCommentElement createImg el reLast = some (⟨some "1".toList, out⟩, li)) ∧
    processCommentElement (fun _ => true)
        ⟨some "1".toList, [.text "see [image=h://a/b.png]".toList]⟩ 0 =
      some (⟨some "1".toList, [.text "see ".toList, .img "http://a/b.png".toList]⟩, 0) := by
  refine ⟨?_, ?_, ?_⟩
  · intro flag
    simp only [processCommentElement, ite_self]
  · obtain ⟨out, li, e⟩ := processNodes_total createImg el.kids reLast
    exact ⟨out, li, e, by simp [processCommentElement, e]⟩
  · rfl

/-! ## C18 -/

/-- C18 (the shared regex cursor).  `IMAGE_TAG_REGEX.lastIndex` starts at 0.
After any sequence of scans the cursor is 0 again, and a scan begun then enters
every `test` of a non-empty text node with the cursor at 0.  Whatever the cursor
after `test`, the loop of a node that passed `test` is run from cursor 0 (line
80).  So a text node holding a tag is never skipped: it is replaced by a
fragment whose match segments come from all the matches of the tag pattern in
the text, the first one included, and the cursor is 0 afterwards. -/
theorem C18_cursor_invariant (createImg : List Char → Bool) :
    (∀ pages page, cursorAfterScans createImg pages 0 = some 0 ∧
      (∃ out, processAllComments createImg page 0 = some (out, 0)) ∧
      ∀ c ∈ testCursorsAll createImg page 0, c = 0) ∧
    (∀ v j, v.isEmpty = false → (test IMAGE_TAG_REGEX v j).1 = true →
      processTextNode createImg v j =
        (tagLoop createImg v (v.length + 1) 0 0 []).map (fun p => (some p.1, p.2))) ∧
    (∀ v, hasTag v = true → ∃ frag m ms,
      processTextNode createImg v 0 = some (some frag, 0) ∧
      matchAll IMAGE_TAG_REGEX v = m :: ms ∧
      frag.filterMap Seg.origin = m :: ms) := by
  refine ⟨?_, ?_, ?_⟩
  · intro pages page
    exact ⟨cursorAfterScans_zero createImg pages, processAllComments_zero createImg page,
      testCursorsAll_zero createImg page⟩
  · intro v j hv ht
    rw [processTextNode, hv]
    simp only [Bool.false_eq_true, if_false]
    cases h : test IMAGE_TAG_REGEX v j with
    | mk b li =>
      rw [h] at ht
      simp only at ht
      subst ht
      rfl
  · intro v hv
    rcases processTextNode_rule createImg
        (fun done rest out =>
          out.filterMap Seg.origin = matchAllFrom IMAGE_TAG_REGEX done.reverse rest 0)
        (fun done rest hnone => origins_stop done rest hnone)
        (fun done x arg r segs hall hearly hP => origins_step createImg done x arg r segs
          hall hearly hP) v with ⟨h0, -⟩ | ⟨-, frag, h, hP⟩
    · rw [hv] at h0
      exact absurd h0 (by simp)
    · have hm : matchAll IMAGE_TAG_REGEX v ≠ [] := by
        rw [hasTag] at hv
        rcases search_tag [] v with ⟨hs, -⟩ | ⟨x, arg, r, hx, hall, hearly, -⟩
        · rw [hs] at hv
          simp at hv
        · have hx1 : v = x ++ tagText arg ++ r := hx
          rw [hx1, matchAll]
          have := matchAllFrom_tag_first [] x arg r hall hearly
          simp only [List.reverse_nil] at this
          rw [this]
          simp
      cases hml : matchAll IMAGE_TAG_REGEX v with
      | nil => exact absurd hml hm
      | cons m ms =>
        refine ⟨frag, m, ms, h, rfl, ?_⟩
        rw [← hml]
        exact hP

/-! ## The debounced trigger as a state machine -/

theorem clearTimeout_single (id due : Nat) : clearTimeout id [(id, due)] = [] := by
  simp [clearTimeout]

theorem call_of_inv (wait : Nat) (s : Debounce) (h : DebounceInv s) :
    s.call wait = ⟨some s.nextId, [(s.nextId, s.now + wait)], s.nextId + 1, s.now, s.calls⟩ := by
  rcases h with ⟨-, ⟨ht, htm⟩ | ⟨id, due, ht, hid, -, htm, -⟩⟩
  · simp [Debounce.call, ht, htm]
  · simp [Debounce.call, ht, htm, hid, clearTimeout_single]

theorem elapse_idle (d : Nat) (s : Debounce) (h : s.timers = []) :
    s.elapse d = { s with now := s.now + d } := by
  simp [Debounce.elapse, h, sortDue]

theorem elapse_early (d : Nat) (s : Debounce) (id due : Nat) (h : s.timers = [(id, due)])
    (hd : s.now + d < due) :
    s.elapse d = { s with now := s.now + d } := by
  have : ¬ due ≤ s.now + d := by omega
  simp [Debounce.elapse, h, sortDue, this]

theorem elapse_fire (d : Nat) (s : Debounce) (id due : Nat) (h : s.timers = [(id, due)])
    (h1 : s.now ≤ due) (h2 : due ≤ s.now + d) :
    s.elapse d = ⟨none, [], s.nextId, s.now + d, s.calls ++ [due]⟩ := by
  have hm : max s.now due = due := Nat.max_eq_right h1
  simp [Debounce.elapse, h, sortDue, insertDue, h2, Debounce.fire, clearTimeout_single, hm]

theorem inv_init : DebounceInv Debounce.init :=
  ⟨Nat.le_refl 1, Or.inl ⟨rfl, rfl⟩⟩

theorem inv_call (wait : Nat) (s : Debounce) (h : DebounceInv s) :
    DebounceInv (s.call wait) := by
  rw [call_of_inv wait s h]
  refine ⟨by simp, Or.inr ⟨s.nextId, s.now + wait, rfl, ?_, ?_, rfl, ?_⟩⟩
  · have := h.1
    omega
  · simp
  · simp

theorem inv_elapse (d : Nat) (s : Debounce) (h : DebounceInv s) :
    DebounceInv (s.elapse d) := by
  rcases h with ⟨hn, ⟨ht, htm⟩ | ⟨id, due, ht, hid, hlt, htm, hdue⟩⟩
  · rw [elapse_idle d s htm]
    exact ⟨hn, Or.inl ⟨ht, htm⟩⟩
  · by_cases hd : due ≤ s.now + d
    · rw [elapse_fire d s id due htm hdue hd]
      exact ⟨hn, Or.inl ⟨rfl, rfl⟩⟩
    · rw [elapse_early d s id due htm (by omega)]
      exact ⟨hn, Or.inr ⟨id, due, ht, hid, hlt, htm, by simp; omega⟩⟩

theorem inv_step (wait : Nat) (s : Debounce) (e : Event) (h : DebounceInv s) :
    DebounceInv (s.step wait e) := by
  cases e with
  | call => exact inv_call wait s h
  | elapse d => exact inv_elapse d s h

theorem inv_run (wait : Nat) (es : List Event) :
    ∀ s, DebounceInv s → DebounceInv (Debounce.run wait s es) := by
  induction es with
  | nil => exact fun s h => h
  | cons e es ih => exact fun s h => ih _ (inv_step wait s e h)

theorem inv_timers (s : Debounce) (h : DebounceInv s) : s.timers.length ≤ 1 := by
  rcases h with ⟨-, ⟨-, htm⟩ | ⟨id, due, -, -, -, htm, -⟩⟩ <;> simp [htm]

theorem run_append (wait : Nat) (s : Debounce) (a b : List Event) :
    Debounce.run wait s (a ++ b) = Debounce.run wait (Debounce.run wait s a) b := by
  simp [Debounce.run, List.foldl_append]

theorem run_burst (wait : Nat) (gaps : List Nat) (hg : ∀ g ∈ gaps, g < wait) :
    ∀ s, DebounceInv s →
      Debounce.run wait s (burst gaps) =
        ⟨some (s.nextId + gaps.length), [(s.nextId + gaps.length, s.now + gaps.sum + wait)],
          s.nextId + gaps.length + 1, s.now + gaps.sum, s.calls⟩ := by
  induction gaps with
  | nil =>
    intro s h
    simp [burst, Debounce.run, Debounce.step, call_of_inv wait s h]
  | cons g gs ih =>
    intro s h
    have hg1 : g < wait := hg g (List.mem_cons_self _ _)
    have hc := call_of_inv wait s h
    have hi := inv_call wait s h
    have he : (s.call wait).elapse g =
        ⟨some s.nextId, [(s.nextId, s.now + wait)], s.nextId + 1, s.now + g, s.calls⟩ := by
      rw [elapse_early g (s.call wait) s.nextId (s.now + wait) (by rw [hc]) (by rw [hc]; simp; omega),
        hc]
    have hi2 := inv_elapse g _ hi
    have := ih (fun x hx => hg x (List.mem_cons_of_mem _ hx)) _ hi2
    rw [burst]
    show Debounce.run wait ((s.call wait).elapse g) (burst gs) = _
    rw [this, he]
    simp only [List.length_cons, List.sum_cons]
    congr 1 <;> first | omega | (congr 1; omega) | skip
    all_goals simp; try omega

/-! ## C17 -/

/-- C17 (debounce coalescing).  The debounced scan is the closure of `debounce`
with a wait of 500 ms, driven by calls and by time passing.  In every state
reachable from the initial one at most one timer is pending.  From any such
state, a burst of `k ≥ 1` calls (here `k` is one more than the number of gaps)
in which each gap between two calls is shorter than the wait, followed by a
quiet time of at least the wait, adds exactly one invocation of the wrapped
function, at the time of the last call of the burst plus 500 ms, and leaves no
timer pending. -/
theorem C17_debounce_coalescing (es : List Event) (gaps : List Nat) (d : Nat)
    (hg : ∀ g ∈ gaps, g < debouncedProcessWait) (hd : debouncedProcessWait ≤ d) :
    (Debounce.run debouncedProcessWait Debounce.init es).timers.length ≤ 1 ∧
    (Debounce.run debouncedProcessWait Debounce.init (es ++ burst gaps)).calls =
      (Debounce.run debouncedProcessWait Debounce.init es).calls ∧
    (Debounce.run debouncedProcessWait Debounce.init (es ++ burst gaps ++ [.elapse d])).calls =
      (Debounce.run debouncedProcessWait Debounce.init es).calls ++
        [(Debounce.run debouncedProcessWait Debounce.init es).now + gaps.sum + 500] ∧
    (Debounce.run debouncedProcessWait Debounce.init (es ++ burst gaps ++ [.elapse d])).timers
      = [] := by
  have hi := inv_run debouncedProcessWait es _ inv_init
  have hb := run_burst debouncedProcessWait gaps hg _ hi
  have hw : debouncedProcessWait = 500 := rfl
  refine ⟨inv_timers _ hi, ?_, ?_, ?_⟩
  · rw [run_append, hb]
  · rw [run_append, run_append, hb]
    simp only [Debounce.run, List.foldl_cons, List.foldl_nil, Debounce.step]
    rw [elapse_fire d _ _ _ rfl (by simp) (by simp; omega)]
    simp only [hw]
  · rw [run_append, run_append, hb]
    simp only [Debounce.run, List.foldl_cons, List.foldl_nil, Debounce.step]
    rw [elapse_fire d _ _ _ rfl (by simp) (by simp; omega)]

/-- Witness of C17: after a call and 100 ms, a burst of three calls with gaps of
100 ms and 499 ms, then 500 ms of quiet: one invocation, at 1199 ms. -/
theorem C17_debounce_coalescing_witness :
    (∀ g ∈ [100, 499], g < debouncedProcessWait) ∧ debouncedProcessWait ≤ 500 ∧
    (Debounce.run debouncedProcessWait Debounce.init
      ([.call, .elapse 100] ++ burst [100, 499] ++ [.elapse 500])).calls = [1199] ∧
    ((Debounce.run debouncedProcessWait Debounce.init [.call, .elapse 100]).timers.length ≤ 1 ∧
    (Debounce.run debouncedProcessWait Debounce.init
      ([.call, .elapse 100] ++ burst [100, 499])).calls =
      (Debounce.run debouncedProcessWait Debounce.init [.call, .elapse 100]).calls ∧
    (Debounce.run debouncedProcessWait Debounce.init
      ([.call, .elapse 100] ++ burst [100, 499] ++ [.elapse 500])).calls =
      (Debounce.run debouncedProcessWait Debounce.init [.call, .elapse 100]).calls ++
        [(Debounce.run debouncedProcessWait Debounce.init [.call, .elapse 100]).now +
          [100, 499].sum + 500] ∧
    (Debounce.run debouncedProcessWait Debounce.init
      ([.call, .elapse 100] ++ burst [100, 499] ++ [.elapse 500])).timers = []) :=
  ⟨by decide, by decide, by decide,
    C17_debounce_coalescing [.call, .elapse 100] [100, 499] 500 (by decide) (by decide)⟩

end CS
